import Mathlib

/-!
# Wave-function-collapse grid solver: problem splitting and task scheduling

A shallow embedding of `wfc_2d_problem_native.cpp`, `wfc_bitset_native.h` and
`wfc_multithreaded_runner_native.cpp`.

Conventions of the embedding.

* C++ `int` and `int64_t` values are mathematical integers (`Int`).  Signed
  overflow is undefined behaviour in C++, so arithmetic is read on inputs whose
  intermediate results fit the machine type.  A narrowing read of a 64-bit
  array element into an `int` variable is explicit: `to_int32`.
* C++ `/` and `%` on `int` truncate toward zero: `Int.tdiv`, `Int.tmod`.
  Division by zero is undefined in C++ and total in Lean, so a definition that
  divides is read on inputs whose divisor is not zero.
* Engine arrays (`TypedArray`, `PackedInt64Array`) are lists; reference-counted
  objects are plain values.
* `Vector2i` and `Rect2i` are the engine's value types; their methods follow
  the engine's definitions.
* Code of the repository whose source file is not part of the development
  (bit-set and bit-matrix method bodies, the rules and solver-state classes) is
  modelled from the specification and marked as such.
-/

namespace WFC

/-! ## Engine value types -/

/-- Engine type `Vector2i`: a pair of `int` coordinates. -/
structure Vector2i where
  x : Int
  y : Int
deriving DecidableEq, Repr

namespace Vector2i

/-- Component-wise sum, `operator+`. -/
def add (a b : Vector2i) : Vector2i := ⟨a.x + b.x, a.y + b.y⟩

/-- Component-wise difference, `operator-`. -/
def sub (a b : Vector2i) : Vector2i := ⟨a.x - b.x, a.y - b.y⟩

/-- Unary minus, `operator-`. -/
def neg (a : Vector2i) : Vector2i := ⟨-a.x, -a.y⟩

/-- Division of both components by an `int`, truncating toward zero. -/
def div (a : Vector2i) (d : Int) : Vector2i := ⟨a.x.tdiv d, a.y.tdiv d⟩

end Vector2i

/-- Engine type `Rect2i`: a position and a size. -/
structure Rect2i where
  position : Vector2i
  size : Vector2i
deriving DecidableEq, Repr

namespace Rect2i

/-- The default-constructed rectangle `Rect2i()`. -/
def zero : Rect2i := ⟨⟨0, 0⟩, ⟨0, 0⟩⟩

/-- Engine method `Rect2i::has_point`: four comparisons, each an early `return false`. -/
def has_point (r : Rect2i) (p : Vector2i) : Bool :=
  if p.x < r.position.x then false
  else if p.y < r.position.y then false
  else if p.x ≥ r.position.x + r.size.x then false
  else if p.y ≥ r.position.y + r.size.y then false
  else true

/-- Engine method `Rect2i::intersects`. -/
def intersects (r o : Rect2i) : Bool :=
  if r.position.x ≥ o.position.x + o.size.x then false
  else if r.position.x + r.size.x ≤ o.position.x then false
  else if r.position.y ≥ o.position.y + o.size.y then false
  else if r.position.y + r.size.y ≤ o.position.y then false
  else true

/-- Engine method `Rect2i::intersection`: the zero rectangle when the two do not
intersect, otherwise the rectangle between the larger position and the smaller end. -/
def intersection (r o : Rect2i) : Rect2i :=
  if !r.intersects o then zero
  else
    let px := max o.position.x r.position.x
    let py := max o.position.y r.position.y
    let ex := min (o.position.x + o.size.x) (r.position.x + r.size.x)
    let ey := min (o.position.y + o.size.y) (r.position.y + r.size.y)
    ⟨⟨px, py⟩, ⟨ex - px, ey - py⟩⟩

/-- Engine method `Rect2i::has_area`. -/
def has_area (r : Rect2i) : Bool := decide (r.size.x > 0) && decide (r.size.y > 0)

/-- Engine method `Rect2i::get_area`. -/
def get_area (r : Rect2i) : Int := r.size.x * r.size.y

end Rect2i

/-- Reading a 64-bit array element into a C++ `int`: the value modulo `2^32`,
taken in the signed range. -/
def to_int32 (v : Int) : Int := (v + 2147483648) % 4294967296 - 2147483648

/-! ## Bit sets and bit matrices -/

/-- The data members of `WFCBitSetNative` (`wfc_bitset_native.h`): two fixed
64-bit words, the overflow words and the logical size.  A word is kept as the
natural number of its bit pattern. -/
structure BitSet where
  data0 : Nat
  data1 : Nat
  dataX : List Nat
  size_ : Nat
deriving DecidableEq, Repr

namespace BitSet

/-- Constant `BITS_PER_INT`. -/
def BITS_PER_INT : Nat := 64

/-- Constant `STATIC_BITS = BITS_PER_INT * STATIC_ELEMS`. -/
def STATIC_BITS : Nat := 128

/-- Modelled from the spec: the bit-set initialisation with default `false`, whose
body is not in the header (method `initialize`; the word is reserved in Lean).
All bits clear; overflow words exist only for bits at and above 128. -/
def init (size_val : Nat) : BitSet :=
  { data0 := 0, data1 := 0,
    dataX := List.replicate ((size_val - STATIC_BITS + (BITS_PER_INT - 1)) / BITS_PER_INT) 0,
    size_ := size_val }

/-- Modelled from the spec: `get_bit`, whose body is not in the header.  Bit `i`
lives in `data0` below 64, in `data1` below 128 and in the overflow words
above; a position outside the logical size reads as clear. -/
def get_bit (b : BitSet) (bit_num : Nat) : Bool :=
  if bit_num ≥ b.size_ then false
  else if bit_num < BITS_PER_INT then b.data0.testBit bit_num
  else if bit_num < STATIC_BITS then b.data1.testBit (bit_num - BITS_PER_INT)
  else (b.dataX.getD ((bit_num - STATIC_BITS) / BITS_PER_INT) 0).testBit
    ((bit_num - STATIC_BITS) % BITS_PER_INT)

/-- Modelled from the spec: `set_bit(bit_num, true)`, whose body is not in the
header.  Positions outside the logical size are never touched. -/
def set_bit (b : BitSet) (bit_num : Nat) : BitSet :=
  if bit_num ≥ b.size_ then b
  else if bit_num < BITS_PER_INT then { b with data0 := b.data0 ||| (1 <<< bit_num) }
  else if bit_num < STATIC_BITS then
    { b with data1 := b.data1 ||| (1 <<< (bit_num - BITS_PER_INT)) }
  else
    let k := (bit_num - STATIC_BITS) / BITS_PER_INT
    let word := b.dataX.getD k 0 ||| (1 <<< ((bit_num - STATIC_BITS) % BITS_PER_INT))
    { b with dataX := b.dataX.set k word }

/-- Modelled from the spec: `copy`, an exact value copy. -/
def copy (b : BitSet) : BitSet := b

/-- Modelled from the spec: `intersect_in_place`, whose body is not in the
header.  Word-wise conjunction; unequal logical sizes are a contract violation
and reported as a failure. -/
def intersect_in_place (b other : BitSet) : Option BitSet :=
  if b.size_ ≠ other.size_ then none
  else some
    { data0 := b.data0 &&& other.data0,
      data1 := b.data1 &&& other.data1,
      dataX := List.zipWith (fun u v => u &&& v) b.dataX other.dataX,
      size_ := b.size_ }

/-- Modelled from the spec: `union_in_place`, whose body is not in the header.
Word-wise disjunction; unequal logical sizes are a contract violation and
reported as a failure. -/
def union_in_place (b other : BitSet) : Option BitSet :=
  if b.size_ ≠ other.size_ then none
  else some
    { data0 := b.data0 ||| other.data0,
      data1 := b.data1 ||| other.data1,
      dataX := List.zipWith (fun u v => u ||| v) b.dataX other.dataX,
      size_ := b.size_ }

end BitSet

/-- Modelled from the spec: the bit-matrix class, whose source file is not part
of the development.  An ordered sequence of row bit sets; the height is the
number of rows and the width is the bit length of a row. -/
structure BitMatrix where
  width : Nat
  rows : List BitSet
deriving DecidableEq, Repr

namespace BitMatrix

/-- Modelled from the spec: the height is the number of rows. -/
def get_height (m : BitMatrix) : Nat := m.rows.length

/-- Modelled from the spec: bit `j` of row `i`; a missing row reads as clear. -/
def get_bit (m : BitMatrix) (i j : Nat) : Bool :=
  match m.rows[i]? with
  | some row => row.get_bit j
  | none => false

/-- Modelled from the spec: row `j` of the transpose, a bit set of the original
height in which bit `i` is set when bit `j` of row `i` of the original is set. -/
def transpose_row (m : BitMatrix) (j : Nat) : BitSet :=
  (List.range m.get_height).foldl
    (fun acc i => if m.get_bit i j then acc.set_bit i else acc)
    (BitSet.init m.get_height)

/-- Modelled from the spec: `transpose()`, a new matrix of swapped dimensions
where row `i`, bit `j` of the transpose equals row `j`, bit `i` of the original. -/
def transpose (m : BitMatrix) : BitMatrix :=
  { width := m.get_height,
    rows := (List.range m.width).map (fun j => m.transpose_row j) }

/-- Modelled from the spec: `transform(vector)`: starting from the empty set of
the matrix width, the rows selected by the set bits of `vector` are
OR-accumulated, in increasing bit order. -/
def transform (m : BitMatrix) (vector : BitSet) : Option BitSet :=
  (List.range vector.size_).foldlM
    (fun acc i =>
      if vector.get_bit i then
        match m.rows[i]? with
        | some row => acc.union_in_place row
        | none => some acc
      else some acc)
    (BitSet.init m.width)

end BitMatrix

/-! ## Rules and solver state (collaborators) -/

/-- Modelled from the spec: the rules collaborator, whose class is not part of
the development: the tile count, the ordered (axis, adjacency matrix)
declarations, the influence range, and the optional per-tile weights. -/
structure Rules where
  tile_count : Int
  declarations : List (Vector2i × BitMatrix)
  influence_range : Vector2i
  probabilities_enabled : Bool
  probabilities : List Rat
deriving DecidableEq

namespace Rules

/-- Getter `get_axes()`: the declared axes, in order. -/
def get_axes (r : Rules) : List Vector2i := r.declarations.map Prod.fst

/-- Getter `get_axis_matrices()`: the declared matrices, in order. -/
def get_axis_matrices (r : Rules) : List BitMatrix := r.declarations.map Prod.snd

end Rules

/-- Modelled from the spec: the solver state consumed by the problem: one domain
per cell and one solution-or-entropy integer per cell. -/
structure SolverState where
  cell_domains : List BitSet
  cell_solution_or_entropy : List Int
deriving DecidableEq

/-! ## The 2D problem -/

/-- The data members of `WFC2DProblemNative`. -/
structure Problem where
  rules_ : Rules
  rect_ : Rect2i
  renderable_rect_ : Rect2i
  edges_rect_ : Rect2i
  tile_count_ : Int
  axes_ : List Vector2i
  axis_matrices_ : List BitMatrix
  init_read_rects_ : List Rect2i
  precondition_domains_ : List (Option BitSet)
  precondition_solutions_ : List Int
deriving DecidableEq

/-- A problem with its dependency indices, `WFCProblemSubProblemNative`. -/
structure SubProblem where
  problem : Problem
  dependencies : List Int
deriving DecidableEq

/-- The loop of the problem's `initialize` method over the declared axes, reading
`rule_axes[i]` and `rule_matrices[i]`: the forward pair and then the reverse
pair are appended.  The two arrays come from the same declarations and have
the same length. -/
def init_loop : List Vector2i → List BitMatrix → List Vector2i × List BitMatrix
  | axis :: rule_axes, matrix :: rule_matrices =>
    let rest := init_loop rule_axes rule_matrices
    (axis :: axis.neg :: rest.1, matrix :: matrix.transpose :: rest.2)
  | _, _ => ([], [])

namespace Problem

/-- A newly instantiated problem object, before its initialisation. -/
def fresh (rules : Rules) : Problem :=
  { rules_ := rules, rect_ := Rect2i.zero, renderable_rect_ := Rect2i.zero,
    edges_rect_ := Rect2i.zero, tile_count_ := 0, axes_ := [], axis_matrices_ := [],
    init_read_rects_ := [], precondition_domains_ := [], precondition_solutions_ := [] }

/-- Method `initialize(rules, rect)` (the word is reserved in Lean). -/
def init (self : Problem) (rules : Rules) (rect : Rect2i) : Problem :=
  let built := init_loop rules.get_axes rules.get_axis_matrices
  { self with
    rules_ := rules, rect_ := rect, renderable_rect_ := rect, edges_rect_ := rect,
    tile_count_ := rules.tile_count, axes_ := built.1, axis_matrices_ := built.2 }

/-- Setter `set_renderable_rect`. -/
def set_renderable_rect (self : Problem) (val : Rect2i) : Problem :=
  { self with renderable_rect_ := val }

/-- Setter `set_edges_rect`. -/
def set_edges_rect (self : Problem) (val : Rect2i) : Problem :=
  { self with edges_rect_ := val }

/-- Setter `set_init_read_rects`. -/
def set_init_read_rects (self : Problem) (val : List Rect2i) : Problem :=
  { self with init_read_rects_ := val }

/-- Method `coord_to_id`. -/
def coord_to_id (self : Problem) (coord : Vector2i) : Int :=
  self.rect_.size.x * coord.y + coord.x

/-- Method `id_to_coord`.  The source divides by `szx`; at width 0 that is a
division by zero, which the total `Int.tmod` and `Int.tdiv` do not show, so the
definition is read on rects whose width is not 0. -/
def id_to_coord (self : Problem) (id : Int) : Vector2i :=
  let szx := self.rect_.size.x
  ⟨id.tmod szx, id.tdiv szx⟩

/-- Method `get_cell_count`. -/
def get_cell_count (self : Problem) : Int := self.rect_.get_area

/-- The resize of `precondition_domains_` to `cell_count` entries: existing
entries are kept, new entries are null. -/
def resize_domains (l : List (Option BitSet)) (n : Nat) : List (Option BitSet) :=
  l.take n ++ List.replicate (n - l.length) none

/-- Method `set_precondition_solution(cell_id, solution)`. -/
def set_precondition_solution (self : Problem) (cell_id solution : Int) : Problem :=
  let cell_count := self.get_cell_count
  let domains :=
    if (self.precondition_domains_.length : Int) ≠ cell_count then
      resize_domains self.precondition_domains_ cell_count.toNat
    else self.precondition_domains_
  let solutions :=
    if (self.precondition_solutions_.length : Int) ≠ cell_count then
      List.replicate cell_count.toNat (-1)
    else self.precondition_solutions_
  let solutions :=
    if cell_id ≥ 0 ∧ cell_id < cell_count then solutions.set cell_id.toNat solution
    else solutions
  { self with precondition_domains_ := domains, precondition_solutions_ := solutions }

/-- The pre-solved tile of a cell as `populate_initial_state` reads it: the array
entry when the array reaches the cell, and the value -1 (not pre-solved) otherwise. -/
def precondition_solution_at (self : Problem) (cell_id : Nat) : Int :=
  self.precondition_solutions_.getD cell_id (-1)

/-- Method `get_dependencies_range`. -/
def get_dependencies_range (self : Problem) : Vector2i :=
  self.axes_.foldl (fun r axis => ⟨max r.x |axis.x|, max r.y |axis.y|⟩) ⟨0, 0⟩

end Problem

/-- Reading element `i` of an engine array; an index outside the array is an
engine error. -/
def index? {α : Type} (l : List α) (i : Int) : Option α :=
  if i < 0 then none else l[i.toNat]?

namespace Problem

/-- The body of the axis loop of `compute_cell_domain` for axis index `i`: the
running result `res` is returned unchanged on either `continue`, and otherwise
intersected with the transformed neighbour domain. -/
def compute_cell_domain_step (self : Problem) (CELL_SOLUTION_FAILED : Int)
    (state : SolverState) (pos : Vector2i) (res : BitSet) (i : Nat) : Option BitSet :=
  match self.axes_[i]? with
  | none => none
  | some axis =>
    let other_pos := pos.add axis
    if !self.rect_.has_point (other_pos.add self.rect_.position) then some res
    else
      let other_id := self.coord_to_id other_pos
      match index? state.cell_solution_or_entropy other_id with
      | none => none
      | some soe =>
        if soe = CELL_SOLUTION_FAILED then some res
        else
          match index? state.cell_domains other_id with
          | none => none
          | some other_domain =>
            match self.axis_matrices_[i]? with
            | none => none
            | some matrix =>
              match matrix.transform other_domain with
              | none => none
              | some transformed => res.intersect_in_place transformed

/-- Method `compute_cell_domain(state, cell_id)`.  The sentinel
`WFCSolverStateNative::CELL_SOLUTION_FAILED` is declared outside the
development and is a parameter.  The result is `none` when an array is read
outside its bounds or a bit-set operation reports a size mismatch. -/
def compute_cell_domain (self : Problem) (CELL_SOLUTION_FAILED : Int)
    (state : SolverState) (cell_id : Int) : Option BitSet :=
  match index? state.cell_domains cell_id with
  | none => none
  | some current_domain =>
    let pos := self.id_to_coord cell_id
    (List.range self.axes_.length).foldlM
      (fun res i => self.compute_cell_domain_step CELL_SOLUTION_FAILED state pos res i)
      current_domain.copy

end Problem

/-! ## Splitting -/

/-- The recursion of `split_range` on a positive partition count `k + 1`; the
recursive call passes one partition fewer. -/
def split_range_rec (first size : Int) (min_partition_size : Int) : Nat → List Int
  | 0 => []
  | k + 1 =>
    let partitions : Int := ((k + 1 : Nat) : Int)
    let approx_partition_size := size.tdiv partitions
    if approx_partition_size < min_partition_size then
      if partitions ≤ 2 then [first, first + size]
      else split_range_rec first size min_partition_size k
    else
      (List.range (k + 1)).map
          (fun (partition : Nat) => first + (size * (partition : Int)).tdiv partitions)
        ++ [first + size]

/-- Method `split_range(first, size, partitions, min_partition_size)`; a
partition count that is zero or negative gives the empty array. -/
def split_range (first size partitions min_partition_size : Int) : List Int :=
  if partitions ≤ 0 then []
  else split_range_rec first size min_partition_size partitions.toNat

/-- The axis along which `split` cuts the rectangle. -/
inductive SplitAxis where
  | X
  | Y
deriving DecidableEq, Repr

namespace Problem

/-- Local `may_split_x` of `split`. -/
def may_split_x (self : Problem) : Bool :=
  decide (self.rules_.influence_range.x < self.rect_.size.x)

/-- Local `may_split_y` of `split`. -/
def may_split_y (self : Problem) : Bool :=
  decide (self.rules_.influence_range.y < self.rect_.size.y)

/-- Local `split_x_overhead` of `split`. -/
def split_x_overhead (self : Problem) : Int :=
  self.rules_.influence_range.x * self.rect_.size.y

/-- Local `split_y_overhead` of `split`. -/
def split_y_overhead (self : Problem) : Int :=
  self.rules_.influence_range.y * self.rect_.size.x

/-- The three-way branch of `split` on the split axis: the `if` takes X, the
`else if` takes Y, and the final `else` (no axis) is `none`. -/
def choose_split_axis (self : Problem) : Option SplitAxis :=
  if self.may_split_x && (!self.may_split_y
      || decide (self.split_x_overhead ≤ self.split_y_overhead)) then
    some SplitAxis.X
  else if self.may_split_y && (!self.may_split_x
      || decide (self.split_y_overhead ≤ self.split_x_overhead)) then
    some SplitAxis.Y
  else none

/-- The single sub-problem returned on each fallback path of `split`: a copy
of the problem with no dependencies. -/
def single_sub_problem (self : Problem) : SubProblem :=
  { problem := (((Problem.fresh self.rules_).init self.rules_ self.rect_).set_renderable_rect
      self.renderable_rect_).set_edges_rect self.edges_rect_,
    dependencies := [] }

/-- Local `extra_overlap` of `split` after the branch on the axis. -/
def extra_overlap (self : Problem) : SplitAxis → Vector2i
  | SplitAxis.X => ⟨self.rules_.influence_range.x * 2, 0⟩
  | SplitAxis.Y => ⟨0, self.rules_.influence_range.y * 2⟩

/-- Local `partitions` of `split` in the branch of the given axis. -/
def split_partitions (self : Problem) (concurrency_limit : Int) : SplitAxis → List Int
  | SplitAxis.X =>
    split_range self.rect_.position.x self.rect_.size.x (concurrency_limit * 2)
      (self.get_dependencies_range.x + (self.extra_overlap SplitAxis.X).x * 2)
  | SplitAxis.Y =>
    split_range self.rect_.position.y self.rect_.size.y (concurrency_limit * 2)
      (self.get_dependencies_range.y + (self.extra_overlap SplitAxis.Y).y * 2)

/-- The band rectangle built from partition boundaries `i` and `i + 1`. -/
def band_rect (self : Problem) (partitions : List Int) (i : Nat) : SplitAxis → Rect2i
  | SplitAxis.X =>
    ⟨⟨partitions.getD i 0, self.rect_.position.y⟩,
     ⟨partitions.getD (i + 1) 0 - partitions.getD i 0, self.rect_.size.y⟩⟩
  | SplitAxis.Y =>
    ⟨⟨self.rect_.position.x, partitions.getD i 0⟩,
     ⟨self.rect_.size.x, partitions.getD (i + 1) 0 - partitions.getD i 0⟩⟩

/-- Local `rects` of `split`: one band per pair of consecutive boundaries,
for `i` from 0 below `partitions.size() - 1`. -/
def split_rects (self : Problem) (concurrency_limit : Int) (axis : SplitAxis) : List Rect2i :=
  let partitions := self.split_partitions concurrency_limit axis
  (List.range (partitions.length - 1)).map (fun i => self.band_rect partitions i axis)

/-- Local `sub_renderable_rect` of the first loop of `split`. -/
def sub_renderable_rect (self : Problem) (base_rect : Rect2i) : Rect2i :=
  let dependency_range := self.get_dependencies_range
  let overlap_min := dependency_range.div 2
  let overlap_max := overlap_min.add ⟨dependency_range.x.tmod 2, dependency_range.y.tmod 2⟩
  let r : Rect2i :=
    ⟨⟨base_rect.position.x - overlap_min.x, base_rect.position.y - overlap_min.y⟩,
     ⟨base_rect.size.x + (overlap_min.x + overlap_max.x),
      base_rect.size.y + (overlap_min.y + overlap_max.y)⟩⟩
  r.intersection self.rect_

/-- Local `sub_rect` of the first loop of `split`: the renderable rectangle,
extended by `extra_overlap` and clipped for an even index. -/
def sub_rect (self : Problem) (extra_overlap : Vector2i) (i : Nat) (base_rect : Rect2i) :
    Rect2i :=
  let sub_renderable_rect := self.sub_renderable_rect base_rect
  if i % 2 = 0 then
    let r : Rect2i :=
      ⟨⟨sub_renderable_rect.position.x - extra_overlap.x,
        sub_renderable_rect.position.y - extra_overlap.y⟩,
       ⟨sub_renderable_rect.size.x + extra_overlap.x * 2,
        sub_renderable_rect.size.y + extra_overlap.y * 2⟩⟩
    r.intersection self.rect_
  else sub_renderable_rect

/-- Local `dependencies` of the first loop of `split`. -/
def split_dependencies (rects_size : Nat) (i : Nat) : List Int :=
  if i % 2 = 1 then
    [(i : Int) - 1] ++ (if (i : Int) < (rects_size : Int) - 1 then [(i : Int) + 1] else [])
  else []

/-- The body of the first loop of `split` for index `i`. -/
def split_sub_problem (self : Problem) (extra_overlap : Vector2i) (rects : List Rect2i)
    (i : Nat) : SubProblem :=
  let base_rect := rects.getD i Rect2i.zero
  { problem :=
      (((Problem.fresh self.rules_).init self.rules_
          (self.sub_rect extra_overlap i base_rect)).set_renderable_rect
        (self.sub_renderable_rect base_rect)).set_edges_rect self.edges_rect_,
    dependencies := split_dependencies rects.length i }

/-- The body of the second loop of `split` for index `i`: an odd-indexed
sub-problem receives its read rectangles, computed from its own rectangle and
the renderable rectangles of its neighbours.  The loop writes only
`init_read_rects`, which it never reads, so the neighbours are read from the
list `result` of the first loop. -/
def split_read_rects (result : List SubProblem) (i : Nat) (current_sub : SubProblem) :
    SubProblem :=
  if i % 2 = 1 then
    let cur_problem := current_sub.problem
    let first_rects :=
      match result[i - 1]? with
      | some dep1_sub => [cur_problem.rect_.intersection dep1_sub.problem.renderable_rect_]
      | none => []
    let read_rects :=
      if i + 1 < result.length then
        match result[i + 1]? with
        | some dep2_sub =>
          first_rects ++ [cur_problem.rect_.intersection dep2_sub.problem.renderable_rect_]
        | none => first_rects
      else first_rects
    { current_sub with problem := cur_problem.set_init_read_rects read_rects }
  else current_sub

/-- Method `split(concurrency_limit)`. -/
def split (self : Problem) (concurrency_limit : Int) : List SubProblem :=
  if concurrency_limit < 2 then [self.single_sub_problem]
  else
    match self.choose_split_axis with
    | none => [self.single_sub_problem]
    | some axis =>
      let rects := self.split_rects concurrency_limit axis
      if rects.length < 3 then [self.single_sub_problem]
      else
        let result := (List.range rects.length).map
          (fun i => self.split_sub_problem (self.extra_overlap axis) rects i)
        (List.range result.length).map
          (fun i => split_read_rects result i (result.getD i self.single_sub_problem))

end Problem

/-! ## The multithreaded runner -/

/-- The data members of the runner's `Task` that the scheduler reads and
writes.  The solver instance lives in the task's thread; `has_thread` records
that the `thread` member holds a joinable thread. -/
structure Task where
  problem : Problem
  dependencies : List Int
  started : Bool
  completed : Bool
  unsolved_cells : Int
  has_thread : Bool
  state_snapshot : Option SolverState
  snapshot_requested : Bool
deriving DecidableEq

/-- The data members of `WFCMultithreadedRunnerNative`. -/
structure Runner where
  tasks_ : List Task
  interrupted_ : Bool
  all_done_ : Bool
  max_threads_ : Int
deriving DecidableEq

/-- The point `(x, y)` of the double loop of `copy_boundary_solutions`, reduced
to the call it makes: `some (target_cell_id, solution)` when every guard of the
loop body passes, `none` on each `continue` and when the solution is negative. -/
def boundary_write (target_rect source_rect : Rect2i) (solutions : List Int) (x y : Int) :
    Option (Int × Int) :=
  let pos : Vector2i := ⟨x, y⟩
  if !source_rect.has_point pos then none
  else
    let source_local_x := x - source_rect.position.x
    let source_local_y := y - source_rect.position.y
    let source_cell_id := source_local_y * source_rect.size.x + source_local_x
    if source_cell_id < 0 ∨ source_cell_id ≥ (solutions.length : Int) then none
    else
      let solution := to_int32 (solutions.getD source_cell_id.toNat 0)
      if solution ≥ 0 then
        if !target_rect.has_point pos then none
        else
          let target_local_x := x - target_rect.position.x
          let target_local_y := y - target_rect.position.y
          let target_cell_id := target_local_y * target_rect.size.x + target_local_x
          some (target_cell_id, solution)
      else none

/-- The body of the double loop of `copy_boundary_solutions` at `(x, y)`. -/
def copy_boundary_cell (source_rect : Rect2i) (solutions : List Int)
    (target_problem : Problem) (x y : Int) : Problem :=
  match boundary_write target_problem.rect_ source_rect solutions x y with
  | some (target_cell_id, solution) =>
    target_problem.set_precondition_solution target_cell_id solution
  | none => target_problem

/-- The values of a loop variable running from `first` while below `first + count`. -/
def loop_range (first count : Int) : List Int :=
  (List.range count.toNat).map (fun (k : Nat) => first + (k : Int))

/-- Method `copy_boundary_solutions(target_problem, source_problem,
source_state, read_rect)`; the result is the target problem afterwards. -/
def copy_boundary_solutions (target_problem source_problem : Problem)
    (source_state : SolverState) (read_rect : Rect2i) : Problem :=
  if !read_rect.has_area then target_problem
  else
    let solutions := source_state.cell_solution_or_entropy
    let source_rect := source_problem.rect_
    (loop_range read_rect.position.x read_rect.size.x).foldl
      (fun target x =>
        (loop_range read_rect.position.y read_rect.size.y).foldl
          (fun target y => copy_boundary_cell source_rect solutions target x y)
          target)
      target_problem

/-- Method `is_task_blocked(task_index)`: some dependency index that names a
task names one that is not completed. -/
def is_task_blocked (tasks : List Task) (task_index : Nat) : Bool :=
  match tasks[task_index]? with
  | none => false
  | some task =>
    task.dependencies.any (fun dep =>
      let dep_index := to_int32 dep
      match index? tasks dep_index with
      | some dep_task => !dep_task.completed
      | none => false)

/-- The dependency loop of `start_available_tasks` for dependency position
`j`: the boundary copy from the snapshot of the dependency into the problem of
the task being started. -/
def copy_from_dependency (tasks : List Task) (dependencies : List Int)
    (problem_2d : Problem) (j : Nat) : Problem :=
  let dep_index := to_int32 (dependencies.getD j 0)
  match index? tasks dep_index with
  | none => problem_2d
  | some dep_task =>
    match dep_task.state_snapshot, problem_2d.init_read_rects_[j]? with
    | some snapshot, some read_rect =>
      copy_boundary_solutions problem_2d dep_task.problem snapshot read_rect
    | _, _ => problem_2d

/-- The start of task `i` inside `start_available_tasks`: the boundary copies,
then the `started` flag and the new thread. -/
def start_task (tasks : List Task) (i : Nat) (task : Task) : List Task :=
  let problem :=
    (List.range task.dependencies.length).foldl
      (fun problem_2d j => copy_from_dependency tasks task.dependencies problem_2d j)
      task.problem
  tasks.set i { task with problem := problem, started := true, has_thread := true }

/-- The second loop of `start_available_tasks` over the remaining indices, with
the locals `started` and `running_count`; the loop breaks when `running_count`
reaches `max_threads_`. -/
def start_available_loop (max_threads : Int) :
    List Nat → List Task → Int → Int → List Task × Int
  | [], tasks, started, _ => (tasks, started)
  | i :: rest, tasks, started, running_count =>
    if running_count ≥ max_threads then (tasks, started)
    else
      match tasks[i]? with
      | none => start_available_loop max_threads rest tasks started running_count
      | some task =>
        if !task.started && !is_task_blocked tasks i then
          start_available_loop max_threads rest (start_task tasks i task)
            (started + 1) (running_count + 1)
        else start_available_loop max_threads rest tasks started running_count

namespace Runner

/-- The first loop of `start_available_tasks`: the tasks started and not completed. -/
def running_count (self : Runner) : Int :=
  ((self.tasks_.filter (fun task => task.started && !task.completed)).length : Int)

/-- Method `start_available_tasks()`: the runner afterwards and the number of
tasks started. -/
def start_available_tasks (self : Runner) : Runner × Int :=
  let r := start_available_loop self.max_threads_ (List.range self.tasks_.length)
    self.tasks_ 0 self.running_count
  ({ self with tasks_ := r.1 }, r.2)

/-- The task created by `start` for a sub-problem. -/
def new_task (sub_problem : SubProblem) : Task :=
  { problem := sub_problem.problem,
    dependencies := sub_problem.dependencies,
    started := false,
    completed := false,
    unsolved_cells := sub_problem.problem.get_cell_count,
    has_thread := false,
    state_snapshot := none,
    snapshot_requested := false }

/-- Method `start(sub_problems, settings, max_threads)`, called on a runner with
no thread left to join; a null entry of `sub_problems` is skipped.  The solver
settings are only handed to the solvers. -/
def start (self : Runner) (sub_problems : List (Option SubProblem)) (max_threads : Int) :
    Runner :=
  let max_threads_ := if max_threads > 0 then max_threads else self.max_threads_
  let tasks := (sub_problems.filterMap id).map new_task
  ({ tasks_ := tasks, interrupted_ := false, all_done_ := false,
     max_threads_ := max_threads_ } : Runner).start_available_tasks.1

/-- The join loop of `update`: every started and completed task that still
holds a thread is joined. -/
def join_completed (tasks : List Task) : List Task :=
  tasks.map (fun task =>
    if task.started && task.completed && task.has_thread then
      { task with has_thread := false }
    else task)

/-- Method `update()`: the runner afterwards and the returned flag. -/
def update (self : Runner) : Runner × Bool :=
  if self.tasks_.isEmpty then (self, true)
  else
    let any_just_completed :=
      self.tasks_.any (fun task => task.started && task.completed && task.has_thread)
    let joined : Runner := { self with tasks_ := join_completed self.tasks_ }
    let after := if any_just_completed then joined.start_available_tasks.1 else joined
    let all_complete := after.tasks_.all (fun task => task.completed)
    ({ after with all_done_ := all_complete }, all_complete)

/-- One iteration of the solver loop of `thread_main` in the thread of task
`i`: the solver's unsolved-cell count after the step is published, and a
requested snapshot is taken. -/
def thread_solve_step (self : Runner) (i : Nat) (unsolved : Int) (state : SolverState) :
    Runner :=
  match self.tasks_[i]? with
  | none => self
  | some task =>
    let task := { task with unsolved_cells := unsolved }
    let task :=
      if task.snapshot_requested then
        { task with state_snapshot := some state, snapshot_requested := false }
      else task
    { self with tasks_ := self.tasks_.set i task }

/-- The exit of `thread_main` in the thread of task `i`: the final snapshot
is stored and the task is marked completed. -/
def thread_finish (self : Runner) (i : Nat) (state : SolverState) : Runner :=
  match self.tasks_[i]? with
  | none => self
  | some task =>
    let task := { task with state_snapshot := some state, completed := true }
    { self with tasks_ := self.tasks_.set i task }

end Runner

/-- One step of a running runner: an iteration of the solver loop in the
thread of a started, uncompleted task; the exit of such a thread; a call of
`update`; or a call of `start_available_tasks`. -/
inductive Step : Runner → Runner → Prop where
  | solve_step (r : Runner) (i : Nat) (task : Task) (unsolved : Int) (state : SolverState) :
      r.tasks_[i]? = some task → task.started = true → task.completed = false →
      Step r (r.thread_solve_step i unsolved state)
  | finish (r : Runner) (i : Nat) (task : Task) (state : SolverState) :
      r.tasks_[i]? = some task → task.started = true → task.completed = false →
      Step r (r.thread_finish i state)
  | update (r : Runner) : Step r r.update.1
  | start_available (r : Runner) : Step r r.start_available_tasks.1

/-- The states a runner reaches after `start`. -/
inductive Reachable : Runner → Prop where
  | start (r0 : Runner) (sub_problems : List (Option SubProblem)) (max_threads : Int) :
      Reachable (r0.start sub_problems max_threads)
  | step (r r2 : Runner) : Reachable r → Step r r2 → Reachable r2

/-! ## Declarative reading of `compute_cell_domain` -/

/-- The overflow words of a bit set reach its logical size. -/
def BitSet.storage_ok (b : BitSet) : Prop := b.size_ ≤ 128 + 64 * b.dataX.length

namespace Problem

/-- Whether runtime axis `k` contributes to the domain of a cell: the
neighbour along the axis lies inside `bounds` and is not marked failed. -/
def axis_contributes (self : Problem) (bounds : Rect2i) (CELL_SOLUTION_FAILED : Int)
    (state : SolverState) (cell_id : Int) (k : Nat) : Bool :=
  match self.axes_[k]? with
  | none => false
  | some axis =>
    let other_pos := (self.id_to_coord cell_id).add axis
    bounds.has_point (other_pos.add self.rect_.position) &&
      (index? state.cell_solution_or_entropy (self.coord_to_id other_pos)
        != some CELL_SOLUTION_FAILED)

/-- The transform, through the matrix of runtime axis `k`, of the domain of the
neighbour of a cell along that axis. -/
def neighbour_transform (self : Problem) (state : SolverState) (cell_id : Int) (k : Nat) :
    Option BitSet :=
  match self.axes_[k]?, self.axis_matrices_[k]? with
  | some axis, some matrix =>
    match index? state.cell_domains (self.coord_to_id ((self.id_to_coord cell_id).add axis)) with
    | some other_domain => matrix.transform other_domain
    | none => none
  | _, _ => none

/-- Bit `t` of the cell's current domain intersected with the neighbour
transforms of exactly the contributing axes, the neighbours being tested
against `bounds`. -/
def cell_domain_bit (self : Problem) (bounds : Rect2i) (CELL_SOLUTION_FAILED : Int)
    (state : SolverState) (cell_id : Int) (t : Nat) : Bool :=
  (match index? state.cell_domains cell_id with
    | some current_domain => current_domain.get_bit t
    | none => false) &&
  (List.range self.axes_.length).all (fun k =>
    !self.axis_contributes bounds CELL_SOLUTION_FAILED state cell_id k ||
      (match self.neighbour_transform state cell_id k with
        | some transformed => transformed.get_bit t
        | none => false))

end Problem

/-- A two-tile rule set with one declared axis `(1, 0)` whose matrix allows
each tile only next to itself. -/
def identity_rules : Rules :=
  { tile_count := 2,
    declarations := [(⟨1, 0⟩, ⟨2, [⟨1, 0, [], 2⟩, ⟨2, 0, [], 2⟩]⟩)],
    influence_range := ⟨1, 0⟩,
    probabilities_enabled := false,
    probabilities := [] }

/-- A 2 by 2 sub-problem of a 4 by 2 grid: its rect is the left half and its
edges rect is the whole grid. -/
def left_half_problem : Problem :=
  ((Problem.fresh identity_rules).init identity_rules ⟨⟨0, 0⟩, ⟨2, 2⟩⟩).set_edges_rect
    ⟨⟨0, 0⟩, ⟨4, 2⟩⟩

/-- A state of `left_half_problem`: every cell still allows both tiles, except
cell 2 at `(0, 1)`, which allows only tile 1; no cell is solved or failed. -/
def left_half_state : SolverState :=
  { cell_domains := [⟨3, 0, [], 2⟩, ⟨3, 0, [], 2⟩, ⟨2, 0, [], 2⟩, ⟨3, 0, [], 2⟩],
    cell_solution_or_entropy := [-2, -2, -1, -2] }

/-! ## Scheduling invariant -/

/-- No dependency index of a task names a task that is not completed. -/
def dependencies_completed (tasks : List Task) (task : Task) : Prop :=
  ∀ d ∈ task.dependencies, ∀ dep_task, index? tasks (to_int32 d) = some dep_task →
    dep_task.completed = true

/-- Every started task has all the tasks named by its dependency list completed. -/
def started_after_dependencies (tasks : List Task) : Prop :=
  ∀ (i : Nat) (task : Task), tasks[i]? = some task → task.started = true → dependencies_completed tasks task

/-- The task list `b` continues the task list `a`: the same tasks with the same
dependency lists, no completion withdrawn, and every task started in `b` was
started in `a` or has its dependencies completed in `a`. -/
def continues (a b : List Task) : Prop :=
  b.length = a.length ∧
  ∀ (j : Nat) (tb : Task), b[j]? = some tb → ∃ ta : Task, a[j]? = some ta ∧
    tb.dependencies = ta.dependencies ∧
    (ta.completed = true → tb.completed = true) ∧
    (tb.started = true → ta.started = true ∨ dependencies_completed a ta)

/-! ## Declarative reading of the boundary copy -/

/-- The row-major cell id, in the problem's rect, of a grid point given in
absolute coordinates. -/
def Problem.point_cell_id (self : Problem) (pt : Vector2i) : Int :=
  (pt.y - self.rect_.position.y) * self.rect_.size.x + (pt.x - self.rect_.position.x)

/-- The value the boundary copy takes from the source at a grid point: the
source entry of the point, read as an `int`, when the point lies in the read
rect and in the source rect, the source array has the entry, and the value read
is not negative. -/
def copied_solution (source_rect : Rect2i) (solutions : List Int) (read_rect : Rect2i)
    (pt : Vector2i) : Option Int :=
  if read_rect.has_point pt && source_rect.has_point pt then
    match index? solutions
        ((pt.y - source_rect.position.y) * source_rect.size.x
          + (pt.x - source_rect.position.x)) with
    | some value => if to_int32 value ≥ 0 then some (to_int32 value) else none
    | none => none
  else none

/-- The precondition-solution array of a problem is unallocated or has one
entry per cell. -/
def Problem.solutions_allocated (self : Problem) : Prop :=
  self.precondition_solutions_.length = 0 ∨
    (self.precondition_solutions_.length : Int) = self.get_cell_count

/-! ## Example data -/

/-- Setter `set_rect`. -/
def Problem.set_rect (self : Problem) (val : Rect2i) : Problem :=
  { self with rect_ := val }

/-- A one-tile rule set with the single declared axis `(1, 0)`, a fully
permissive matrix and influence range `(1, 0)`. -/
def line_rules : Rules :=
  { tile_count := 1,
    declarations := [(⟨1, 0⟩, ⟨1, [⟨1, 0, [], 1⟩]⟩)],
    influence_range := ⟨1, 0⟩,
    probabilities_enabled := false,
    probabilities := [] }

/-- The freshly initialised problem on the 100 by 1 rectangle. -/
def line_problem : Problem :=
  (Problem.fresh line_rules).init line_rules ⟨⟨0, 0⟩, ⟨100, 1⟩⟩

/-- The freshly initialised problem on the 2 by 1 rectangle at the origin. -/
def pair_problem : Problem :=
  (Problem.fresh line_rules).init line_rules ⟨⟨0, 0⟩, ⟨2, 1⟩⟩

/-- A problem whose precondition-solution array is stale: cell 0 of a 1 by 1
rectangle is pre-solved with tile 7, and the rect is then set to 2 by 1. -/
def stale_problem : Problem :=
  (((Problem.fresh line_rules).init line_rules ⟨⟨0, 0⟩, ⟨1, 1⟩⟩).set_precondition_solution
    0 7).set_rect ⟨⟨0, 0⟩, ⟨2, 1⟩⟩

/-- A state of `pair_problem` in which cell 0 is unsolved and cell 1 holds tile 3. -/
def pair_state : SolverState :=
  { cell_domains := [⟨1, 0, [], 1⟩, ⟨1, 0, [], 1⟩],
    cell_solution_or_entropy := [-1, 3] }

/-- A state of `pair_problem` whose entry for cell 0 is `2^31`, a non-negative
64-bit value outside the range of `int`. -/
def wide_state : SolverState :=
  { cell_domains := [⟨1, 0, [], 1⟩, ⟨1, 0, [], 1⟩],
    cell_solution_or_entropy := [2147483648, 3] }

/-- Two sub-problems on `pair_problem`; the second depends on the first and
reads the whole rectangle from it. -/
def chain_sub_problems : List (Option SubProblem) :=
  [some { problem := pair_problem, dependencies := [] },
   some { problem := pair_problem.set_init_read_rects [⟨⟨0, 0⟩, ⟨2, 1⟩⟩],
          dependencies := [0] }]

/-- The runner after `start` on `chain_sub_problems` with two threads. -/
def chain_started : Runner :=
  ({ tasks_ := [], interrupted_ := false, all_done_ := false, max_threads_ := 4 } :
    Runner).start chain_sub_problems 2

/-- The runner after the thread of task 0 has exited with `pair_state`. -/
def chain_finished : Runner := chain_started.thread_finish 0 pair_state

/-- The runner after the next call of `update`. -/
def chain_updated : Runner := chain_finished.update.1


/-! ## Extents along the split axis -/

/-- The component of a vector along a split axis. -/
def SplitAxis.extent : SplitAxis → Vector2i → Int
  | SplitAxis.X, v => v.x
  | SplitAxis.Y, v => v.y


/-! ## The AC4 constraint adapter and the related cells -/

/-- The data members of `WFC2DAC4BinaryConstraintNative`. -/
structure AC4BinaryConstraint where
  axis_ : Vector2i
  problem_size_ : Rect2i
  allowed_tiles_ : List (List Int)
deriving DecidableEq

namespace AC4BinaryConstraint

/-- Method `initialize(axis, size, axis_matrix)` of the constraint (the word is
reserved in Lean).  The bit-set method `to_array`, whose body is not in the
header, is a parameter. -/
def init (axis size : Vector2i) (axis_matrix : BitMatrix) (to_array : BitSet → List Int) :
    AC4BinaryConstraint :=
  { axis_ := axis,
    problem_size_ := ⟨⟨0, 0⟩, size⟩,
    allowed_tiles_ := axis_matrix.rows.map to_array }

/-- Method `get_cell_id(pos)`. -/
def get_cell_id (self : AC4BinaryConstraint) (pos : Vector2i) : Int :=
  if self.problem_size_.has_point pos then pos.x + pos.y * self.problem_size_.size.x
  else -1

/-- Method `get_cell_pos(cell_id)`.  The source divides by `szx`; at width 0
that is a division by zero, which the total `Int.tmod` and `Int.tdiv` do not
show, so the definition is read on grids whose width is not 0. -/
def get_cell_pos (self : AC4BinaryConstraint) (cell_id : Int) : Vector2i :=
  let szx := self.problem_size_.size.x
  ⟨cell_id.tmod szx, cell_id.tdiv szx⟩

/-- Method `get_dependent(cell_id)`. -/
def get_dependent (self : AC4BinaryConstraint) (cell_id : Int) : Int :=
  self.get_cell_id ((self.get_cell_pos cell_id).sub self.axis_)

/-- Method `get_dependency(cell_id)`. -/
def get_dependency (self : AC4BinaryConstraint) (cell_id : Int) : Int :=
  self.get_cell_id ((self.get_cell_pos cell_id).add self.axis_)

/-- Method `get_allowed(dependency_variant)`. -/
def get_allowed (self : AC4BinaryConstraint) (dependency_variant : Int) : List Int :=
  if dependency_variant ≥ 0 ∧ dependency_variant < (self.allowed_tiles_.length : Int) then
    self.allowed_tiles_.getD dependency_variant.toNat []
  else []

end AC4BinaryConstraint

namespace Problem

/-- Method `get_related_cells(changed_cell_id)`: the loop over the runtime axes
appends the id of each neighbour inside the rect. -/
def get_related_cells (self : Problem) (changed_cell_id : Int) : List Int :=
  let pos := self.id_to_coord changed_cell_id
  self.axes_.foldl
    (fun result axis =>
      let other_pos := pos.add axis
      if self.rect_.has_point (other_pos.add self.rect_.position) then
        result ++ [self.coord_to_id other_pos]
      else result)
    []

/-- Method `mark_related_cells(changed_cell_id, mark_cell)`: the arguments of
the calls of `mark_cell`, in the order the loop makes them. -/
def mark_related_cells (self : Problem) (changed_cell_id : Int) : List Int :=
  let pos := self.id_to_coord changed_cell_id
  self.axes_.foldl
    (fun calls axis =>
      let other_pos := pos.add axis
      if self.rect_.has_point (other_pos.add self.rect_.position) then
        calls ++ [self.coord_to_id other_pos]
      else calls)
    []

/-- Method `get_ac4_binary_constraints()`: one constraint per runtime axis.
The bit-set method `to_array` is a parameter. -/
def get_ac4_binary_constraints (self : Problem) (to_array : BitSet → List Int) :
    List AC4BinaryConstraint :=
  (List.range self.axes_.length).filterMap (fun i =>
    match self.axes_[i]?, self.axis_matrices_[i]? with
    | some axis, some matrix =>
      some (AC4BinaryConstraint.init axis self.rect_.size matrix to_array)
    | _, _ => none)

end Problem

/-- The AC4 constraint of axis `(1, 0)` on a 2 by 2 grid. -/
def square_constraint : AC4BinaryConstraint :=
  AC4BinaryConstraint.init ⟨1, 0⟩ ⟨2, 2⟩ ⟨2, [⟨1, 0, [], 2⟩, ⟨2, 0, [], 2⟩]⟩ (fun _ => [])


/-! ## Initial state -/

/-- A call made on the solver state by `populate_initial_state`. -/
inductive StateCall where
  | set_solution (cell_id : Int) (solution : Int)
  | set_domain (cell_id : Int) (domain : BitSet)
deriving DecidableEq

/-- Modelled from the spec: `is_empty`, whose body is not in the header: no
word of the bit set has a set bit. -/
def BitSet.is_empty (b : BitSet) : Bool :=
  decide (b.data0 = 0) && decide (b.data1 = 0) && b.dataX.all (fun word => decide (word = 0))

namespace Problem

/-- The body of the double loop of `populate_initial_state` at `cell_id`; the
calls made so far are `calls`. -/
def populate_cell (self : Problem) (calls : List StateCall) (cell_id : Int) : List StateCall :=
  if (self.precondition_solutions_.length : Int) > cell_id ∧
      self.precondition_solutions_.getD cell_id.toNat 0 ≥ 0 then
    calls ++ [StateCall.set_solution cell_id (self.precondition_solutions_.getD cell_id.toNat 0)]
  else if (self.precondition_domains_.length : Int) > cell_id then
    match self.precondition_domains_.getD cell_id.toNat none with
    | some domain =>
      if !domain.is_empty then calls ++ [StateCall.set_domain cell_id domain] else calls
    | none => calls
  else calls

/-- Method `populate_initial_state(state)`: the calls made on the state, in order. -/
def populate_initial_state (self : Problem) : List StateCall :=
  let width := self.rect_.size.x
  let height := self.rect_.size.y
  (loop_range 0 width).foldl
    (fun calls x =>
      (loop_range 0 height).foldl
        (fun calls y => self.populate_cell calls (y * width + x))
        calls)
    []

/-- The call a cell receives: `set_solution` when it has a pre-solved tile that
is not negative, otherwise `set_domain` when it has a precondition domain that
is not empty, otherwise none. -/
def cell_call (self : Problem) (cell_id : Int) : Option StateCall :=
  if self.precondition_solution_at cell_id.toNat ≥ 0 then
    some (StateCall.set_solution cell_id (self.precondition_solution_at cell_id.toNat))
  else
    match self.precondition_domains_.getD cell_id.toNat none with
    | some domain =>
      if domain.is_empty then none else some (StateCall.set_domain cell_id domain)
    | none => none

end Problem

/-- The cell ids of a `width` by `height` grid in column-major order: `x`
ascending, and for each `x`, `y` ascending. -/
def column_major_cells (width height : Int) : List Int :=
  (loop_range 0 width).flatMap (fun x => (loop_range 0 height).map (fun y => y * width + x))

/-- A 2 by 2 problem in which cell 1 is pre-solved with tile 1 and also has a
precondition domain, and cell 2 has a precondition domain only. -/
def preset_problem : Problem :=
  { (Problem.fresh identity_rules).init identity_rules ⟨⟨0, 0⟩, ⟨2, 2⟩⟩ with
    precondition_domains_ := [none, some ⟨1, 0, [], 2⟩, some ⟨2, 0, [], 2⟩, none],
    precondition_solutions_ := [-1, 1, -1, -1] }


/-! ## Weighted divergence -/

namespace Runner

/-- Method `get_progress()`, over exact rationals: the loop accumulates
`total_cells` and `unsolved_cells` over the tasks. -/
def get_progress (self : Runner) : Rat :=
  if self.tasks_.isEmpty then 1
  else
    let sums := self.tasks_.foldl
      (fun (acc : Int × Int) task =>
        (acc.1 + task.problem.get_cell_count, acc.2 + task.unsolved_cells))
      (0, 0)
    let total_cells := sums.1
    let unsolved_cells := sums.2
    if total_cells = 0 then 1
    else 1 - (unsolved_cells : Rat) / (total_cells : Rat)

/-- The sum of the tasks' cell counts. -/
def total_cells (self : Runner) : Int :=
  (self.tasks_.map (fun task => task.problem.get_cell_count)).sum

/-- The sum of the tasks' published unsolved-cell counters. -/
def unsolved_cells (self : Runner) : Int :=
  (self.tasks_.map (fun task => task.unsolved_cells)).sum

end Runner

/-- No published counter of `r2` is above the counter of the same task in `r`. -/
def counters_settle (r r2 : Runner) : Prop :=
  ∀ (i : Nat) (t t2 : Task), r.tasks_[i]? = some t → r2.tasks_[i]? = some t2 →
    t2.unsolved_cells ≤ t.unsolved_cells

/-- A run of the runner in which no step raises a published counter: every
report of a solver is at most the count the task published before. -/
inductive SettlingRun : Runner → Runner → Prop where
  | refl (r : Runner) : SettlingRun r r
  | step (r r2 r3 : Runner) :
      SettlingRun r r2 → Step r2 r3 → counters_settle r2 r3 → SettlingRun r r3

/-- One sub-problem on `pair_problem`, without dependencies. -/
def single_sub_problems : List (Option SubProblem) :=
  [some { problem := pair_problem, dependencies := [] }]

/-- The runner after `start` on `single_sub_problems` with one thread: the
task is running and its counter is the cell count 2. -/
def single_started : Runner :=
  ({ tasks_ := [], interrupted_ := false, all_done_ := false, max_threads_ := 4 } :
    Runner).start single_sub_problems 1

/-- The runner after the solver of task 0 has reported one unsolved cell. -/
def single_guessed : Runner := single_started.thread_solve_step 0 1 pair_state

/-- The runner after the solver of task 0, having reported one unsolved cell,
has backtracked and reports two. -/
def single_backtracked : Runner := single_guessed.thread_solve_step 0 2 pair_state

/-- The number of tasks that are started and not completed, as the first loop
of `start_available_tasks` counts them. -/
def running_tasks (tasks : List Task) : Int :=
  ((tasks.filter (fun task => task.started && !task.completed)).length : Int)

/-- Every completed task was started. -/
def completed_were_started (tasks : List Task) : Prop :=
  ∀ task ∈ tasks, task.completed = true → task.started = true

/-- Three sub-problems on `pair_problem` without dependencies. -/
def triple_sub_problems : List (Option SubProblem) :=
  [some { problem := pair_problem, dependencies := [] },
   some { problem := pair_problem, dependencies := [] },
   some { problem := pair_problem, dependencies := [] }]

/-- The runner after `start` on `triple_sub_problems` with two threads. -/
def triple_started : Runner :=
  ({ tasks_ := [], interrupted_ := false, all_done_ := false, max_threads_ := 4 } :
    Runner).start triple_sub_problems 2

/-! ## Related cells, as specified -/

namespace Problem

/-- The related cells in the words of the specification: for each runtime axis,
in order, the id of the neighbour coordinate `pos + axis` when that coordinate
is in bounds, where `pos` is the local coordinate of the cell. -/
def related_cells_spec (self : Problem) (cell_id : Int) : List Int :=
  self.axes_.filterMap (fun axis =>
    let neighbour := (self.id_to_coord cell_id).add axis
    if 0 ≤ neighbour.x ∧ neighbour.x < self.rect_.size.x ∧
        0 ≤ neighbour.y ∧ neighbour.y < self.rect_.size.y then
      some (self.coord_to_id neighbour)
    else none)

end Problem


/-! ## Example data for the split along X -/

/-- A one-tile rule set with the single declared axis `(1, 0)`, a fully
permissive matrix and influence range `(1, 1)`. -/
def strip_rules : Rules :=
  { tile_count := 1,
    declarations := [(⟨1, 0⟩, ⟨1, [⟨1, 0, [], 1⟩]⟩)],
    influence_range := ⟨1, 1⟩,
    probabilities_enabled := false,
    probabilities := [] }

/-- The freshly initialised problem with `strip_rules` on the 100 by 1
rectangle; `split` cuts it along X. -/
def strip_problem : Problem :=
  (Problem.fresh strip_rules).init strip_rules ⟨⟨0, 0⟩, ⟨100, 1⟩⟩

/-- A rule set as `strip_rules` whose influence range is `(-1, 0)`. -/
def shrink_rules : Rules :=
  { tile_count := 1,
    declarations := [(⟨1, 0⟩, ⟨1, [⟨1, 0, [], 1⟩]⟩)],
    influence_range := ⟨-1, 0⟩,
    probabilities_enabled := false,
    probabilities := [] }

/-- The freshly initialised problem with `shrink_rules` on the 100 by 1
rectangle. -/
def shrink_problem : Problem :=
  (Problem.fresh shrink_rules).init shrink_rules ⟨⟨0, 0⟩, ⟨100, 1⟩⟩


/-! ## Precondition setters -/

/-- Method `set_precondition_domain(cell_id, domain)`; a null reference is `none`. -/
def Problem.set_precondition_domain (self : Problem) (cell_id : Int) (domain : Option BitSet) :
    Problem :=
  let cell_count := self.get_cell_count
  let domains :=
    if (self.precondition_domains_.length : Int) ≠ cell_count then
      Problem.resize_domains self.precondition_domains_ cell_count.toNat
    else self.precondition_domains_
  let solutions :=
    if (self.precondition_solutions_.length : Int) ≠ cell_count then
      List.replicate cell_count.toNat (-1)
    else self.precondition_solutions_
  let domains :=
    if cell_id ≥ 0 ∧ cell_id < cell_count then domains.set cell_id.toNat domain
    else domains
  { self with precondition_domains_ := domains, precondition_solutions_ := solutions }

/-- A problem initialised a second time: cell 0 of a 1 by 1 rectangle is
pre-solved with tile 7, and `initialize` is then called with the 2 by 1
rectangle; `initialize` leaves the precondition arrays as they are. -/
def reinit_problem : Problem :=
  (((Problem.fresh line_rules).init line_rules ⟨⟨0, 0⟩, ⟨1, 1⟩⟩).set_precondition_solution
    0 7).init line_rules ⟨⟨0, 0⟩, ⟨2, 1⟩⟩


/-! ## Iteration over the set bits -/

/-- The scan of `__builtin_ctzll` over at most `fuel` bit positions. -/
def ctz_loop : Nat → Nat → Nat
  | 0, _ => 0
  | fuel + 1, word => if word % 2 = 1 then 0 else 1 + ctz_loop fuel (word / 2)

/-- Compiler builtin `__builtin_ctzll` on a 64-bit word that is not zero: the
number of trailing zero bits, which is the index of the lowest set bit.  The
builtin is undefined on zero, and the loops never call it there. -/
def ctzll (word : Nat) : Nat := ctz_loop 64 word

/-- The `while (word)` loop of `for_each_set_bit` on one word: the arguments
of the calls of `callback`, in order.  Each iteration takes the lowest set bit
and clears it with `word &= word - 1`. -/
def word_set_bits (base : Int) (word : Nat) : List Int :=
  if word = 0 then []
  else (base + (ctzll word : Int)) :: word_set_bits base (word &&& (word - 1))
termination_by word
decreasing_by
  have hle : word &&& (word - 1) ≤ word - 1 := Nat.and_le_right
  omega

/-- Method `for_each_set_bit(callback)`: the arguments of the calls of
`callback`, in order, over `data0`, then `data1` when the size exceeds 64, then
the overflow words when the size exceeds 128. -/
def BitSet.for_each_set_bit (b : BitSet) : List Int :=
  word_set_bits 0 b.data0
    ++ (if b.size_ > 64 then word_set_bits 64 b.data1 else [])
    ++ (if b.size_ > 128 then
          (List.range b.dataX.length).flatMap (fun (i : Nat) =>
            word_set_bits (128 + (i : Int) * 64) (b.dataX.getD i 0))
        else [])

/-- Every word of the bit set is a 64-bit pattern. -/
def BitSet.words_fit (b : BitSet) : Prop :=
  b.data0 < 2 ^ 64 ∧ b.data1 < 2 ^ 64 ∧ ∀ word ∈ b.dataX, word < 2 ^ 64

/-- Bit `i` as the storage holds it: in `data0` below 64, in `data1` below 128,
and in overflow word `(i - 128) / 64` above. -/
def BitSet.stored_bit (b : BitSet) (i : Nat) : Bool :=
  if i < 64 then b.data0.testBit i
  else if i < 128 then b.data1.testBit (i - 64)
  else (b.dataX.getD ((i - 128) / 64) 0).testBit ((i - 128) % 64)

/-- Every stored bit at a position at or above the logical size is 0. -/
def BitSet.tail_clear (b : BitSet) : Prop :=
  ∀ i : Nat, b.size_ ≤ i → b.stored_bit i = false

/-- A bit set of size 200 with the bits 1, 3, 64 and 130 set. -/
def sparse_bits : BitSet := ⟨10, 1, [4, 0], 200⟩


/-! # Properties -/

/-! ## Rectangles -/

theorem has_point_iff (r : Rect2i) (p : Vector2i) :
    r.has_point p = true ↔
      r.position.x ≤ p.x ∧ p.x < r.position.x + r.size.x ∧
      r.position.y ≤ p.y ∧ p.y < r.position.y + r.size.y := by
  unfold Rect2i.has_point
  split_ifs <;> simp <;> omega

theorem has_point_zero (p : Vector2i) : Rect2i.zero.has_point p = false := by
  cases h : Rect2i.zero.has_point p
  · rfl
  · rw [has_point_iff] at h
    simp [Rect2i.zero] at h
    omega

theorem intersects_iff (r o : Rect2i) :
    r.intersects o = true ↔
      r.position.x < o.position.x + o.size.x ∧ o.position.x < r.position.x + r.size.x ∧
      r.position.y < o.position.y + o.size.y ∧ o.position.y < r.position.y + r.size.y := by
  unfold Rect2i.intersects
  split_ifs <;> simp <;> omega

theorem has_point_intersection (r o : Rect2i) (p : Vector2i) :
    (r.intersection o).has_point p = true ↔ r.has_point p = true ∧ o.has_point p = true := by
  unfold Rect2i.intersection
  by_cases h : r.intersects o = true
  · simp only [h, Bool.not_true, Bool.false_eq_true, if_false]
    rw [intersects_iff] at h
    simp only [has_point_iff]
    omega
  · simp only [h, Bool.not_false, if_true, Bool.not_eq_true] 
    have h2 : ¬ (r.has_point p = true ∧ o.has_point p = true) := by
      intro hp
      apply h
      rw [intersects_iff]
      simp only [has_point_iff] at hp
      omega
    simp only [Bool.not_eq_true] at h
    simp [h, has_point_zero]
    intro h3
    by_contra h4
    simp at h4
    exact h2 ⟨h3, h4⟩

/-! ## Cell ids -/

/-- C8: for a rectangle of positive width `w` and height `h`, `coord_to_id` and
`id_to_coord` are mutually inverse between the local coordinates `(x, y)` with
`0 ≤ x < w`, `0 ≤ y < h` and the ids in `[0, w*h)`, and `coord_to_id (x, y)` is
`y*w + x`. -/
theorem coord_id_bijection (p : Problem) (hw : 0 < p.rect_.size.x) :
    (∀ x y : Int, 0 ≤ x → x < p.rect_.size.x → 0 ≤ y → y < p.rect_.size.y →
      p.id_to_coord (p.coord_to_id ⟨x, y⟩) = ⟨x, y⟩ ∧
      p.coord_to_id ⟨x, y⟩ = y * p.rect_.size.x + x ∧
      0 ≤ p.coord_to_id ⟨x, y⟩ ∧
      p.coord_to_id ⟨x, y⟩ < p.rect_.size.x * p.rect_.size.y) ∧
    (∀ id : Int, 0 ≤ id → id < p.rect_.size.x * p.rect_.size.y →
      p.coord_to_id (p.id_to_coord id) = id ∧
      0 ≤ (p.id_to_coord id).x ∧ (p.id_to_coord id).x < p.rect_.size.x ∧
      0 ≤ (p.id_to_coord id).y ∧ (p.id_to_coord id).y < p.rect_.size.y) := by
  constructor
  · intro x y hx0 hx hy0 hy
    have hid : 0 ≤ p.rect_.size.x * y + x := by positivity
    refine ⟨?_, ?_, ?_, ?_⟩
    · simp only [Problem.id_to_coord, Problem.coord_to_id]
      rw [Int.tmod_eq_emod hid hw.le, Int.tdiv_eq_ediv hid hw.le]
      congr 1
      · rw [Int.add_comm, Int.add_mul_emod_self_left]
        exact Int.emod_eq_of_lt hx0 hx
      · rw [Int.add_comm, Int.add_mul_ediv_left _ _ hw.ne']
        rw [Int.ediv_eq_zero_of_lt hx0 hx]
        simp
    · simp only [Problem.coord_to_id]; ring
    · exact hid
    · simp only [Problem.coord_to_id]
      nlinarith
  · intro id h0 hlt
    have hm0 := Int.emod_nonneg id hw.ne'
    have hm1 := Int.emod_lt_of_pos id hw
    have hd := Int.emod_add_ediv id p.rect_.size.x
    simp only [Problem.id_to_coord, Problem.coord_to_id]
    rw [Int.tmod_eq_emod h0 hw.le, Int.tdiv_eq_ediv h0 hw.le]
    refine ⟨by linarith, hm0, hm1, Int.ediv_nonneg h0 hw.le, ?_⟩
    exact Int.ediv_lt_of_lt_mul hw (by rw [mul_comm]; exact hlt)

/-- The statement of C8 on `pair_problem`, whose rectangle is 2 by 1, at the
local coordinate `(1, 0)`. -/
theorem coord_id_bijection_witness :
    pair_problem.id_to_coord (pair_problem.coord_to_id ⟨1, 0⟩) = ⟨1, 0⟩ ∧
    pair_problem.coord_to_id ⟨1, 0⟩ = 0 * pair_problem.rect_.size.x + 1 ∧
    0 ≤ pair_problem.coord_to_id ⟨1, 0⟩ ∧
    pair_problem.coord_to_id ⟨1, 0⟩ < pair_problem.rect_.size.x * pair_problem.rect_.size.y :=
  (coord_id_bijection pair_problem (by decide)).1 1 0
    (by decide) (by decide) (by decide) (by decide)


/-! ## Splitting: shape of the result -/

theorem single_sub_problem_fields (p : Problem) :
    p.single_sub_problem.dependencies = [] ∧
    p.single_sub_problem.problem.rect_ = p.rect_ ∧
    p.single_sub_problem.problem.renderable_rect_ = p.renderable_rect_ ∧
    p.single_sub_problem.problem.edges_rect_ = p.edges_rect_ :=
  ⟨rfl, rfl, rfl, rfl⟩

/-- The result of `split` is the single fallback sub-problem or the list built
by the two loops from at least three band rectangles. -/
theorem split_cases (p : Problem) (limit : Int) :
    p.split limit = [p.single_sub_problem] ∨
    ∃ axis, 2 ≤ limit ∧ p.choose_split_axis = some axis ∧
      3 ≤ (p.split_rects limit axis).length ∧
      p.split limit = (List.range (p.split_rects limit axis).length).map (fun i =>
        Problem.split_read_rects
          ((List.range (p.split_rects limit axis).length).map
            (fun i => p.split_sub_problem (p.extra_overlap axis) (p.split_rects limit axis) i))
          i (p.split_sub_problem (p.extra_overlap axis) (p.split_rects limit axis) i)) := by
  unfold Problem.split
  by_cases h1 : limit < 2
  · left; simp [h1]
  · simp only [h1, if_false]
    cases hax : p.choose_split_axis with
    | none => left; rfl
    | some axis =>
      simp only
      by_cases h3 : (p.split_rects limit axis).length < 3
      · left; simp [h3]
      · right
        refine ⟨axis, by omega, rfl, by omega, ?_⟩
        simp only [h3, if_false, List.length_map, List.length_range]
        apply List.map_congr_left
        intro i hi
        rw [List.mem_range] at hi
        congr 1
        rw [List.getD_eq_getElem?_getD, List.getElem?_map, List.getElem?_range hi]
        rfl

theorem split_read_rects_dependencies (result : List SubProblem) (i : Nat) (s : SubProblem) :
    (Problem.split_read_rects result i s).dependencies = s.dependencies := by
  unfold Problem.split_read_rects
  split_ifs <;> rfl

theorem split_read_rects_renderable (result : List SubProblem) (i : Nat) (s : SubProblem) :
    (Problem.split_read_rects result i s).problem.renderable_rect_ =
      s.problem.renderable_rect_ := by
  unfold Problem.split_read_rects
  split_ifs <;> rfl

theorem split_read_rects_rect (result : List SubProblem) (i : Nat) (s : SubProblem) :
    (Problem.split_read_rects result i s).problem.rect_ = s.problem.rect_ := by
  unfold Problem.split_read_rects
  split_ifs <;> rfl

/-- Every entry of a `split` result carries the dependency list computed from
its index and the length of the result. -/
theorem split_entry_dependencies (p : Problem) (limit : Int) (i : Nat) (sub : SubProblem)
    (h : (p.split limit)[i]? = some sub) :
    sub.dependencies = Problem.split_dependencies (p.split limit).length i := by
  rcases split_cases p limit with hs | ⟨axis, _, _, _, hs⟩
  · rw [hs] at h ⊢
    cases i with
    | zero =>
      simp at h
      subst h
      rfl
    | succ n => simp at h
  · rw [hs] at h ⊢
    rw [List.getElem?_map] at h
    simp only [List.length_map, List.length_range]
    cases hr : (List.range (p.split_rects limit axis).length)[i]? with
    | none => rw [hr] at h; simp at h
    | some j =>
      rw [hr] at h
      simp only [Option.map_some', Option.some.injEq] at h
      have hj : j = i := by
        rw [List.getElem?_eq_some_iff] at hr
        obtain ⟨_, hr⟩ := hr
        simpa using hr.symm
      subst hj
      rw [← h, split_read_rects_dependencies]
      rfl

/-- C3: for a concurrency limit below 2, `split` returns exactly one
sub-problem; its dependency list is empty and its rect, renderable rect and
edges rect are those of the original problem. -/
theorem split_below_two (p : Problem) (limit : Int) (h : limit < 2) :
    ∃ sub, p.split limit = [sub] ∧ sub.dependencies = [] ∧
      sub.problem.rect_ = p.rect_ ∧
      sub.problem.renderable_rect_ = p.renderable_rect_ ∧
      sub.problem.edges_rect_ = p.edges_rect_ := by
  refine ⟨p.single_sub_problem, ?_, rfl, rfl, rfl, rfl⟩
  unfold Problem.split
  simp [h]

/-- C2: in a `split` result, an even-indexed sub-problem has no dependencies
and an odd-indexed sub-problem `i` has the list `[i-1]` followed by `i+1` when
`i+1` is an index of the result; every dependency index is in range, even,
adjacent to `i`, and names a sub-problem without dependencies. -/
theorem split_dependencies_alternate (p : Problem) (limit : Int) (i : Nat) (sub : SubProblem)
    (h : (p.split limit)[i]? = some sub) :
    (i % 2 = 0 → sub.dependencies = []) ∧
    (i % 2 = 1 → sub.dependencies =
      if i + 1 < (p.split limit).length then [(i : Int) - 1, (i : Int) + 1]
      else [(i : Int) - 1]) ∧
    (∀ d ∈ sub.dependencies,
      0 ≤ d ∧ d < ((p.split limit).length : Int) ∧ d % 2 = 0 ∧
      (d = (i : Int) - 1 ∨ d = (i : Int) + 1) ∧
      ∃ dep, (p.split limit)[d.toNat]? = some dep ∧ dep.dependencies = []) := by
  have hdep := split_entry_dependencies p limit i sub h
  have hi : i < (p.split limit).length := by
    rw [List.getElem?_eq_some_iff] at h
    exact h.1
  have hodd : i % 2 = 1 → sub.dependencies =
      if i + 1 < (p.split limit).length then [(i : Int) - 1, (i : Int) + 1]
      else [(i : Int) - 1] := by
    intro h1
    rw [hdep]
    unfold Problem.split_dependencies
    simp only [h1, if_true]
    by_cases h2 : i + 1 < (p.split limit).length
    · have : (i : Int) < ((p.split limit).length : Int) - 1 := by omega
      simp [h2, this]
    · have : ¬ (i : Int) < ((p.split limit).length : Int) - 1 := by omega
      simp [h2, this]
  refine ⟨?_, hodd, ?_⟩
  · intro h0
    rw [hdep]
    unfold Problem.split_dependencies
    simp [h0]
  · intro d hd
    rcases Nat.mod_two_eq_zero_or_one i with h0 | h1
    · rw [hdep] at hd
      unfold Problem.split_dependencies at hd
      simp [h0] at hd
    · rw [hodd h1] at hd
      have key : ∀ j : Nat, j < (p.split limit).length → j % 2 = 0 →
          ∃ dep, (p.split limit)[j]? = some dep ∧ dep.dependencies = [] := by
        intro j hj hj0
        refine ⟨(p.split limit)[j], List.getElem?_eq_getElem hj, ?_⟩
        rw [split_entry_dependencies p limit j _ (List.getElem?_eq_getElem hj)]
        unfold Problem.split_dependencies
        simp [hj0]
      by_cases h2 : i + 1 < (p.split limit).length
      · simp only [h2, if_true, List.mem_cons, List.mem_singleton, List.not_mem_nil, or_false] at hd
        rcases hd with hd | hd
        · subst hd
          refine ⟨by omega, by omega, by omega, Or.inl rfl, ?_⟩
          have : ((i : Int) - 1).toNat = i - 1 := by omega
          rw [this]
          exact key (i - 1) (by omega) (by omega)
        · subst hd
          refine ⟨by omega, by omega, by omega, Or.inr rfl, ?_⟩
          have : ((i : Int) + 1).toNat = i + 1 := by omega
          rw [this]
          exact key (i + 1) h2 (by omega)
      · simp only [h2, if_false, List.mem_singleton] at hd
        subst hd
        refine ⟨by omega, by omega, by omega, Or.inl rfl, ?_⟩
        have : ((i : Int) - 1).toNat = i - 1 := by omega
        rw [this]
        exact key (i - 1) (by omega) (by omega)


/-! ## Splitting: partition boundaries -/

theorem split_range_rec_length (first size m : Int) (n : Nat) :
    (split_range_rec first size m n).length ≤ n + 1 := by
  induction n with
  | zero => simp [split_range_rec]
  | succ k ih =>
    unfold split_range_rec
    simp only
    split_ifs with h1 h2
    · simp
    · omega
    · simp

theorem split_range_length (first size partitions m : Int) (h : 0 ≤ partitions) :
    ((split_range first size partitions m).length : Int) ≤ partitions + 1 := by
  unfold split_range
  split_ifs with h0
  · simp; omega
  · have := split_range_rec_length first size m partitions.toNat
    omega

theorem split_range_rec_ends (first size m : Int) (n : Nat) (hn : 0 < n) :
    (split_range_rec first size m n).head? = some first ∧
    (split_range_rec first size m n).getLast? = some (first + size) := by
  induction n with
  | zero => omega
  | succ k ih =>
    unfold split_range_rec
    simp only
    split_ifs with h1 h2
    · simp
    · apply ih
      by_contra hk
      have : k = 0 := by omega
      subst this
      simp at h2
    · constructor
      · simp [List.range_succ_eq_map, Int.zero_tdiv]
      · simp

theorem split_range_ends (first size partitions m : Int)
    (h : split_range first size partitions m ≠ []) :
    (split_range first size partitions m).head? = some first ∧
    (split_range first size partitions m).getLast? = some (first + size) := by
  unfold split_range at h ⊢
  split_ifs with h0
  · simp [h0] at h
  · exact split_range_rec_ends first size m partitions.toNat (by omega)

/-- A point between the first and the last element of a list of boundaries
lies in the band between two consecutive boundaries. -/
theorem boundaries_cover (l : List Int) (a b x : Int) (ha : l.head? = some a)
    (hb : l.getLast? = some b) (hax : a ≤ x) (hxb : x < b) :
    ∃ i, i + 1 < l.length ∧ l.getD i 0 ≤ x ∧ x < l.getD (i + 1) 0 := by
  induction l generalizing a with
  | nil => simp at ha
  | cons u t ih =>
    simp at ha
    subst ha
    cases t with
    | nil =>
      simp at hb
      omega
    | cons v t2 =>
      by_cases hv : x < v
      · exact ⟨0, by simp, by simpa using hax, by simpa using hv⟩
      · have hb2 : (v :: t2).getLast? = some b := by
          rw [List.getLast?_cons_cons] at hb
          exact hb
        obtain ⟨i, hi, h1, h2⟩ := ih v rfl hb2 (by omega)
        exact ⟨i + 1, by simpa using hi, by simpa using h1, by simpa using h2⟩

theorem get_dependencies_range_nonneg (p : Problem) :
    0 ≤ p.get_dependencies_range.x ∧ 0 ≤ p.get_dependencies_range.y := by
  unfold Problem.get_dependencies_range
  suffices h : ∀ (l : List Vector2i) (r : Vector2i), 0 ≤ r.x ∧ 0 ≤ r.y →
      0 ≤ (l.foldl (fun r axis => (⟨max r.x |axis.x|, max r.y |axis.y|⟩ : Vector2i)) r).x ∧
      0 ≤ (l.foldl (fun r axis => (⟨max r.x |axis.x|, max r.y |axis.y|⟩ : Vector2i)) r).y by
    exact h _ _ ⟨le_refl _, le_refl _⟩
  intro l
  induction l with
  | nil => intro r hr; simpa using hr
  | cons a t ih =>
    intro r hr
    simp only [List.foldl_cons]
    apply ih
    exact ⟨le_max_of_le_left hr.1, le_max_of_le_left hr.2⟩

/-- The renderable rectangle of a band contains every point of the band that
lies in the problem's rect, and lies inside the problem's rect. -/
theorem has_point_sub_renderable_rect (p : Problem) (base : Rect2i) (pt : Vector2i)
    (hb : base.has_point pt = true) (hr : p.rect_.has_point pt = true) :
    (p.sub_renderable_rect base).has_point pt = true := by
  unfold Problem.sub_renderable_rect
  simp only
  rw [has_point_intersection]
  refine ⟨?_, hr⟩
  obtain ⟨hx, hy⟩ := get_dependencies_range_nonneg p
  have h1 := Int.tdiv_nonneg hx (by decide : (0 : Int) ≤ 2)
  have h2 := Int.tdiv_nonneg hy (by decide : (0 : Int) ≤ 2)
  have h3 : 0 ≤ p.get_dependencies_range.x.tmod 2 := by
    rw [Int.tmod_eq_emod hx (by decide)]; omega
  have h4 : 0 ≤ p.get_dependencies_range.y.tmod 2 := by
    rw [Int.tmod_eq_emod hy (by decide)]; omega
  rw [has_point_iff] at hb ⊢
  simp only [Vector2i.div, Vector2i.add]
  omega

theorem sub_renderable_rect_subset (p : Problem) (base : Rect2i) (pt : Vector2i)
    (h : (p.sub_renderable_rect base).has_point pt = true) : p.rect_.has_point pt = true := by
  unfold Problem.sub_renderable_rect at h
  simp only at h
  rw [has_point_intersection] at h
  exact h.2

/-- Every point of the problem's rect lies in one of the band rectangles. -/
theorem split_rects_cover (p : Problem) (limit : Int) (axis : SplitAxis) (pt : Vector2i)
    (hne : 1 ≤ (p.split_rects limit axis).length) (hr : p.rect_.has_point pt = true) :
    ∃ i, i < (p.split_rects limit axis).length ∧
      ((p.split_rects limit axis).getD i Rect2i.zero).has_point pt = true := by
  unfold Problem.split_rects at hne ⊢
  simp only [List.length_map, List.length_range] at hne ⊢
  have hnil : p.split_partitions limit axis ≠ [] := by
    intro h0
    rw [h0] at hne
    simp at hne
  rw [has_point_iff] at hr
  have hget : ∀ i, i < (p.split_partitions limit axis).length - 1 →
      ((List.range ((p.split_partitions limit axis).length - 1)).map
        (fun i => p.band_rect (p.split_partitions limit axis) i axis)).getD i Rect2i.zero =
      p.band_rect (p.split_partitions limit axis) i axis := by
    intro i hi
    rw [List.getD_eq_getElem?_getD, List.getElem?_map, List.getElem?_range hi]
    rfl
  cases axis with
  | X =>
    have hends : (p.split_partitions limit SplitAxis.X).head? = some p.rect_.position.x ∧
        (p.split_partitions limit SplitAxis.X).getLast? =
          some (p.rect_.position.x + p.rect_.size.x) := split_range_ends _ _ _ _ hnil
    obtain ⟨i, hi, h1, h2⟩ := boundaries_cover _ _ _ pt.x hends.1 hends.2 hr.1 hr.2.1
    refine ⟨i, by omega, ?_⟩
    rw [hget i (by omega), has_point_iff]
    simp only [Problem.band_rect]
    omega
  | Y =>
    have hends : (p.split_partitions limit SplitAxis.Y).head? = some p.rect_.position.y ∧
        (p.split_partitions limit SplitAxis.Y).getLast? =
          some (p.rect_.position.y + p.rect_.size.y) := split_range_ends _ _ _ _ hnil
    obtain ⟨i, hi, h1, h2⟩ := boundaries_cover _ _ _ pt.y hends.1 hends.2 hr.2.2.1 hr.2.2.2
    refine ⟨i, by omega, ?_⟩
    rw [hget i (by omega), has_point_iff]
    simp only [Problem.band_rect]
    omega

/-- C1: for a freshly initialised problem and every concurrency limit, a grid
point lies in the original rect if and only if it lies in the renderable rect
of at least one sub-problem returned by `split`. -/
theorem split_renderable_union (self : Problem) (rules : Rules) (rect : Rect2i) (limit : Int)
    (pt : Vector2i) :
    rect.has_point pt = true ↔
      ∃ sub ∈ (self.init rules rect).split limit,
        sub.problem.renderable_rect_.has_point pt = true := by
  have hrect : (self.init rules rect).rect_ = rect := rfl
  rcases split_cases (self.init rules rect) limit with hs | ⟨axis, _, _, h3, hs⟩
  · rw [hs]
    simp only [List.mem_singleton, exists_eq_left]
    exact Iff.rfl
  · rw [hs]
    constructor
    · intro hp
      obtain ⟨i, hi, hb⟩ := split_rects_cover (self.init rules rect) limit axis pt (by omega)
        (by rw [hrect]; exact hp)
      refine ⟨_, List.mem_map.mpr ⟨i, List.mem_range.mpr hi, rfl⟩, ?_⟩
      rw [split_read_rects_renderable]
      exact has_point_sub_renderable_rect _ _ _ hb (by rw [hrect]; exact hp)
    · rintro ⟨sub, hmem, hp⟩
      obtain ⟨i, _, rfl⟩ := List.mem_map.mp hmem
      rw [split_read_rects_renderable] at hp
      exact sub_renderable_rect_subset (self.init rules rect) _ pt hp

/-- C10: for a concurrency limit of at least 2, `split` returns either exactly
the one fallback sub-problem (no dependencies, the original rect) or at least 3
and at most `2 * concurrency_limit` sub-problems. -/
theorem split_count (p : Problem) (limit : Int) (h : 2 ≤ limit) :
    (p.split limit = [p.single_sub_problem] ∧ (p.split limit).length = 1 ∧
      p.single_sub_problem.dependencies = [] ∧ p.single_sub_problem.problem.rect_ = p.rect_) ∨
    (3 ≤ (p.split limit).length ∧ ((p.split limit).length : Int) ≤ 2 * limit) := by
  rcases split_cases p limit with hs | ⟨axis, _, _, h3, hs⟩
  · left
    exact ⟨hs, by rw [hs]; rfl, rfl, rfl⟩
  · right
    rw [hs]
    simp only [List.length_map, List.length_range]
    refine ⟨h3, ?_⟩
    unfold Problem.split_rects
    simp only [List.length_map, List.length_range]
    have hlen : ((p.split_partitions limit axis).length : Int) ≤ limit * 2 + 1 := by
      cases axis <;> exact split_range_length _ _ _ _ (by omega)
    omega

/-- C9: `split` takes the X branch only if the influence range on X is below
the width, and then the X overhead is at most the Y overhead whenever Y also
qualifies; likewise for the Y branch; it takes the no-axis fallback exactly
when neither influence range is below the extent; and a result of three or more
sub-problems is the partition along the chosen axis. -/
theorem split_axis_choice (p : Problem) (limit : Int) :
    (p.choose_split_axis = some SplitAxis.X →
      p.rules_.influence_range.x < p.rect_.size.x ∧
      (p.rules_.influence_range.y < p.rect_.size.y →
        p.rules_.influence_range.x * p.rect_.size.y ≤
          p.rules_.influence_range.y * p.rect_.size.x)) ∧
    (p.choose_split_axis = some SplitAxis.Y →
      p.rules_.influence_range.y < p.rect_.size.y ∧
      (p.rules_.influence_range.x < p.rect_.size.x →
        p.rules_.influence_range.y * p.rect_.size.x ≤
          p.rules_.influence_range.x * p.rect_.size.y)) ∧
    (p.choose_split_axis = none ↔
      p.rules_.influence_range.x ≥ p.rect_.size.x ∧
      p.rules_.influence_range.y ≥ p.rect_.size.y) ∧
    (p.choose_split_axis = none → p.split limit = [p.single_sub_problem]) ∧
    (3 ≤ (p.split limit).length →
      ∃ axis, p.choose_split_axis = some axis ∧
        (p.split limit).length = (p.split_rects limit axis).length) := by
  refine ⟨?_, ?_, ?_, ?_, ?_⟩
  · unfold Problem.choose_split_axis Problem.may_split_x Problem.may_split_y
      Problem.split_x_overhead Problem.split_y_overhead
    intro h
    split_ifs at h with h1 h2
    · simp at h1
      exact ⟨h1.1, fun hy => by rcases h1.2 with h' | h'; omega; exact h'⟩
    · simp at h
  · unfold Problem.choose_split_axis Problem.may_split_x Problem.may_split_y
      Problem.split_x_overhead Problem.split_y_overhead
    intro h
    split_ifs at h with h1 h2
    · simp at h
    · simp at h2
      exact ⟨h2.1, fun hx => by rcases h2.2 with h' | h'; omega; exact h'⟩
  · unfold Problem.choose_split_axis Problem.may_split_x Problem.may_split_y
      Problem.split_x_overhead Problem.split_y_overhead
    split_ifs with h1 h2
    · simp at h1 ⊢
      intro hx
      omega
    · simp at h2 ⊢
      intro _
      omega
    · simp at h1 h2 ⊢
      by_cases hx : p.rules_.influence_range.x < p.rect_.size.x
      · by_cases hy : p.rules_.influence_range.y < p.rect_.size.y
        · have a := h1 hx
          have b := h2 hy
          omega
        · have a := h1 hx
          omega
      · by_cases hy : p.rules_.influence_range.y < p.rect_.size.y
        · have b := h2 hy
          omega
        · omega
  · intro h
    unfold Problem.split
    split_ifs
    · rfl
    · rw [h]
  · intro h
    rcases split_cases p limit with hs | ⟨axis, _, hax, _, hs⟩
    · rw [hs] at h
      simp at h
    · refine ⟨axis, hax, ?_⟩
      rw [hs]
      simp


/-! ## Bit sets -/




theorem BitSet.init_storage_ok (n : Nat) : (BitSet.init n).storage_ok := by
  simp only [BitSet.storage_ok, BitSet.init, BitSet.STATIC_BITS, BitSet.BITS_PER_INT,
    List.length_replicate]
  omega

theorem BitSet.get_bit_init (n i : Nat) : (BitSet.init n).get_bit i = false := by
  simp only [BitSet.get_bit, BitSet.init]
  split_ifs
  · rfl
  · exact Nat.zero_testBit _
  · exact Nat.zero_testBit _
  · rw [List.getD_eq_getElem?_getD, List.getElem?_replicate]
    split_ifs
    · exact Nat.zero_testBit _
    · exact Nat.zero_testBit _

theorem BitSet.set_bit_size (b : BitSet) (k : Nat) : (b.set_bit k).size_ = b.size_ := by
  unfold BitSet.set_bit
  split_ifs <;> rfl

theorem BitSet.set_bit_storage_ok (b : BitSet) (k : Nat) (h : b.storage_ok) :
    (b.set_bit k).storage_ok := by
  unfold BitSet.storage_ok at h ⊢
  unfold BitSet.set_bit
  split_ifs
  · exact h
  · exact h
  · exact h
  · simp only [List.length_set]
    exact h

theorem testBit_or_one_shiftLeft (w k i : Nat) :
    (w ||| (1 <<< k)).testBit i = (w.testBit i || decide (i = k)) := by
  rw [Nat.testBit_or, Nat.one_shiftLeft, Nat.testBit_two_pow]
  congr 1
  simp [eq_comm]

theorem BitSet.get_bit_set_bit (b : BitSet) (k i : Nat) (h : b.storage_ok) :
    (b.set_bit k).get_bit i = (b.get_bit i || (decide (i = k) && decide (k < b.size_))) := by
  unfold BitSet.storage_ok at h
  by_cases hk : k ≥ b.size_
  · have : ¬ k < b.size_ := by omega
    simp [BitSet.set_bit, hk, this]
  · have hk2 : k < b.size_ := by omega
    by_cases hi : i ≥ b.size_
    · have hne : i ≠ k := by omega
      simp [BitSet.get_bit, BitSet.set_bit_size, hi, hne]
    · simp only [BitSet.get_bit, BitSet.set_bit_size, hi, if_false, hk2, decide_True,
        Bool.and_true]
      unfold BitSet.set_bit
      simp only [hk, if_false, BitSet.BITS_PER_INT, BitSet.STATIC_BITS]
      by_cases hk64 : k < 64
      · simp only [hk64, if_true]
        by_cases hi64 : i < 64
        · simp only [hi64, if_true, testBit_or_one_shiftLeft]
        · have hne : i ≠ k := by omega
          simp [hi64, hne]
      · simp only [hk64, if_false]
        by_cases hk128 : k < 128
        · simp only [hk128, if_true]
          by_cases hi64 : i < 64
          · have hne : i ≠ k := by omega
            simp [hi64, hne]
          · simp only [hi64, if_false]
            by_cases hi128 : i < 128
            · have hd : decide (i - 64 = k - 64) = decide (i = k) := by
                simp only [decide_eq_decide]
                omega
              simp only [hi128, if_true, testBit_or_one_shiftLeft, hd]
            · have hne : i ≠ k := by omega
              simp [hi128, hne]
        · simp only [hk128, if_false]
          by_cases hi64 : i < 64
          · have hne : i ≠ k := by omega
            simp [hi64, hne]
          · simp only [hi64, if_false]
            by_cases hi128 : i < 128
            · have hne : i ≠ k := by omega
              simp [hi128, hne]
            · simp only [hi128, if_false]
              have hlen : (k - 128) / 64 < b.dataX.length := by omega
              by_cases hw : (i - 128) / 64 = (k - 128) / 64
              · have hd : decide ((i - 128) % 64 = (k - 128) % 64) = decide (i = k) := by
                  simp only [decide_eq_decide]
                  omega
                rw [hw]
                simp only [List.getD_eq_getElem?_getD, List.getElem?_set_self hlen,
                  Option.getD_some, testBit_or_one_shiftLeft, hd]
              · have hne : i ≠ k := by
                  intro h0
                  apply hw
                  rw [h0]
                simp only [List.getD_eq_getElem?_getD,
                  List.getElem?_set_ne (Ne.symm hw), hne, decide_False, Bool.or_false]

theorem BitSet.get_bit_lt_size (b : BitSet) (i : Nat) (h : b.get_bit i = true) :
    i < b.size_ := by
  unfold BitSet.get_bit at h
  by_contra hc
  have : i ≥ b.size_ := by omega
  simp [this] at h

theorem getD_zipWith_and (a b : List Nat) (k : Nat) :
    (List.zipWith (fun u v => u &&& v) a b).getD k 0 = a.getD k 0 &&& b.getD k 0 := by
  simp only [List.getD_eq_getElem?_getD, List.getElem?_zipWith]
  cases a[k]? <;> cases b[k]? <;> simp

theorem BitSet.get_bit_intersect (a b r : BitSet) (h : a.intersect_in_place b = some r) :
    r.size_ = a.size_ ∧ ∀ i, r.get_bit i = (a.get_bit i && b.get_bit i) := by
  unfold BitSet.intersect_in_place at h
  split_ifs at h with hs
  simp only [Option.some.injEq] at h
  subst h
  refine ⟨rfl, ?_⟩
  intro i
  simp only [ne_eq, Decidable.not_not] at hs
  simp only [BitSet.get_bit, ← hs, getD_zipWith_and, Nat.testBit_and]
  split_ifs <;> simp

theorem BitSet.intersect_isSome (a b : BitSet) (h : a.size_ = b.size_) :
    ∃ r, a.intersect_in_place b = some r := by
  unfold BitSet.intersect_in_place
  simp [h]

/-! ## Bit matrices -/

theorem transpose_row_fold (m : BitMatrix) (j : Nat) (l : List Nat) (acc : BitSet)
    (h : acc.storage_ok) :
    (l.foldl (fun acc i => if m.get_bit i j then acc.set_bit i else acc) acc).size_ = acc.size_ ∧
    ∀ i, (l.foldl (fun acc i => if m.get_bit i j then acc.set_bit i else acc) acc).get_bit i =
      (acc.get_bit i || (decide (i ∈ l) && decide (i < acc.size_) && m.get_bit i j)) := by
  induction l generalizing acc with
  | nil => simp
  | cons a t ih =>
    simp only [List.foldl_cons]
    by_cases hb : m.get_bit a j = true
    · rw [if_pos hb]
      have := ih (acc.set_bit a) (BitSet.set_bit_storage_ok _ _ h)
      refine ⟨by rw [this.1, BitSet.set_bit_size], ?_⟩
      intro i
      rw [this.2 i, BitSet.get_bit_set_bit _ _ _ h, BitSet.set_bit_size]
      by_cases hia : i = a
      · subst hia
        simp [hb]
        cases acc.get_bit i <;> cases decide (i < acc.size_) <;> simp
      · simp [hia]
    · rw [if_neg hb]
      have := ih acc h
      refine ⟨this.1, ?_⟩
      intro i
      rw [this.2 i]
      by_cases hia : i = a
      · subst hia
        simp only [Bool.not_eq_true] at hb
        simp [hb]
      · simp [hia]

theorem get_bit_transpose_row (m : BitMatrix) (j i : Nat) :
    (m.transpose_row j).size_ = m.get_height ∧
    (m.transpose_row j).get_bit i = m.get_bit i j := by
  unfold BitMatrix.transpose_row
  have := transpose_row_fold m j (List.range m.get_height) (BitSet.init m.get_height)
    (BitSet.init_storage_ok _)
  refine ⟨this.1, ?_⟩
  rw [this.2 i, BitSet.get_bit_init]
  have hsz : (BitSet.init m.get_height).size_ = m.get_height := rfl
  simp only [Bool.false_or, List.mem_range, hsz, Bool.and_self]
  by_cases hi : i < m.get_height
  · simp [hi]
  · simp only [hi, decide_False, Bool.false_and]
    unfold BitMatrix.get_bit
    unfold BitMatrix.get_height at hi
    rw [List.getElem?_eq_none (by omega)]

/-- Bit `i` of row `j` of the transpose is bit `j` of row `i` of the original,
for every column `j` of the original. -/
theorem get_bit_transpose (m : BitMatrix) (i j : Nat) (hj : j < m.width) :
    m.transpose.get_bit j i = m.get_bit i j := by
  unfold BitMatrix.transpose
  simp only [BitMatrix.get_bit, List.getElem?_map, List.getElem?_range hj, Option.map_some']
  exact (get_bit_transpose_row m j i).2

/-! ## Initialisation -/

theorem init_loop_pairs (decls : List (Vector2i × BitMatrix)) :
    (init_loop (decls.map Prod.fst) (decls.map Prod.snd)).1.length = 2 * decls.length ∧
    (init_loop (decls.map Prod.fst) (decls.map Prod.snd)).2.length = 2 * decls.length ∧
    ∀ k a M, decls[k]? = some (a, M) →
      (init_loop (decls.map Prod.fst) (decls.map Prod.snd)).1[2 * k]? = some a ∧
      (init_loop (decls.map Prod.fst) (decls.map Prod.snd)).2[2 * k]? = some M ∧
      (init_loop (decls.map Prod.fst) (decls.map Prod.snd)).1[2 * k + 1]? = some a.neg ∧
      (init_loop (decls.map Prod.fst) (decls.map Prod.snd)).2[2 * k + 1]? = some M.transpose := by
  induction decls with
  | nil => simp [init_loop]
  | cons d t ih =>
    obtain ⟨h1, h2, h3⟩ := ih
    simp only [List.map_cons, init_loop, List.length_cons]
    refine ⟨by omega, by omega, ?_⟩
    intro k a M hk
    cases k with
    | zero =>
      simp only [List.getElem?_cons_zero, Option.some.injEq] at hk
      subst hk
      simp
    | succ n =>
      simp only [List.getElem?_cons_succ] at hk
      have := h3 n a M hk
      have e1 : 2 * (n + 1) = (2 * n + 1) + 1 := by ring
      have e2 : 2 * (n + 1) + 1 = (2 * n + 1 + 1) + 1 := by ring
      rw [e1]
      simp only [List.getElem?_cons_succ]
      exact this

/-- C6: after initialisation from rules with `n` declared axes the problem holds
`2n` runtime pairs; pair `2k` is the declared axis with its matrix and pair
`2k+1` is the negated axis with the transposed matrix; and bit `j` of row `i` of
the forward matrix is set if and only if bit `i` of row `j` of the reverse
matrix is set, for all tiles `i` and all columns `j` of the matrix. -/
theorem init_axis_pairs (self : Problem) (rules : Rules) (rect : Rect2i) (k : Nat)
    (a : Vector2i) (M : BitMatrix) (h : rules.declarations[k]? = some (a, M)) :
    (self.init rules rect).axes_.length = 2 * rules.declarations.length ∧
    (self.init rules rect).axis_matrices_.length = 2 * rules.declarations.length ∧
    (self.init rules rect).axes_[2 * k]? = some a ∧
    (self.init rules rect).axis_matrices_[2 * k]? = some M ∧
    (self.init rules rect).axes_[2 * k + 1]? = some a.neg ∧
    (self.init rules rect).axis_matrices_[2 * k + 1]? = some M.transpose ∧
    ∀ i j, j < M.width → (M.get_bit i j = true ↔ M.transpose.get_bit j i = true) := by
  obtain ⟨h1, h2, h3⟩ := init_loop_pairs rules.declarations
  obtain ⟨a1, a2, a3, a4⟩ := h3 k a M h
  refine ⟨h1, h2, a1, a2, a3, a4, ?_⟩
  intro i j hj
  rw [get_bit_transpose M i j hj]


/-! ## Cell domains -/

theorem BitSet.union_size (a b r : BitSet) (h : a.union_in_place b = some r) :
    r.size_ = a.size_ := by
  unfold BitSet.union_in_place at h
  split_ifs at h
  simp only [Option.some.injEq] at h
  subst h
  rfl

/-- On a matrix whose rows all have the matrix width, `transform` succeeds
and its result has the matrix width. -/
theorem transform_isSome (m : BitMatrix) (vector : BitSet)
    (hrows : ∀ row ∈ m.rows, row.size_ = m.width) :
    ∃ T, m.transform vector = some T ∧ T.size_ = m.width := by
  unfold BitMatrix.transform
  suffices h : ∀ (l : List Nat) (acc : BitSet), acc.size_ = m.width →
      ∃ T, l.foldlM (fun acc i =>
          if vector.get_bit i then
            match m.rows[i]? with
            | some row => acc.union_in_place row
            | none => some acc
          else some acc) acc = some T ∧ T.size_ = m.width by
    exact h _ _ rfl
  intro l
  induction l with
  | nil => intro acc hacc; exact ⟨acc, rfl, hacc⟩
  | cons i t ih =>
    intro acc hacc
    rw [List.foldlM_cons]
    by_cases hb : vector.get_bit i = true
    · rw [if_pos hb]
      cases hrow : m.rows[i]? with
      | none => exact ih acc hacc
      | some row =>
        have hsz : acc.size_ = row.size_ := by
          have hmem : row ∈ m.rows := by
            rw [List.getElem?_eq_some_iff] at hrow
            obtain ⟨hlt, hrow⟩ := hrow
            rw [← hrow]
            exact List.getElem_mem hlt
          rw [hacc, hrows row hmem]
        have hu : acc.union_in_place row = some
            { data0 := acc.data0 ||| row.data0, data1 := acc.data1 ||| row.data1,
              dataX := List.zipWith (fun u v => u ||| v) acc.dataX row.dataX,
              size_ := acc.size_ } := by
          unfold BitSet.union_in_place
          simp [hsz]
        simp only [hu]
        exact ih _ hacc
    · rw [if_neg hb]
      exact ih acc hacc

theorem index?_isSome {α : Type} (l : List α) (i : Int) (h0 : 0 ≤ i)
    (h1 : i < (l.length : Int)) : ∃ v, index? l i = some v ∧ v ∈ l := by
  unfold index?
  have hlt : i.toNat < l.length := by omega
  refine ⟨l[i.toNat], ?_, List.getElem_mem hlt⟩
  rw [if_neg (by omega)]
  exact List.getElem?_eq_getElem hlt

/-- One iteration of the axis loop, on well-sized data: the running result is
intersected with the neighbour transform exactly when the axis contributes. -/
theorem compute_cell_domain_step_spec (p : Problem) (F : Int) (st : SolverState)
    (cell : Int) (n : Nat) (res : BitSet) (k : Nat)
    (hd : (st.cell_domains.length : Int) = p.get_cell_count)
    (hs : (st.cell_solution_or_entropy.length : Int) = p.get_cell_count)
    (hm : p.axis_matrices_.length = p.axes_.length)
    (hM : ∀ M ∈ p.axis_matrices_, M.width = n ∧ ∀ row ∈ M.rows, row.size_ = n)
    (hk : k < p.axes_.length) (hres : res.size_ = n) :
    ∃ r, p.compute_cell_domain_step F st (p.id_to_coord cell) res k = some r ∧
      r.size_ = n ∧
      ∀ t, r.get_bit t = (res.get_bit t &&
        (!p.axis_contributes p.rect_ F st cell k ||
          (match p.neighbour_transform st cell k with
            | some T => T.get_bit t
            | none => false))) := by
  unfold Problem.compute_cell_domain_step Problem.axis_contributes Problem.neighbour_transform
  have hax : p.axes_[k]? = some p.axes_[k] := List.getElem?_eq_getElem hk
  have hmk : k < p.axis_matrices_.length := by omega
  have hmat : p.axis_matrices_[k]? = some p.axis_matrices_[k] := List.getElem?_eq_getElem hmk
  rw [hax, hmat]
  simp only
  by_cases hp : p.rect_.has_point (((p.id_to_coord cell).add p.axes_[k]).add p.rect_.position)
      = true
  · simp only [hp, Bool.not_true, Bool.false_eq_true, if_false, Bool.true_and]
    rw [has_point_iff] at hp
    simp only [Vector2i.add] at hp
    have hx0 : 0 ≤ ((p.id_to_coord cell).add p.axes_[k]).x := by
      simp only [Vector2i.add]; omega
    have hx1 : ((p.id_to_coord cell).add p.axes_[k]).x < p.rect_.size.x := by
      simp only [Vector2i.add]; omega
    have hy0 : 0 ≤ ((p.id_to_coord cell).add p.axes_[k]).y := by
      simp only [Vector2i.add]; omega
    have hy1 : ((p.id_to_coord cell).add p.axes_[k]).y < p.rect_.size.y := by
      simp only [Vector2i.add]; omega
    have hid0 : 0 ≤ p.coord_to_id ((p.id_to_coord cell).add p.axes_[k]) := by
      simp only [Problem.coord_to_id]
      have : 0 ≤ p.rect_.size.x := by omega
      positivity
    have hid1 : p.coord_to_id ((p.id_to_coord cell).add p.axes_[k]) < p.get_cell_count := by
      simp only [Problem.coord_to_id, Problem.get_cell_count, Rect2i.get_area]
      nlinarith
    obtain ⟨v, hv, _⟩ := index?_isSome st.cell_solution_or_entropy _ hid0 (by rw [hs]; exact hid1)
    obtain ⟨d, hdv, _⟩ := index?_isSome st.cell_domains _ hid0 (by rw [hd]; exact hid1)
    rw [hv, hdv]
    simp only
    by_cases hf : v = F
    · subst hf
      refine ⟨res, by simp, hres, ?_⟩
      intro t
      simp
    · have hMk := hM _ (List.getElem_mem hmk)
      obtain ⟨T, hT, hTsz⟩ := transform_isSome p.axis_matrices_[k] d
        (by intro row hrow; rw [hMk.2 row hrow, hMk.1])
      rw [hT]
      simp only [hf, if_false]
      obtain ⟨r, hr⟩ := BitSet.intersect_isSome res T (by rw [hres, hTsz, hMk.1])
      obtain ⟨h1, h2⟩ := BitSet.get_bit_intersect res T r hr
      refine ⟨r, hr, by rw [h1, hres], ?_⟩
      intro t
      rw [h2 t]
      have : (some v != some F) = true := by simp [hf]
      simp [this]
  · simp only [Bool.not_eq_true] at hp
    simp only [hp, Bool.not_false, if_true, Bool.false_and]
    exact ⟨res, rfl, hres, by intro t; simp⟩

theorem compute_cell_domain_fold (p : Problem) (F : Int) (st : SolverState)
    (cell : Int) (n : Nat)
    (hd : (st.cell_domains.length : Int) = p.get_cell_count)
    (hs : (st.cell_solution_or_entropy.length : Int) = p.get_cell_count)
    (hm : p.axis_matrices_.length = p.axes_.length)
    (hM : ∀ M ∈ p.axis_matrices_, M.width = n ∧ ∀ row ∈ M.rows, row.size_ = n)
    (l : List Nat) (hl : ∀ k ∈ l, k < p.axes_.length) (res : BitSet) (hres : res.size_ = n) :
    ∃ r, l.foldlM (fun res i => p.compute_cell_domain_step F st (p.id_to_coord cell) res i) res
        = some r ∧ r.size_ = n ∧
      ∀ t, r.get_bit t = (res.get_bit t && l.all (fun k =>
        !p.axis_contributes p.rect_ F st cell k ||
          (match p.neighbour_transform st cell k with
            | some T => T.get_bit t
            | none => false))) := by
  induction l generalizing res with
  | nil => exact ⟨res, rfl, hres, by intro t; simp⟩
  | cons k rest ih =>
    obtain ⟨r1, h1, h1sz, h1bits⟩ := compute_cell_domain_step_spec p F st cell n res k hd hs hm
      hM (hl k (List.mem_cons_self _ _)) hres
    obtain ⟨r, h2, h2sz, h2bits⟩ := ih (fun j hj => hl j (List.mem_cons_of_mem _ hj)) r1 h1sz
    refine ⟨r, ?_, h2sz, ?_⟩
    · rw [List.foldlM_cons, h1]
      exact h2
    · intro t
      rw [h2bits t, h1bits t, List.all_cons, Bool.and_assoc]

/-- C7, as the code has it: for an in-range cell of a well-sized state,
`compute_cell_domain` returns the cell's current domain intersected with the
transform of the neighbour domain over exactly those runtime axes whose
neighbour lies inside the problem's own rect and is not marked failed. -/
theorem compute_cell_domain_spec (p : Problem) (F : Int) (st : SolverState)
    (cell : Int) (n : Nat) (hc0 : 0 ≤ cell) (hc1 : cell < p.get_cell_count)
    (hd : (st.cell_domains.length : Int) = p.get_cell_count)
    (hs : (st.cell_solution_or_entropy.length : Int) = p.get_cell_count)
    (hm : p.axis_matrices_.length = p.axes_.length)
    (hsz : ∀ d ∈ st.cell_domains, d.size_ = n)
    (hM : ∀ M ∈ p.axis_matrices_, M.width = n ∧ ∀ row ∈ M.rows, row.size_ = n) :
    ∃ r, p.compute_cell_domain F st cell = some r ∧ r.size_ = n ∧
      ∀ t, r.get_bit t = p.cell_domain_bit p.rect_ F st cell t := by
  obtain ⟨cur, hcur, hmem⟩ := index?_isSome st.cell_domains cell hc0 (by rw [hd]; exact hc1)
  obtain ⟨r, h1, h2, h3⟩ := compute_cell_domain_fold p F st cell n hd hs hm hM
    (List.range p.axes_.length) (fun k hk => List.mem_range.mp hk) cur.copy (hsz cur hmem)
  refine ⟨r, ?_, h2, ?_⟩
  · unfold Problem.compute_cell_domain
    rw [hcur]
    exact h1
  · intro t
    rw [h3 t]
    unfold Problem.cell_domain_bit
    rw [hcur]
    rfl

/-- The statement of C7 on `left_half_problem`, cell 1. -/
theorem compute_cell_domain_spec_witness :
    ∃ r, left_half_problem.compute_cell_domain 9223372036854775807 left_half_state 1 = some r ∧
      r.size_ = 2 ∧
      ∀ t, r.get_bit t = left_half_problem.cell_domain_bit left_half_problem.rect_
        9223372036854775807 left_half_state 1 t :=
  compute_cell_domain_spec left_half_problem 9223372036854775807 left_half_state 1 2
    (by decide) (by decide) (by decide) (by decide) (by decide) (by decide) (by decide)

/-- C7 as stated fails: in `left_half_problem`, whose edges rect is wider than
its rect, the neighbour of cell 1 along `(1, 0)` lies inside the edges rect and
outside the rect; the code skips it and keeps tile 0, where the intersection
over the neighbours inside the edges rect removes tile 0. -/
theorem compute_cell_domain_edges_rect_counterexample :
    ∃ r, left_half_problem.compute_cell_domain 9223372036854775807 left_half_state 1 = some r ∧
      r.get_bit 0 = true ∧
      left_half_problem.cell_domain_bit left_half_problem.edges_rect_
        9223372036854775807 left_half_state 1 0 = false :=
  ⟨⟨3, 0, [], 2⟩, by decide, by decide, by decide⟩


/-! ## Scheduling -/

theorem is_task_blocked_false_iff (tasks : List Task) (i : Nat) (task : Task)
    (h : tasks[i]? = some task) :
    is_task_blocked tasks i = false ↔ dependencies_completed tasks task := by
  unfold is_task_blocked dependencies_completed
  rw [h]
  simp only [List.any_eq_false]
  constructor
  · intro hb d hd dt hdt
    have := hb d hd
    rw [hdt] at this
    simpa using this
  · intro hb d hd
    cases hdt : index? tasks (to_int32 d) with
    | none => simp
    | some dt => simp [hb d hd dt hdt]

theorem index?_eq_some {α : Type} (l : List α) (i : Int) (v : α) (h : index? l i = some v) :
    0 ≤ i ∧ l[i.toNat]? = some v := by
  unfold index? at h
  split_ifs at h with h0
  exact ⟨by omega, h⟩

theorem index?_of_getElem? {α : Type} (l : List α) (i : Int) (h0 : 0 ≤ i) :
    index? l i = l[i.toNat]? := by
  unfold index?
  rw [if_neg (by omega)]

/-- Dependencies completed in a task list stay completed in a list that continues it. -/
theorem dependencies_completed_continues (a b : List Task) (ta tb : Task)
    (hab : continues a b) (hdeps : tb.dependencies = ta.dependencies)
    (h : dependencies_completed a ta) : dependencies_completed b tb := by
  intro d hd dt hdt
  rw [hdeps] at hd
  obtain ⟨h0, hget⟩ := index?_eq_some b _ dt hdt
  obtain ⟨da, hda, _, hcomp, _⟩ := hab.2 _ dt hget
  apply hcomp
  apply h d hd da
  rw [index?_of_getElem? a _ h0]
  exact hda

theorem started_after_dependencies_continues (a b : List Task) (hab : continues a b)
    (h : started_after_dependencies a) : started_after_dependencies b := by
  intro i tb hb hs
  obtain ⟨ta, hta, hdeps, _, hstart⟩ := hab.2 i tb hb
  rcases hstart hs with h1 | h1
  · exact dependencies_completed_continues a b ta tb hab hdeps (h i ta hta h1)
  · exact dependencies_completed_continues a b ta tb hab hdeps h1

/-- Replacing one task by a task with the same dependency list, no completion
withdrawn and the same `started` flag gives a list that continues the first. -/
theorem continues_set (a : List Task) (i : Nat) (t t2 : Task) (h : a[i]? = some t)
    (hd : t2.dependencies = t.dependencies) (hc : t.completed = true → t2.completed = true)
    (hs : t2.started = t.started) : continues a (a.set i t2) := by
  refine ⟨List.length_set _ _ _, ?_⟩
  intro j tb hb
  rw [List.getElem?_set] at hb
  by_cases hij : i = j
  · subst hij
    rw [if_pos rfl] at hb
    split_ifs at hb
    simp only [Option.some.injEq] at hb
    subst hb
    exact ⟨t, h, hd, hc, fun h1 => Or.inl (by rw [← hs]; exact h1)⟩
  · rw [if_neg hij] at hb
    exact ⟨tb, hb, rfl, id, fun h1 => Or.inl h1⟩

theorem start_task_getElem? (tasks : List Task) (i : Nat) (task : Task) (j : Nat) (t1 : Task)
    (h1 : (start_task tasks i task)[j]? = some t1) :
    (j = i ∧ t1.started = true ∧ t1.dependencies = task.dependencies ∧
      t1.completed = task.completed) ∨ (j ≠ i ∧ tasks[j]? = some t1) := by
  unfold start_task at h1
  rw [List.getElem?_set] at h1
  by_cases hij : i = j
  · subst hij
    rw [if_pos rfl] at h1
    split_ifs at h1
    simp only [Option.some.injEq] at h1
    subst h1
    exact Or.inl ⟨rfl, rfl, rfl, rfl⟩
  · rw [if_neg hij] at h1
    exact Or.inr ⟨fun h0 => hij h0.symm, h1⟩

theorem dependencies_completed_of_start_task (tasks : List Task) (i : Nat) (task t : Task)
    (h : tasks[i]? = some task)
    (hc : dependencies_completed (start_task tasks i task) t) :
    dependencies_completed tasks t := by
  intro d hd dt hdt
  obtain ⟨h0, hget⟩ := index?_eq_some tasks _ dt hdt
  have hlt : (to_int32 d).toNat < (start_task tasks i task).length := by
    have := (List.getElem?_eq_some_iff.mp hget).1
    simpa [start_task] using this
  have hex : (start_task tasks i task)[(to_int32 d).toNat]? =
      some (start_task tasks i task)[(to_int32 d).toNat] := List.getElem?_eq_getElem hlt
  have hcomp := hc d hd _ (by rw [index?_of_getElem? _ _ h0]; exact hex)
  rcases start_task_getElem? tasks i task _ _ hex with ⟨hj, _, _, h3⟩ | ⟨_, h2⟩
  · rw [hj, h] at hget
    simp only [Option.some.injEq] at hget
    rw [← hget, ← h3]
    exact hcomp
  · rw [hget] at h2
    simp only [Option.some.injEq] at h2
    rw [h2]
    exact hcomp

/-- The loop of `start_available_tasks` keeps every task or starts it; a task
it starts was not started and had its dependencies completed. -/
theorem start_available_loop_spec (mt : Int) (idxs : List Nat) (tasks : List Task)
    (s rc : Int) :
    (start_available_loop mt idxs tasks s rc).1.length = tasks.length ∧
    ∀ (j : Nat) (t2 : Task), (start_available_loop mt idxs tasks s rc).1[j]? = some t2 →
      ∃ t : Task, tasks[j]? = some t ∧
        (t2 = t ∨ (t.started = false ∧ t2.started = true ∧
          t2.dependencies = t.dependencies ∧ t2.completed = t.completed ∧
          dependencies_completed tasks t)) := by
  induction idxs generalizing tasks s rc with
  | nil => exact ⟨rfl, fun j t2 h => ⟨t2, h, Or.inl rfl⟩⟩
  | cons i rest ih =>
    unfold start_available_loop
    by_cases hrc : rc ≥ mt
    · rw [if_pos hrc]
      exact ⟨rfl, fun j t2 h => ⟨t2, h, Or.inl rfl⟩⟩
    · rw [if_neg hrc]
      cases hti : tasks[i]? with
      | none => exact ih tasks s rc
      | some task =>
        simp only
        by_cases hg : (!task.started && !is_task_blocked tasks i) = true
        · rw [if_pos hg]
          simp only [Bool.and_eq_true, Bool.not_eq_true'] at hg
          have hdc := (is_task_blocked_false_iff tasks i task hti).mp hg.2
          obtain ⟨hlen, hspec⟩ := ih (start_task tasks i task) (s + 1) (rc + 1)
          refine ⟨by rw [hlen]; simp [start_task], ?_⟩
          intro j t2 h2
          obtain ⟨t1, ht1, hcase⟩ := hspec j t2 h2
          rcases start_task_getElem? tasks i task j t1 ht1 with
            ⟨hj, hs1, hd1, hc1⟩ | ⟨_, hj⟩
          · subst hj
            refine ⟨task, hti, Or.inr ?_⟩
            rcases hcase with h3 | ⟨h3, _⟩
            · subst h3
              exact ⟨hg.1, hs1, hd1, hc1, hdc⟩
            · rw [hs1] at h3
              cases h3
          · refine ⟨t1, hj, ?_⟩
            rcases hcase with h3 | ⟨h3, h4, h5, h6, h7⟩
            · exact Or.inl h3
            · exact Or.inr ⟨h3, h4, h5, h6,
                dependencies_completed_of_start_task tasks i task t1 hti h7⟩
        · rw [if_neg hg]
          exact ih tasks s rc

theorem start_available_tasks_continues (r : Runner) :
    continues r.tasks_ r.start_available_tasks.1.tasks_ := by
  obtain ⟨hlen, hspec⟩ := start_available_loop_spec r.max_threads_
    (List.range r.tasks_.length) r.tasks_ 0 r.running_count
  refine ⟨hlen, ?_⟩
  intro j tb hb
  obtain ⟨t, ht, hcase⟩ := hspec j tb hb
  refine ⟨t, ht, ?_⟩
  rcases hcase with h | ⟨_, _, h3, h4, h5⟩
  · subst h
    exact ⟨rfl, id, fun h1 => Or.inl h1⟩
  · exact ⟨h3, fun h1 => by rw [h4]; exact h1, fun _ => Or.inr h5⟩

theorem join_completed_continues (tasks : List Task) :
    continues tasks (Runner.join_completed tasks) := by
  unfold Runner.join_completed
  refine ⟨List.length_map _ _, ?_⟩
  intro j tb hb
  rw [List.getElem?_map] at hb
  cases ht : tasks[j]? with
  | none => rw [ht] at hb; simp at hb
  | some t =>
    rw [ht] at hb
    simp only [Option.map_some', Option.some.injEq] at hb
    refine ⟨t, rfl, ?_⟩
    subst hb
    split_ifs
    · exact ⟨rfl, id, fun h1 => Or.inl h1⟩
    · exact ⟨rfl, id, fun h1 => Or.inl h1⟩

theorem step_started_after_dependencies (r r2 : Runner) (hstep : Step r r2)
    (h : started_after_dependencies r.tasks_) : started_after_dependencies r2.tasks_ := by
  cases hstep with
  | solve_step i task unsolved state hi hs hc =>
    unfold Runner.thread_solve_step
    rw [hi]
    simp only
    apply started_after_dependencies_continues _ _ _ h
    apply continues_set _ _ task _ hi
    · split_ifs <;> rfl
    · intro h1; split_ifs <;> exact h1
    · split_ifs <;> rfl
  | finish i task state hi hs hc =>
    unfold Runner.thread_finish
    rw [hi]
    simp only
    apply started_after_dependencies_continues _ _ _ h
    exact continues_set _ _ task _ hi rfl (fun _ => rfl) rfl
  | update =>
    unfold Runner.update
    by_cases h0 : r.tasks_.isEmpty = true
    · rw [if_pos h0]
      exact h
    · rw [if_neg h0]
      have hj := started_after_dependencies_continues _ _
        (join_completed_continues r.tasks_) h
      by_cases h1 : (r.tasks_.any fun task => task.started && task.completed && task.has_thread)
          = true
      · simp only [h1, if_true]
        exact started_after_dependencies_continues _ _
          (start_available_tasks_continues
            { r with tasks_ := Runner.join_completed r.tasks_ }) hj
      · simp only [h1, if_false]
        exact hj
  | start_available =>
    exact started_after_dependencies_continues _ _ (start_available_tasks_continues r) h

theorem reachable_started_after_dependencies (r : Runner) (h : Reachable r) :
    started_after_dependencies r.tasks_ := by
  induction h with
  | start r0 sub_problems max_threads =>
    unfold Runner.start
    simp only
    apply started_after_dependencies_continues _ _ (start_available_tasks_continues _)
    intro i task hi hs
    simp only [List.getElem?_map] at hi
    cases hsub : (List.filterMap id sub_problems)[i]? with
    | none => rw [hsub] at hi; simp at hi
    | some sub =>
      rw [hsub] at hi
      simp only [Option.map_some', Option.some.injEq] at hi
      subst hi
      simp [Runner.new_task] at hs
  | step r r2 _ hstep ih => exact step_started_after_dependencies r r2 hstep ih

/-- C4: in every reachable state of the runner, `start_available_tasks` starts
a task only if it was not yet started and every task named in its dependency
list is completed; a task already started is left as it is; and no started
task has a declared dependency that is not completed. -/
theorem start_respects_dependencies (r : Runner) (h : Reachable r) :
    (∀ (i : Nat) (t t2 : Task), r.tasks_[i]? = some t →
      r.start_available_tasks.1.tasks_[i]? = some t2 →
      t2.started = true → t.started = false →
      ∀ d ∈ t.dependencies, ∀ dep_task, index? r.tasks_ (to_int32 d) = some dep_task →
        dep_task.completed = true) ∧
    (∀ (i : Nat) (t : Task), r.tasks_[i]? = some t → t.started = true →
      r.start_available_tasks.1.tasks_[i]? = some t) ∧
    (∀ (i : Nat) (t : Task), r.tasks_[i]? = some t → t.started = true →
      ∀ d ∈ t.dependencies, ∀ dep_task, index? r.tasks_ (to_int32 d) = some dep_task →
        dep_task.completed = true) := by
  obtain ⟨hlen, hspec⟩ := start_available_loop_spec r.max_threads_
    (List.range r.tasks_.length) r.tasks_ 0 r.running_count
  refine ⟨?_, ?_, ?_⟩
  · intro i t t2 ht ht2 hs2 hs
    obtain ⟨t0, ht0, hcase⟩ := hspec i t2 ht2
    rw [ht] at ht0
    simp only [Option.some.injEq] at ht0
    subst ht0
    rcases hcase with h1 | ⟨_, _, _, _, h5⟩
    · subst h1
      rw [hs] at hs2
      cases hs2
    · exact h5
  · intro i t ht hs
    have hlt : i < r.tasks_.length := (List.getElem?_eq_some_iff.mp ht).1
    have hlt2 : i < (start_available_loop r.max_threads_ (List.range r.tasks_.length)
        r.tasks_ 0 r.running_count).1.length := by rw [hlen]; exact hlt
    obtain ⟨t0, ht0, hcase⟩ := hspec i _ (List.getElem?_eq_getElem hlt2)
    rw [ht] at ht0
    simp only [Option.some.injEq] at ht0
    subst ht0
    rcases hcase with h1 | ⟨h1, _⟩
    · show (start_available_loop r.max_threads_ (List.range r.tasks_.length)
        r.tasks_ 0 r.running_count).1[i]? = some t
      rw [List.getElem?_eq_getElem hlt2, h1]
    · rw [hs] at h1
      cases h1
  · exact reachable_started_after_dependencies r h


/-! ## Boundary copy -/

theorem point_cell_id_range (p : Problem) (pt : Vector2i) (h : p.rect_.has_point pt = true) :
    0 ≤ p.point_cell_id pt ∧ p.point_cell_id pt < p.get_cell_count := by
  rw [has_point_iff] at h
  unfold Problem.point_cell_id Problem.get_cell_count Rect2i.get_area
  have h1 : 0 ≤ pt.y - p.rect_.position.y := by omega
  have h2 : 0 ≤ pt.x - p.rect_.position.x := by omega
  have h3 : pt.x - p.rect_.position.x < p.rect_.size.x := by omega
  have h4 : pt.y - p.rect_.position.y + 1 ≤ p.rect_.size.y := by omega
  have h5 : 0 ≤ p.rect_.size.x := by omega
  constructor
  · positivity
  · nlinarith [mul_le_mul_of_nonneg_right h4 h5]

theorem point_cell_id_injective (p : Problem) (pt q : Vector2i)
    (hp : p.rect_.has_point pt = true) (hq : p.rect_.has_point q = true)
    (h : p.point_cell_id pt = p.point_cell_id q) : pt = q := by
  rw [has_point_iff] at hp hq
  unfold Problem.point_cell_id at h
  have hw : 0 < p.rect_.size.x := by omega
  have e1 : ((pt.x - p.rect_.position.x) + (pt.y - p.rect_.position.y) * p.rect_.size.x)
      % p.rect_.size.x = pt.x - p.rect_.position.x := by
    rw [Int.add_mul_emod_self]
    exact Int.emod_eq_of_lt (by omega) (by omega)
  have e2 : ((q.x - p.rect_.position.x) + (q.y - p.rect_.position.y) * p.rect_.size.x)
      % p.rect_.size.x = q.x - p.rect_.position.x := by
    rw [Int.add_mul_emod_self]
    exact Int.emod_eq_of_lt (by omega) (by omega)
  have hx : pt.x = q.x := by
    have : pt.x - p.rect_.position.x = q.x - p.rect_.position.x := by
      rw [← e1, ← e2, add_comm, h, add_comm]
    omega
  have hy : pt.y = q.y := by
    have h2 : (pt.y - p.rect_.position.y) * p.rect_.size.x
        = (q.y - p.rect_.position.y) * p.rect_.size.x := by
      rw [hx] at h
      linarith
    have := Int.eq_of_mul_eq_mul_right hw.ne' h2
    omega
  cases pt
  cases q
  simp only at hx hy
  rw [hx, hy]

/-- The call made by the loop body at a point, in declarative terms. -/
theorem boundary_write_eq (target_rect source_rect : Rect2i) (solutions : List Int)
    (x y : Int) :
    boundary_write target_rect source_rect solutions x y =
      if source_rect.has_point ⟨x, y⟩ && target_rect.has_point ⟨x, y⟩ then
        match index? solutions
            ((y - source_rect.position.y) * source_rect.size.x
              + (x - source_rect.position.x)) with
        | some value =>
          if to_int32 value ≥ 0 then
            some ((y - target_rect.position.y) * target_rect.size.x
              + (x - target_rect.position.x), to_int32 value)
          else none
        | none => none
      else none := by
  unfold boundary_write index?
  by_cases hs : source_rect.has_point ⟨x, y⟩ = true
  · by_cases ht : target_rect.has_point ⟨x, y⟩ = true
    · simp only [hs, ht, Bool.not_true, Bool.false_eq_true, if_false, Bool.and_self, if_true]
      by_cases h0 : (y - source_rect.position.y) * source_rect.size.x
          + (x - source_rect.position.x) < 0
      · simp [h0]
      · by_cases h1 : (y - source_rect.position.y) * source_rect.size.x
            + (x - source_rect.position.x) ≥ (solutions.length : Int)
        · have : solutions.length ≤ ((y - source_rect.position.y) * source_rect.size.x
              + (x - source_rect.position.x)).toNat := by omega
          simp [h0, h1, List.getElem?_eq_none this]
        · have hlt : ((y - source_rect.position.y) * source_rect.size.x
              + (x - source_rect.position.x)).toNat < solutions.length := by omega
          simp only [h0, h1, or_self, if_false, List.getD_eq_getElem?_getD,
            List.getElem?_eq_getElem hlt, Option.getD_some]
    · simp only [Bool.not_eq_true] at ht
      simp only [hs, ht, Bool.not_true, Bool.false_eq_true, if_false, Bool.and_false,
        Bool.not_false, if_true]
      split_ifs <;> rfl
  · simp only [Bool.not_eq_true] at hs
    simp [hs]

/-- Every call of `set_precondition_solution` made by the loop body names a
cell of the target. -/
theorem boundary_write_in_range (target : Problem) (source_rect : Rect2i)
    (solutions : List Int) (x y id v : Int)
    (h : boundary_write target.rect_ source_rect solutions x y = some (id, v)) :
    target.rect_.has_point ⟨x, y⟩ = true ∧ id = target.point_cell_id ⟨x, y⟩ ∧
      0 ≤ id ∧ id < target.get_cell_count := by
  rw [boundary_write_eq] at h
  split_ifs at h with h1
  simp only [Bool.and_eq_true] at h1
  have hid : id = target.point_cell_id ⟨x, y⟩ := by
    cases hv : index? solutions ((y - source_rect.position.y) * source_rect.size.x
        + (x - source_rect.position.x)) with
    | none => rw [hv] at h; simp at h
    | some value =>
      rw [hv] at h
      simp only at h
      split_ifs at h
      simp only [Option.some.injEq, Prod.mk.injEq] at h
      rw [← h.1]
      rfl
  have := point_cell_id_range target ⟨x, y⟩ h1.2
  exact ⟨h1.2, hid, by rw [hid]; exact this.1, by rw [hid]; exact this.2⟩

theorem set_precondition_solution_spec (t : Problem) (id v : Int) (hW : t.solutions_allocated)
    (h0 : 0 ≤ id) (h1 : id < t.get_cell_count) :
    (t.set_precondition_solution id v).rect_ = t.rect_ ∧
    (t.set_precondition_solution id v).solutions_allocated ∧
    ∀ c : Nat, (t.set_precondition_solution id v).precondition_solution_at c =
      if c = id.toNat then v else t.precondition_solution_at c := by
  refine ⟨rfl, ?_, ?_⟩
  · right
    unfold Problem.set_precondition_solution Problem.get_cell_count
    simp only [h0, h1, Problem.get_cell_count, ge_iff_le, and_self, if_true] 
    have h1' : id < t.rect_.get_area := h1
    simp only [h1', and_self, if_true, List.length_set]
    split_ifs with hlen
    · simp only [List.length_replicate]
      omega
    · simp only [ne_eq, Decidable.not_not] at hlen
      exact hlen
  · intro c
    unfold Problem.set_precondition_solution Problem.precondition_solution_at
    have h1' : id < t.rect_.get_area := h1
    simp only [Problem.get_cell_count, ge_iff_le, h0, h1', and_self, if_true,
      List.getD_eq_getElem?_getD, List.getElem?_set]
    by_cases hlen : (t.precondition_solutions_.length : Int) ≠ t.rect_.get_area
    · have hzero : t.precondition_solutions_ = [] := by
        rcases hW with h | h
        · exact List.length_eq_zero.mp h
        · exact absurd h hlen
      simp only [hlen, ne_eq, not_false_eq_true, if_true, List.length_replicate]
      by_cases hc : id.toNat = c
      · have : id.toNat < t.rect_.get_area.toNat := by omega
        simp [hc.symm, this]
      · have hc2 : ¬ c = id.toNat := fun h => hc h.symm
        simp only [hc, if_false, hc2, hzero, List.getElem?_replicate]
        split_ifs <;> simp
    · simp only [hlen, if_false]
      simp only [ne_eq, Decidable.not_not] at hlen
      by_cases hc : id.toNat = c
      · have : id.toNat < t.precondition_solutions_.length := by omega
        simp [hc.symm, this]
      · have hc2 : ¬ c = id.toNat := fun h => hc h.symm
        simp [hc, hc2]

/-- The effect of the loop body at `(x, y)` on the target cell of a point `q`. -/
theorem copy_boundary_cell_spec (source_rect : Rect2i) (solutions : List Int) (t : Problem)
    (x y : Int) (hW : t.solutions_allocated) :
    (copy_boundary_cell source_rect solutions t x y).rect_ = t.rect_ ∧
    (copy_boundary_cell source_rect solutions t x y).solutions_allocated ∧
    ∀ q : Vector2i, t.rect_.has_point q = true →
      (copy_boundary_cell source_rect solutions t x y).precondition_solution_at
          (t.point_cell_id q).toNat =
        if q = ⟨x, y⟩ then
          ((boundary_write t.rect_ source_rect solutions x y).map Prod.snd).getD
            (t.precondition_solution_at (t.point_cell_id q).toNat)
        else t.precondition_solution_at (t.point_cell_id q).toNat := by
  unfold copy_boundary_cell
  cases hbw : boundary_write t.rect_ source_rect solutions x y with
  | none =>
    simp only [Option.map_none', Option.getD_none]
    refine ⟨trivial, hW, fun q _ => ?_⟩
    split_ifs <;> rfl
  | some w =>
    obtain ⟨id, v⟩ := w
    obtain ⟨hpt, hid, h0, h1⟩ := boundary_write_in_range t source_rect solutions x y id v hbw
    obtain ⟨hr, hW2, hat⟩ := set_precondition_solution_spec t id v hW h0 h1
    simp only [Option.map_some', Option.getD_some]
    refine ⟨hr, hW2, ?_⟩
    intro q hq
    rw [hat]
    by_cases hqe : q = ⟨x, y⟩
    · subst hqe
      rw [if_pos rfl, hid, if_pos rfl]
    · rw [if_neg hqe]
      have hne : (t.point_cell_id q).toNat ≠ id.toNat := by
        intro he
        apply hqe
        apply point_cell_id_injective t q ⟨x, y⟩ hq hpt
        have := (point_cell_id_range t q hq).1
        rw [← hid]
        omega
      rw [if_neg hne]

theorem copy_boundary_row_spec (source_rect : Rect2i) (solutions : List Int) (x : Int)
    (ys : List Int) (t : Problem) (hW : t.solutions_allocated) :
    (ys.foldl (fun target y => copy_boundary_cell source_rect solutions target x y) t).rect_
      = t.rect_ ∧
    (ys.foldl (fun target y => copy_boundary_cell source_rect solutions target x y)
      t).solutions_allocated ∧
    ∀ q : Vector2i, t.rect_.has_point q = true →
      (ys.foldl (fun target y => copy_boundary_cell source_rect solutions target x y)
          t).precondition_solution_at (t.point_cell_id q).toNat =
        if q.x = x ∧ q.y ∈ ys then
          ((boundary_write t.rect_ source_rect solutions q.x q.y).map Prod.snd).getD
            (t.precondition_solution_at (t.point_cell_id q).toNat)
        else t.precondition_solution_at (t.point_cell_id q).toNat := by
  induction ys generalizing t with
  | nil => exact ⟨rfl, hW, fun q _ => by simp⟩
  | cons y rest ih =>
    obtain ⟨hr1, hW1, hat1⟩ := copy_boundary_cell_spec source_rect solutions t x y hW
    obtain ⟨hr2, hW2, hat2⟩ := ih (copy_boundary_cell source_rect solutions t x y) hW1
    simp only [List.foldl_cons]
    refine ⟨by rw [hr2, hr1], hW2, ?_⟩
    intro q hq
    have hpid : (copy_boundary_cell source_rect solutions t x y).point_cell_id q
        = t.point_cell_id q := by
      unfold Problem.point_cell_id
      rw [hr1]
    have := hat2 q (by rw [hr1]; exact hq)
    rw [hpid, hr1] at this
    rw [this, hat1 q hq]
    by_cases hqx : q.x = x
    · by_cases hqy : q.y = y
      · have hqe : q = ⟨x, y⟩ := by cases q; simp only at hqx hqy; rw [hqx, hqy]
        subst hqe
        simp only [true_and, if_true, List.mem_cons, true_or]
        split_ifs
        · cases boundary_write t.rect_ source_rect solutions x y <;> rfl
        · rfl
      · have hqe : ¬ q = ⟨x, y⟩ := by
          intro h; apply hqy; rw [h]
        simp only [hqx, true_and, hqe, if_false, List.mem_cons, hqy, false_or]
    · have hqe : ¬ q = ⟨x, y⟩ := by
        intro h; apply hqx; rw [h]
      simp only [hqx, false_and, if_false, hqe]

theorem copy_boundary_rows_spec (source_rect : Rect2i) (solutions : List Int)
    (xs ys : List Int) (t : Problem) (hW : t.solutions_allocated) :
    (xs.foldl (fun target x =>
      ys.foldl (fun target y => copy_boundary_cell source_rect solutions target x y) target)
      t).rect_ = t.rect_ ∧
    ∀ q : Vector2i, t.rect_.has_point q = true →
      (xs.foldl (fun target x =>
        ys.foldl (fun target y => copy_boundary_cell source_rect solutions target x y) target)
          t).precondition_solution_at (t.point_cell_id q).toNat =
        if q.x ∈ xs ∧ q.y ∈ ys then
          ((boundary_write t.rect_ source_rect solutions q.x q.y).map Prod.snd).getD
            (t.precondition_solution_at (t.point_cell_id q).toNat)
        else t.precondition_solution_at (t.point_cell_id q).toNat := by
  induction xs generalizing t with
  | nil => exact ⟨rfl, fun q _ => by simp⟩
  | cons x rest ih =>
    obtain ⟨hr1, hW1, hat1⟩ := copy_boundary_row_spec source_rect solutions x ys t hW
    obtain ⟨hr2, hat2⟩ := ih (ys.foldl
      (fun target y => copy_boundary_cell source_rect solutions target x y) t) hW1
    simp only [List.foldl_cons]
    refine ⟨by rw [hr2, hr1], ?_⟩
    intro q hq
    have hpid : (ys.foldl (fun target y => copy_boundary_cell source_rect solutions target x y)
        t).point_cell_id q = t.point_cell_id q := by
      unfold Problem.point_cell_id
      rw [hr1]
    have := hat2 q (by rw [hr1]; exact hq)
    rw [hpid, hr1] at this
    rw [this, hat1 q hq]
    by_cases hqx : q.x = x
    · by_cases hqy : q.y ∈ ys
      · simp only [hqx, hqy, and_self, if_true, List.mem_cons, true_or]
        split_ifs
        · cases boundary_write t.rect_ source_rect solutions x q.y <;> rfl
        · rfl
      · simp only [hqy, and_false, if_false]
    · simp only [hqx, false_and, if_false, List.mem_cons, false_or]

theorem mem_loop_range (first count x : Int) :
    x ∈ loop_range first count ↔ first ≤ x ∧ x < first + count := by
  unfold loop_range
  simp only [List.mem_map, List.mem_range]
  constructor
  · rintro ⟨k, hk, rfl⟩
    omega
  · intro h
    exact ⟨(x - first).toNat, by omega, by omega⟩


/-! ## Boundary copy: the domain preconditions -/

theorem resize_domains_getD (l : List (Option BitSet)) (n c : Nat) (hc : c < n) :
    (Problem.resize_domains l n).getD c none = l.getD c none := by
  unfold Problem.resize_domains
  simp only [List.getD_eq_getElem?_getD]
  by_cases hl : c < l.length
  · rw [List.getElem?_append_left (by simp; omega), List.getElem?_take_of_lt hc]
  · rw [List.getElem?_append_right (by simp; omega), List.getElem?_eq_none (show l.length ≤ c by omega)]
    simp only [List.getElem?_replicate]
    split_ifs <;> rfl

theorem set_precondition_solution_domains (t : Problem) (id v : Int) (c : Nat)
    (hc : (c : Int) < t.get_cell_count) :
    (t.set_precondition_solution id v).precondition_domains_.getD c none =
      t.precondition_domains_.getD c none := by
  unfold Problem.set_precondition_solution
  simp only
  split_ifs
  · exact resize_domains_getD _ _ _ (by omega)
  · rfl

theorem copy_boundary_cell_domains (source_rect : Rect2i) (solutions : List Int) (t : Problem)
    (x y : Int) (c : Nat) (hc : (c : Int) < t.get_cell_count) :
    (copy_boundary_cell source_rect solutions t x y).rect_ = t.rect_ ∧
    (copy_boundary_cell source_rect solutions t x y).precondition_domains_.getD c none =
      t.precondition_domains_.getD c none := by
  unfold copy_boundary_cell
  cases boundary_write t.rect_ source_rect solutions x y with
  | none => exact ⟨rfl, rfl⟩
  | some w => exact ⟨rfl, set_precondition_solution_domains t w.1 w.2 c hc⟩

theorem copy_boundary_row_domains (source_rect : Rect2i) (solutions : List Int) (x : Int)
    (ys : List Int) (t : Problem) (c : Nat) (hc : (c : Int) < t.get_cell_count) :
    (ys.foldl (fun target y => copy_boundary_cell source_rect solutions target x y) t).rect_
      = t.rect_ ∧
    (ys.foldl (fun target y => copy_boundary_cell source_rect solutions target x y)
      t).precondition_domains_.getD c none = t.precondition_domains_.getD c none := by
  induction ys generalizing t with
  | nil => exact ⟨rfl, rfl⟩
  | cons y rest ih =>
    obtain ⟨h1, h2⟩ := copy_boundary_cell_domains source_rect solutions t x y c hc
    obtain ⟨h3, h4⟩ := ih (copy_boundary_cell source_rect solutions t x y)
      (by unfold Problem.get_cell_count at hc ⊢; rw [h1]; exact hc)
    simp only [List.foldl_cons]
    exact ⟨by rw [h3, h1], by rw [h4, h2]⟩

theorem copy_boundary_rows_domains (source_rect : Rect2i) (solutions : List Int)
    (xs ys : List Int) (t : Problem) (c : Nat) (hc : (c : Int) < t.get_cell_count) :
    (xs.foldl (fun target x =>
      ys.foldl (fun target y => copy_boundary_cell source_rect solutions target x y) target)
      t).precondition_domains_.getD c none = t.precondition_domains_.getD c none := by
  induction xs generalizing t with
  | nil => rfl
  | cons x rest ih =>
    obtain ⟨h1, h2⟩ := copy_boundary_row_domains source_rect solutions x ys t c hc
    simp only [List.foldl_cons]
    rw [ih _ (by unfold Problem.get_cell_count at hc ⊢; rw [h1]; exact hc), h2]

/-- For a point of the target rect, the value written by the loop body is the
value taken from the source whenever the point lies in the read rect. -/
theorem boundary_write_copied (target_rect source_rect read_rect : Rect2i)
    (solutions : List Int) (q : Vector2i) (hq : target_rect.has_point q = true) :
    copied_solution source_rect solutions read_rect q =
      if read_rect.has_point q then
        (boundary_write target_rect source_rect solutions q.x q.y).map Prod.snd
      else none := by
  unfold copied_solution
  rw [boundary_write_eq]
  have hq2 : target_rect.has_point ⟨q.x, q.y⟩ = true := hq
  by_cases hr : read_rect.has_point q = true
  · by_cases hs : source_rect.has_point q = true
    · have hs2 : source_rect.has_point ⟨q.x, q.y⟩ = true := hs
      simp only [hr, hs, hs2, hq2, Bool.and_self, if_true]
      cases index? solutions ((q.y - source_rect.position.y) * source_rect.size.x
          + (q.x - source_rect.position.x)) with
      | none => rfl
      | some value =>
        simp only
        split_ifs <;> rfl
    · simp only [Bool.not_eq_true] at hs
      have hs2 : source_rect.has_point ⟨q.x, q.y⟩ = false := hs
      simp [hr, hs, hs2]
  · simp only [Bool.not_eq_true] at hr
    simp [hr]

/-- C5, as the code has it: on a target whose precondition-solution array is
unallocated or has one entry per cell, `copy_boundary_solutions` leaves the
target rect as it is; afterwards the pre-solved tile of the target cell at a
grid point `q` is the source entry at `q` read as an `int`, when `q` lies in the
read rect, the source rect and the target rect and that value is not negative,
and is unchanged for every other target cell; the domain precondition of every
target cell is unchanged; and every written cell id is in `[0, cell count)`. -/
theorem copy_boundary_solutions_frame (target source : Problem) (st : SolverState)
    (read_rect : Rect2i) (hW : target.solutions_allocated) :
    (copy_boundary_solutions target source st read_rect).rect_ = target.rect_ ∧
    (∀ q : Vector2i, target.rect_.has_point q = true →
      (copy_boundary_solutions target source st read_rect).precondition_solution_at
          (target.point_cell_id q).toNat =
        (copied_solution source.rect_ st.cell_solution_or_entropy read_rect q).getD
          (target.precondition_solution_at (target.point_cell_id q).toNat)) ∧
    (∀ c : Nat, (c : Int) < target.get_cell_count →
      (copy_boundary_solutions target source st read_rect).precondition_domains_.getD c none =
        target.precondition_domains_.getD c none) ∧
    (∀ x y id v : Int,
      boundary_write target.rect_ source.rect_ st.cell_solution_or_entropy x y = some (id, v) →
      0 ≤ id ∧ id < target.get_cell_count) := by
  have hlast : ∀ x y id v : Int,
      boundary_write target.rect_ source.rect_ st.cell_solution_or_entropy x y = some (id, v) →
      0 ≤ id ∧ id < target.get_cell_count := by
    intro x y id v h
    obtain ⟨_, _, h0, h1⟩ := boundary_write_in_range target source.rect_ _ x y id v h
    exact ⟨h0, h1⟩
  unfold copy_boundary_solutions
  by_cases ha : read_rect.has_area = true
  · simp only [ha, Bool.not_true, Bool.false_eq_true, if_false]
    obtain ⟨hr, hat⟩ := copy_boundary_rows_spec source.rect_ st.cell_solution_or_entropy
      (loop_range read_rect.position.x read_rect.size.x)
      (loop_range read_rect.position.y read_rect.size.y) target hW
    refine ⟨hr, ?_, fun c hc => copy_boundary_rows_domains _ _ _ _ target c hc, hlast⟩
    intro q hq
    rw [hat q hq, boundary_write_copied target.rect_ source.rect_ read_rect _ q hq]
    by_cases hrq : read_rect.has_point q = true
    · have hmem : q.x ∈ loop_range read_rect.position.x read_rect.size.x ∧
          q.y ∈ loop_range read_rect.position.y read_rect.size.y := by
        rw [has_point_iff] at hrq
        simp only [mem_loop_range]
        omega
      simp only [hmem, and_self, if_true, hrq]
    · have hmem : ¬ (q.x ∈ loop_range read_rect.position.x read_rect.size.x ∧
          q.y ∈ loop_range read_rect.position.y read_rect.size.y) := by
        intro h
        apply hrq
        rw [has_point_iff]
        simp only [mem_loop_range] at h
        omega
      simp only [Bool.not_eq_true] at hrq
      simp only [hmem, if_false, hrq, Bool.false_eq_true, Option.getD_none]
  · simp only [Bool.not_eq_true] at ha
    have hna : (!read_rect.has_area) = true := by rw [ha]; rfl
    rw [if_pos hna]
    refine ⟨rfl, ?_, fun c hc => rfl, hlast⟩
    intro q hq
    have hrq : read_rect.has_point q = false := by
      cases h : read_rect.has_point q
      · rfl
      · rw [has_point_iff] at h
        simp only [Rect2i.has_area, Bool.and_eq_false_iff, decide_eq_false_iff_not] at ha
        omega
    simp [copied_solution, hrq]

/-- The statement of C5 on `pair_problem` as target and source with `pair_state`:
the target cell at `(1, 0)` receives tile 3. -/
theorem copy_boundary_solutions_frame_witness :
    (copy_boundary_solutions pair_problem pair_problem pair_state
        ⟨⟨0, 0⟩, ⟨2, 1⟩⟩).precondition_solution_at (pair_problem.point_cell_id ⟨1, 0⟩).toNat =
      (copied_solution pair_problem.rect_ pair_state.cell_solution_or_entropy
          ⟨⟨0, 0⟩, ⟨2, 1⟩⟩ ⟨1, 0⟩).getD
        (pair_problem.precondition_solution_at (pair_problem.point_cell_id ⟨1, 0⟩).toNat) :=
  (copy_boundary_solutions_frame pair_problem pair_problem pair_state ⟨⟨0, 0⟩, ⟨2, 1⟩⟩
    (Or.inl rfl)).2.1 ⟨1, 0⟩ (by decide)

/-- C5 as stated fails twice.  On `stale_problem`, whose precondition-solution
array has one entry for two cells, the copy of tile 3 into cell 1 resets the
array, so cell 0, which receives nothing, loses its pre-solved tile 7.  With
`wide_state`, the source entry `2^31` of cell 0 is not negative, yet read as an
`int` it is, and cell 0 of the target is not written. -/
theorem copy_boundary_solutions_counterexample :
    (stale_problem.rect_.has_point ⟨0, 0⟩ = true ∧
      copied_solution pair_problem.rect_ pair_state.cell_solution_or_entropy
        ⟨⟨0, 0⟩, ⟨2, 1⟩⟩ ⟨0, 0⟩ = none ∧
      stale_problem.precondition_solution_at 0 = 7 ∧
      (copy_boundary_solutions stale_problem pair_problem pair_state
        ⟨⟨0, 0⟩, ⟨2, 1⟩⟩).precondition_solution_at 0 = -1) ∧
    (pair_problem.rect_.has_point ⟨0, 0⟩ = true ∧
      wide_state.cell_solution_or_entropy.getD 0 0 = 2147483648 ∧
      (copy_boundary_solutions pair_problem pair_problem wide_state
        ⟨⟨0, 0⟩, ⟨2, 1⟩⟩).precondition_solution_at 0 = -1) := by
  decide

/-! ## Instances -/

/-- The statement of C2 on the split of `line_problem`, at index 1. -/
theorem split_dependencies_alternate_witness :
    ((line_problem.split 4).getD 1 line_problem.single_sub_problem).dependencies =
      if 1 + 1 < (line_problem.split 4).length then [((1 : Nat) : Int) - 1, ((1 : Nat) : Int) + 1]
      else [((1 : Nat) : Int) - 1] :=
  (split_dependencies_alternate line_problem 4 1
    ((line_problem.split 4).getD 1 line_problem.single_sub_problem) (by decide)).2.1 (by decide)

/-- The statement of C3 on `line_problem` with concurrency limit 1. -/
theorem split_below_two_witness :
    ∃ sub, line_problem.split 1 = [sub] ∧ sub.dependencies = [] ∧
      sub.problem.rect_ = line_problem.rect_ ∧
      sub.problem.renderable_rect_ = line_problem.renderable_rect_ ∧
      sub.problem.edges_rect_ = line_problem.edges_rect_ :=
  split_below_two line_problem 1 (by decide)

/-- The statement of C10 on `line_problem` with concurrency limit 4. -/
theorem split_count_witness :
    (line_problem.split 4 = [line_problem.single_sub_problem] ∧
      (line_problem.split 4).length = 1 ∧
      line_problem.single_sub_problem.dependencies = [] ∧
      line_problem.single_sub_problem.problem.rect_ = line_problem.rect_) ∨
    (3 ≤ (line_problem.split 4).length ∧ ((line_problem.split 4).length : Int) ≤ 2 * 4) :=
  split_count line_problem 4 (by decide)

/-- The statement of C6 on `identity_rules`, at the declared axis 0. -/
theorem init_axis_pairs_witness :
    ((Problem.fresh identity_rules).init identity_rules ⟨⟨0, 0⟩, ⟨2, 2⟩⟩).axes_[2 * 0 + 1]? =
      some (Vector2i.neg ⟨1, 0⟩) :=
  (init_axis_pairs (Problem.fresh identity_rules) identity_rules ⟨⟨0, 0⟩, ⟨2, 2⟩⟩ 0 ⟨1, 0⟩
    ⟨2, [⟨1, 0, [], 2⟩, ⟨2, 0, [], 2⟩]⟩ (by decide)).2.2.2.2.1

/-- The statement of C4 on `chain_updated`: task 1, started by `update`, names
task 0, which is completed. -/
theorem start_respects_dependencies_witness :
    (chain_updated.tasks_.getD 0 (Runner.new_task pair_problem.single_sub_problem)).completed
      = true :=
  (start_respects_dependencies chain_updated
    (Reachable.step chain_finished chain_updated
      (Reachable.step chain_started chain_finished
        (Reachable.start _ chain_sub_problems 2)
        (Step.finish chain_started 0
          (chain_started.tasks_.getD 0 (Runner.new_task pair_problem.single_sub_problem))
          pair_state (by decide) (by decide) (by decide)))
      (Step.update chain_finished))).2.2 1
    (chain_updated.tasks_.getD 1 (Runner.new_task pair_problem.single_sub_problem))
    (by decide) (by decide) 0 (by decide)
    (chain_updated.tasks_.getD 0 (Runner.new_task pair_problem.single_sub_problem)) (by decide)

/-! ## Band widths -/

theorem ediv_add_le (a b c : Int) (hc : 0 < c) : a / c + b / c ≤ (a + b) / c := by
  apply Int.le_ediv_of_mul_le hc
  have h1 := Int.ediv_mul_le a hc.ne'
  have h2 := Int.ediv_mul_le b hc.ne'
  linarith

theorem split_range_rec_bands (first size m : Int) (hs : 0 ≤ size) (n : Nat)
    (hlen : 2 < (split_range_rec first size m n).length) (i : Nat)
    (hi : i + 1 < (split_range_rec first size m n).length) :
    m ≤ (split_range_rec first size m n).getD (i + 1) 0
      - (split_range_rec first size m n).getD i 0 := by
  induction n with
  | zero => simp [split_range_rec] at hlen
  | succ k ih =>
    unfold split_range_rec at hlen hi ⊢
    simp only at hlen hi ⊢
    split_ifs at hlen hi ⊢ with h1 h2
    · simp at hlen
    · exact ih hlen hi
    · simp only [List.length_append, List.length_map, List.length_range,
        List.length_singleton] at hi
      have hp : (0 : Int) < ((k + 1 : Nat) : Int) := by positivity
      have hget : ∀ j : Nat, j ≤ k + 1 →
          ((List.range (k + 1)).map
              (fun (partition : Nat) =>
                first + (size * (partition : Int)).tdiv ((k + 1 : Nat) : Int))
            ++ [first + size]).getD j 0
            = first + (size * (j : Int)) / ((k + 1 : Nat) : Int) := by
        intro j hj
        rw [List.getD_eq_getElem?_getD]
        by_cases hjk : j < k + 1
        · rw [List.getElem?_append_left (by simp; exact hjk), List.getElem?_map,
            List.getElem?_range hjk]
          simp only [Option.map_some', Option.getD_some]
          rw [Int.tdiv_eq_ediv (by positivity) hp.le]
        · have hjeq : j = k + 1 := by omega
          subst hjeq
          rw [List.getElem?_append_right (by simp)]
          simp only [List.length_map, List.length_range, Nat.sub_self, List.getElem?_cons_zero,
            Option.getD_some]
          rw [Int.mul_ediv_cancel _ hp.ne']
      rw [hget i (by omega), hget (i + 1) (by omega)]
      have hm : m ≤ size / ((k + 1 : Nat) : Int) := by
        rw [← Int.tdiv_eq_ediv hs hp.le]
        omega
      have hadd := ediv_add_le (size * (i : Int)) size ((k + 1 : Nat) : Int) hp
      have he : size * ((i + 1 : Nat) : Int) = size * (i : Int) + size := by push_cast; ring
      rw [he]
      linarith

/-- C11: for a size that is not negative and at least one partition, when
`split_range` returns more than two boundaries every band, the difference of
two consecutive boundaries, is at least `min_partition_size`; hence in a split
result with three or more sub-problems of a problem whose rect has no negative
size, the extent of every band along the split axis is at least the dependency
range plus four times the influence range on that axis. -/
theorem split_range_band_width :
    (∀ first size partitions m : Int, 0 ≤ size → 1 ≤ partitions →
      2 < (split_range first size partitions m).length →
      ∀ i : Nat, i + 1 < (split_range first size partitions m).length →
        m ≤ (split_range first size partitions m).getD (i + 1) 0
          - (split_range first size partitions m).getD i 0) ∧
    (∀ (p : Problem) (limit : Int), 0 ≤ p.rect_.size.x → 0 ≤ p.rect_.size.y →
      3 ≤ (p.split limit).length →
      ∃ axis, p.choose_split_axis = some axis ∧
        (p.split limit).length = (p.split_rects limit axis).length ∧
        ∀ i : Nat, i < (p.split_rects limit axis).length →
          axis.extent p.get_dependencies_range + 4 * axis.extent p.rules_.influence_range
            ≤ axis.extent ((p.split_rects limit axis).getD i Rect2i.zero).size) := by
  have part1 : ∀ first size partitions m : Int, 0 ≤ size → 1 ≤ partitions →
      2 < (split_range first size partitions m).length →
      ∀ i : Nat, i + 1 < (split_range first size partitions m).length →
        m ≤ (split_range first size partitions m).getD (i + 1) 0
          - (split_range first size partitions m).getD i 0 := by
    intro first size partitions m hs hp hlen i hi
    unfold split_range at hlen hi ⊢
    rw [if_neg (by omega)] at hlen hi ⊢
    exact split_range_rec_bands first size m hs _ hlen i hi
  refine ⟨part1, ?_⟩
  intro p limit hx hy h3
  rcases split_cases p limit with hs | ⟨axis, hl, hax, hr3, hs⟩
  · rw [hs] at h3
    simp at h3
  · refine ⟨axis, hax, by rw [hs]; simp, ?_⟩
    intro i hi
    unfold Problem.split_rects at hi hr3 ⊢
    simp only [List.length_map, List.length_range] at hi hr3
    rw [List.getD_eq_getElem?_getD, List.getElem?_map, List.getElem?_range hi]
    simp only [Option.map_some', Option.getD_some]
    cases axis with
    | X =>
      have := part1 p.rect_.position.x p.rect_.size.x (limit * 2)
        (p.get_dependencies_range.x + (p.extra_overlap SplitAxis.X).x * 2) hx (by omega)
        (by show 2 < (p.split_partitions limit SplitAxis.X).length; omega) i
        (by show i + 1 < (p.split_partitions limit SplitAxis.X).length; omega)
      simp only [SplitAxis.extent, Problem.band_rect]
      simp only [Problem.extra_overlap] at this
      show _ ≤ (p.split_partitions limit SplitAxis.X).getD (i + 1) 0
        - (p.split_partitions limit SplitAxis.X).getD i 0
      simp only [Problem.split_partitions, Problem.extra_overlap]
      linarith
    | Y =>
      have := part1 p.rect_.position.y p.rect_.size.y (limit * 2)
        (p.get_dependencies_range.y + (p.extra_overlap SplitAxis.Y).y * 2) hy (by omega)
        (by show 2 < (p.split_partitions limit SplitAxis.Y).length; omega) i
        (by show i + 1 < (p.split_partitions limit SplitAxis.Y).length; omega)
      simp only [SplitAxis.extent, Problem.band_rect]
      simp only [Problem.extra_overlap] at this
      show _ ≤ (p.split_partitions limit SplitAxis.Y).getD (i + 1) 0
        - (p.split_partitions limit SplitAxis.Y).getD i 0
      simp only [Problem.split_partitions, Problem.extra_overlap]
      linarith

/-- The statement of C11 on `split_range 0 100 8 5` and on the split of
`line_problem`. -/
theorem split_range_band_width_witness :
    (5 : Int) ≤ (split_range 0 100 8 5).getD (0 + 1) 0 - (split_range 0 100 8 5).getD 0 0 ∧
    ∃ axis, line_problem.choose_split_axis = some axis ∧
      (line_problem.split 4).length = (line_problem.split_rects 4 axis).length ∧
      ∀ i : Nat, i < (line_problem.split_rects 4 axis).length →
        axis.extent line_problem.get_dependencies_range
            + 4 * axis.extent line_problem.rules_.influence_range
          ≤ axis.extent ((line_problem.split_rects 4 axis).getD i Rect2i.zero).size :=
  ⟨split_range_band_width.1 0 100 8 5 (by decide) (by decide) (by decide) 0 (by decide),
   split_range_band_width.2 line_problem 4 (by decide) (by decide) (by decide)⟩

/-! ## Read rectangles of a split -/

theorem split_read_rects_init_read_rects_even (result : List SubProblem) (i : Nat)
    (s : SubProblem) (h : i % 2 = 0) :
    (Problem.split_read_rects result i s).problem.init_read_rects_ =
      s.problem.init_read_rects_ := by
  unfold Problem.split_read_rects
  rw [if_neg (by omega)]

/-- In a split result with three or more sub-problems, the entry at an index is
the sub-problem of the first loop with the read rectangles of the second. -/
theorem split_entry (p : Problem) (limit : Int) (axis : SplitAxis)
    (hs : p.split limit = (List.range (p.split_rects limit axis).length).map (fun i =>
      Problem.split_read_rects
        ((List.range (p.split_rects limit axis).length).map
          (fun i => p.split_sub_problem (p.extra_overlap axis) (p.split_rects limit axis) i))
        i (p.split_sub_problem (p.extra_overlap axis) (p.split_rects limit axis) i)))
    (i : Nat) (hi : i < (p.split_rects limit axis).length) :
    (p.split limit)[i]? = some (Problem.split_read_rects
      ((List.range (p.split_rects limit axis).length).map
        (fun i => p.split_sub_problem (p.extra_overlap axis) (p.split_rects limit axis) i))
      i (p.split_sub_problem (p.extra_overlap axis) (p.split_rects limit axis) i)) := by
  rw [hs, List.getElem?_map, List.getElem?_range hi]
  rfl

/-- C12: in a split result with three or more sub-problems, an even-indexed
sub-problem has no read rectangles, and an odd-indexed sub-problem has as many
read rectangles as dependencies, the `j`-th being the intersection of its own
rect with the renderable rect of the sub-problem named by its `j`-th
dependency index. -/
theorem split_init_read_rects (p : Problem) (limit : Int) (i : Nat) (sub : SubProblem)
    (h3 : 3 ≤ (p.split limit).length) (h : (p.split limit)[i]? = some sub) :
    (i % 2 = 0 → sub.problem.init_read_rects_ = []) ∧
    (i % 2 = 1 →
      sub.problem.init_read_rects_.length = sub.dependencies.length ∧
      ∀ (j : Nat) (d : Int), sub.dependencies[j]? = some d →
        ∃ dep : SubProblem, (p.split limit)[d.toNat]? = some dep ∧
          sub.problem.init_read_rects_[j]? =
            some (sub.problem.rect_.intersection dep.problem.renderable_rect_)) := by
  rcases split_cases p limit with hs | ⟨axis, _, _, hr3, hs⟩
  · rw [hs] at h3
    simp at h3
  · have hlen : (p.split limit).length = (p.split_rects limit axis).length := by
      rw [hs]; simp
    have hi : i < (p.split_rects limit axis).length := by
      rw [← hlen]
      exact (List.getElem?_eq_some_iff.mp h).1
    have hsub := split_entry p limit axis hs i hi
    rw [h] at hsub
    simp only [Option.some.injEq] at hsub
    have hfirst : ∀ k : Nat, k < (p.split_rects limit axis).length →
        ((List.range (p.split_rects limit axis).length).map
          (fun i => p.split_sub_problem (p.extra_overlap axis) (p.split_rects limit axis) i))[k]?
          = some (p.split_sub_problem (p.extra_overlap axis) (p.split_rects limit axis) k) := by
      intro k hk
      rw [List.getElem?_map, List.getElem?_range hk]
      rfl
    have hdep : sub.dependencies = Problem.split_dependencies (p.split limit).length i :=
      split_entry_dependencies p limit i sub h
    constructor
    · intro h0
      rw [hsub, split_read_rects_init_read_rects_even _ _ _ h0]
      rfl
    · intro h1
      have hi1 : i - 1 < (p.split_rects limit axis).length := by omega
      have hren : ∀ k : Nat, k < (p.split_rects limit axis).length →
          ∃ dep : SubProblem, (p.split limit)[k]? = some dep ∧
            dep.problem.renderable_rect_ =
              (p.split_sub_problem (p.extra_overlap axis) (p.split_rects limit axis)
                k).problem.renderable_rect_ := by
        intro k hk
        exact ⟨_, split_entry p limit axis hs k hk, split_read_rects_renderable _ _ _⟩
      have hrect : sub.problem.rect_ =
          (p.split_sub_problem (p.extra_overlap axis) (p.split_rects limit axis)
            i).problem.rect_ := by
        rw [hsub, split_read_rects_rect]
      have hreads : sub.problem.init_read_rects_ =
          if i + 1 < (p.split_rects limit axis).length then
            [sub.problem.rect_.intersection
                (p.split_sub_problem (p.extra_overlap axis) (p.split_rects limit axis)
                  (i - 1)).problem.renderable_rect_,
              sub.problem.rect_.intersection
                (p.split_sub_problem (p.extra_overlap axis) (p.split_rects limit axis)
                  (i + 1)).problem.renderable_rect_]
          else
            [sub.problem.rect_.intersection
                (p.split_sub_problem (p.extra_overlap axis) (p.split_rects limit axis)
                  (i - 1)).problem.renderable_rect_] := by
        rw [hrect, hsub]
        unfold Problem.split_read_rects
        rw [if_pos h1]
        simp only [List.length_map, List.length_range, hfirst (i - 1) hi1]
        by_cases h2 : i + 1 < (p.split_rects limit axis).length
        · simp only [h2, if_true, hfirst (i + 1) h2]
          rfl
        · simp only [h2, if_false]
          rfl
      have hdeps : sub.dependencies =
          if i + 1 < (p.split_rects limit axis).length then [(i : Int) - 1, (i : Int) + 1]
          else [(i : Int) - 1] := by
        rw [hdep, hlen]
        unfold Problem.split_dependencies
        simp only [h1, if_true]
        by_cases h2 : i + 1 < (p.split_rects limit axis).length
        · have : (i : Int) < ((p.split_rects limit axis).length : Int) - 1 := by omega
          simp [h2, this]
        · have : ¬ (i : Int) < ((p.split_rects limit axis).length : Int) - 1 := by omega
          simp [h2, this]
      have t1 : ((i : Int) - 1).toNat = i - 1 := by omega
      have t2 : ((i : Int) + 1).toNat = i + 1 := by omega
      by_cases h2 : i + 1 < (p.split_rects limit axis).length
      · rw [hreads, hdeps]
        simp only [h2, if_true]
        refine ⟨rfl, ?_⟩
        intro j d hj
        match j, hj with
        | 0, hj =>
          simp only [List.getElem?_cons_zero, Option.some.injEq] at hj
          subst hj
          obtain ⟨dep, hd1, hd2⟩ := hren (i - 1) hi1
          exact ⟨dep, by rw [t1]; exact hd1, by rw [hd2]; rfl⟩
        | 1, hj =>
          simp only [List.getElem?_cons_succ, List.getElem?_cons_zero, Option.some.injEq] at hj
          subst hj
          obtain ⟨dep, hd1, hd2⟩ := hren (i + 1) h2
          exact ⟨dep, by rw [t2]; exact hd1, by rw [hd2]; rfl⟩
        | k + 2, hj => simp at hj
      · rw [hreads, hdeps]
        simp only [h2, if_false]
        refine ⟨rfl, ?_⟩
        intro j d hj
        match j, hj with
        | 0, hj =>
          simp only [List.getElem?_cons_zero, Option.some.injEq] at hj
          subst hj
          obtain ⟨dep, hd1, hd2⟩ := hren (i - 1) hi1
          exact ⟨dep, by rw [t1]; exact hd1, by rw [hd2]; rfl⟩
        | k + 1, hj => simp at hj

/-- The statement of C12 on the split of `line_problem`, at index 1. -/
theorem split_init_read_rects_witness :
    ((line_problem.split 4).getD 1 line_problem.single_sub_problem).problem.init_read_rects_.length
      = ((line_problem.split 4).getD 1 line_problem.single_sub_problem).dependencies.length :=
  ((split_init_read_rects line_problem 4 1
    ((line_problem.split 4).getD 1 line_problem.single_sub_problem)
    (by decide) (by decide)).2 (by decide)).1

/-! ## The 100 by 1 scenario -/

/-- For rules with the single declared axis `(1, 0)` and influence range
`(1, 0)`, `split(4)` on a 100 by 1 rect cuts along Y into eight bands. -/
theorem split_line_length (rules : Rules) (pos : Vector2i) (M : BitMatrix)
    (hd : rules.declarations = [(⟨1, 0⟩, M)]) (hi : rules.influence_range = ⟨1, 0⟩) :
    ((Problem.fresh rules).init rules ⟨pos, ⟨100, 1⟩⟩).get_dependencies_range = ⟨1, 0⟩ ∧
    (((Problem.fresh rules).init rules ⟨pos, ⟨100, 1⟩⟩).split 4).length = 8 := by
  have haxes : ((Problem.fresh rules).init rules ⟨pos, ⟨100, 1⟩⟩).axes_
      = [⟨1, 0⟩, ⟨-1, 0⟩] := by
    simp [Problem.init, Rules.get_axes, Rules.get_axis_matrices, hd, init_loop, Vector2i.neg]
  have hdr : ((Problem.fresh rules).init rules ⟨pos, ⟨100, 1⟩⟩).get_dependencies_range
      = ⟨1, 0⟩ := by
    unfold Problem.get_dependencies_range
    rw [haxes]
    simp
  have hinf : ((Problem.fresh rules).init rules ⟨pos, ⟨100, 1⟩⟩).rules_.influence_range
      = ⟨1, 0⟩ := hi
  have hrect : ((Problem.fresh rules).init rules ⟨pos, ⟨100, 1⟩⟩).rect_ = ⟨pos, ⟨100, 1⟩⟩ := rfl
  have hchoose : ((Problem.fresh rules).init rules ⟨pos, ⟨100, 1⟩⟩).choose_split_axis
      = some SplitAxis.Y := by
    unfold Problem.choose_split_axis Problem.may_split_x Problem.may_split_y
      Problem.split_x_overhead Problem.split_y_overhead
    rw [hinf, hrect]
    simp
  have hparts : (((Problem.fresh rules).init rules ⟨pos, ⟨100, 1⟩⟩).split_partitions 4
      SplitAxis.Y).length = 9 := by
    unfold Problem.split_partitions Problem.extra_overlap
    rw [hdr, hinf, hrect]
    have h8 : ((4 : Int) * 2).toNat = 8 := by decide
    simp only [split_range, h8]
    rw [if_neg (by decide)]
    simp [split_range_rec, Int.tdiv]
  refine ⟨hdr, ?_⟩
  unfold Problem.split
  rw [if_neg (by decide), hchoose]
  simp only [Problem.split_rects, hparts, List.length_map, List.length_range]
  simp

/-- C13: for the problem on a 100 by 1 rect with the single declared axis
`(1, 0)` and influence range `(1, 0)`, the dependency range is `(1, 0)` and
`split(4)` returns at least three sub-problems; the even-indexed ones have no
dependencies and every odd-indexed one depends on one or two sub-problems, each
an even-indexed neighbour inside the result. -/
theorem split_line_scenario (rules : Rules) (pos : Vector2i) (M : BitMatrix)
    (hd : rules.declarations = [(⟨1, 0⟩, M)]) (hi : rules.influence_range = ⟨1, 0⟩) :
    ((Problem.fresh rules).init rules ⟨pos, ⟨100, 1⟩⟩).get_dependencies_range = ⟨1, 0⟩ ∧
    3 ≤ (((Problem.fresh rules).init rules ⟨pos, ⟨100, 1⟩⟩).split 4).length ∧
    ∀ (i : Nat) (sub : SubProblem),
      (((Problem.fresh rules).init rules ⟨pos, ⟨100, 1⟩⟩).split 4)[i]? = some sub →
      (i % 2 = 0 → sub.dependencies = []) ∧
      (i % 2 = 1 →
        (sub.dependencies.length = 1 ∨ sub.dependencies.length = 2) ∧
        ∀ d ∈ sub.dependencies, d % 2 = 0 ∧ (d = (i : Int) - 1 ∨ d = (i : Int) + 1) ∧ 0 ≤ d ∧
          d < ((((Problem.fresh rules).init rules ⟨pos, ⟨100, 1⟩⟩).split 4).length : Int)) := by
  obtain ⟨hdr, hlen⟩ := split_line_length rules pos M hd hi
  refine ⟨hdr, by omega, ?_⟩
  intro i sub h
  have hdep := split_entry_dependencies _ 4 i sub h
  have hi8 : i < 8 := by
    rw [← hlen]
    exact (List.getElem?_eq_some_iff.mp h).1
  rw [hlen] at hdep ⊢
  rw [hdep]
  unfold Problem.split_dependencies
  constructor
  · intro h0
    rw [if_neg (by omega)]
  · intro h1
    rw [if_pos h1]
    by_cases h2 : (i : Int) < ((8 : Nat) : Int) - 1
    · rw [if_pos h2]
      refine ⟨Or.inr rfl, ?_⟩
      intro d hdm
      simp only [List.singleton_append, List.mem_cons, List.mem_singleton, List.not_mem_nil,
        or_false] at hdm
      rcases hdm with rfl | rfl <;> omega
    · rw [if_neg h2]
      refine ⟨Or.inl rfl, ?_⟩
      intro d hdm
      simp only [List.append_nil, List.mem_singleton] at hdm
      subst hdm
      omega

/-- The statement of C13 on `line_problem`. -/
theorem split_line_scenario_witness : 3 ≤ (line_problem.split 4).length :=
  (split_line_scenario line_rules ⟨0, 0⟩ ⟨1, [⟨1, 0, [], 1⟩]⟩ rfl rfl).2.1

/-! ## Getters on arbitrary cell ids -/

theorem related_cells_fold (p : Problem) (pos : Vector2i) (axes : List Vector2i)
    (acc : List Int) :
    axes.foldl
      (fun result axis =>
        if p.rect_.has_point ((pos.add axis).add p.rect_.position) then
          result ++ [p.coord_to_id (pos.add axis)]
        else result) acc =
    acc ++ (axes.filter
      (fun axis => p.rect_.has_point ((pos.add axis).add p.rect_.position))).map
        (fun axis => p.coord_to_id (pos.add axis)) := by
  induction axes generalizing acc with
  | nil => simp
  | cons a t ih =>
    simp only [List.foldl_cons, List.filter_cons]
    by_cases h : p.rect_.has_point ((pos.add a).add p.rect_.position) = true
    · simp only [h, if_true]
      rw [ih]
      simp
    · simp only [h, if_false]
      rw [ih]
      simp

/-- The related cells are the ids of the neighbours inside the rect, in the
order of the runtime axes. -/
theorem get_related_cells_eq (p : Problem) (cell_id : Int) :
    p.get_related_cells cell_id =
      (p.axes_.filter (fun axis =>
        p.rect_.has_point (((p.id_to_coord cell_id).add axis).add p.rect_.position))).map
        (fun axis => p.coord_to_id ((p.id_to_coord cell_id).add axis)) := by
  unfold Problem.get_related_cells
  simp only
  rw [related_cells_fold]
  simp

theorem coord_to_id_range (p : Problem) (q : Vector2i)
    (h : p.rect_.has_point (q.add p.rect_.position) = true) :
    0 ≤ p.coord_to_id q ∧ p.coord_to_id q < p.get_cell_count := by
  rw [has_point_iff] at h
  simp only [Vector2i.add] at h
  unfold Problem.coord_to_id Problem.get_cell_count Rect2i.get_area
  have h1 : 0 ≤ q.x := by omega
  have h2 : q.x < p.rect_.size.x := by omega
  have h3 : 0 ≤ q.y := by omega
  have h4 : q.y + 1 ≤ p.rect_.size.y := by omega
  have h5 : 0 ≤ p.rect_.size.x := by omega
  constructor
  · positivity
  · nlinarith [mul_le_mul_of_nonneg_left h4 h5]

theorem get_cell_id_spec (axis size : Vector2i) (M : BitMatrix) (to_array : BitSet → List Int)
    (pos : Vector2i) :
    ((AC4BinaryConstraint.init axis size M to_array).get_cell_id pos = -1 ↔
      (⟨⟨0, 0⟩, size⟩ : Rect2i).has_point pos = false) ∧
    ((⟨⟨0, 0⟩, size⟩ : Rect2i).has_point pos = true →
      (AC4BinaryConstraint.init axis size M to_array).get_cell_id pos = pos.x + pos.y * size.x ∧
      0 ≤ (AC4BinaryConstraint.init axis size M to_array).get_cell_id pos ∧
      (AC4BinaryConstraint.init axis size M to_array).get_cell_id pos < size.x * size.y) := by
  unfold AC4BinaryConstraint.get_cell_id AC4BinaryConstraint.init
  simp only
  by_cases h : (⟨⟨0, 0⟩, size⟩ : Rect2i).has_point pos = true
  · have hr := h
    rw [has_point_iff] at hr
    simp only at hr
    have h1 : 0 ≤ pos.x := by omega
    have h2 : pos.x < size.x := by omega
    have h3 : 0 ≤ pos.y := by omega
    have h4 : pos.y + 1 ≤ size.y := by omega
    have h5 : 0 ≤ size.x := by omega
    have h6 : 0 ≤ pos.x + pos.y * size.x := by positivity
    have h7 : pos.x + pos.y * size.x < size.x * size.y := by
      nlinarith [mul_le_mul_of_nonneg_left h4 h5]
    rw [if_pos h]
    refine ⟨?_, fun _ => ⟨rfl, h6, h7⟩⟩
    constructor
    · intro h0; omega
    · intro h0; rw [h] at h0; cases h0
  · simp only [Bool.not_eq_true] at h
    simp [h]

/-- The remainder of the truncating division is smaller than the divisor in
absolute value. -/
theorem tmod_abs_lt (a b : Int) (hb : b ≠ 0) : |a.tmod b| < |b| := by
  have key : ∀ (x c : Int), 0 < c → |x.tmod c| < c := by
    intro x c hc
    rcases c with n | n
    · have hn : 0 < n := by
        have hc2 : (0 : Int) < (n : Int) := hc
        exact_mod_cast hc2
      rcases x with m | m
      · show |((m % n : Nat) : Int)| < (n : Int)
        rw [abs_of_nonneg (by positivity)]
        exact_mod_cast Nat.mod_lt m hn
      · show |-(((m + 1) % n : Nat) : Int)| < (n : Int)
        rw [abs_neg, abs_of_nonneg (by positivity)]
        exact_mod_cast Nat.mod_lt (m + 1) hn
    · exact absurd hc (by simp [Int.negSucc_lt_zero])
  rcases lt_or_gt_of_ne hb with h | h
  · rw [← Int.tmod_neg, abs_of_neg h]
    exact key a (-b) (by omega)
  · rw [abs_of_pos h]
    exact key a b h

/-- C14, as the code has it: on a grid whose width is not 0, for every cell id,
in range or not, `get_dependency` and `get_dependent` return -1 exactly when
the position computed from the id, shifted by the axis, lies outside the grid,
and otherwise the row-major id of that position, which lies in
`[0, width*height)`; `get_related_cells` returns only ids in `[0, cell count)`
and is empty exactly when no shifted position lies inside the rect; the
position computed from an id is `(x, y)` with `x + width*y = id` and
`|x| < |width|`. -/
theorem getters_on_any_cell_id (axis size : Vector2i) (M : BitMatrix)
    (to_array : BitSet → List Int) (p : Problem) (cell_id : Int)
    (hw : size.x ≠ 0) (hpw : p.rect_.size.x ≠ 0) :
    ((AC4BinaryConstraint.init axis size M to_array).get_dependency cell_id = -1 ↔
      (⟨⟨0, 0⟩, size⟩ : Rect2i).has_point
        (((AC4BinaryConstraint.init axis size M to_array).get_cell_pos cell_id).add axis)
        = false) ∧
    ((AC4BinaryConstraint.init axis size M to_array).get_dependency cell_id = -1 ∨
      (0 ≤ (AC4BinaryConstraint.init axis size M to_array).get_dependency cell_id ∧
        (AC4BinaryConstraint.init axis size M to_array).get_dependency cell_id
          < size.x * size.y)) ∧
    ((AC4BinaryConstraint.init axis size M to_array).get_dependent cell_id = -1 ↔
      (⟨⟨0, 0⟩, size⟩ : Rect2i).has_point
        (((AC4BinaryConstraint.init axis size M to_array).get_cell_pos cell_id).sub axis)
        = false) ∧
    ((AC4BinaryConstraint.init axis size M to_array).get_dependent cell_id = -1 ∨
      (0 ≤ (AC4BinaryConstraint.init axis size M to_array).get_dependent cell_id ∧
        (AC4BinaryConstraint.init axis size M to_array).get_dependent cell_id
          < size.x * size.y)) ∧
    (∀ id ∈ p.get_related_cells cell_id, 0 ≤ id ∧ id < p.get_cell_count) ∧
    (p.get_related_cells cell_id = [] ↔
      ∀ a ∈ p.axes_,
        p.rect_.has_point (((p.id_to_coord cell_id).add a).add p.rect_.position) = false) ∧
    (((AC4BinaryConstraint.init axis size M to_array).get_cell_pos cell_id).x
        + size.x * ((AC4BinaryConstraint.init axis size M to_array).get_cell_pos cell_id).y
        = cell_id ∧
      |((AC4BinaryConstraint.init axis size M to_array).get_cell_pos cell_id).x| < |size.x|) ∧
    ((p.id_to_coord cell_id).x + p.rect_.size.x * (p.id_to_coord cell_id).y = cell_id ∧
      |(p.id_to_coord cell_id).x| < |p.rect_.size.x|) := by
  have key : ∀ pos : Vector2i,
      (AC4BinaryConstraint.init axis size M to_array).get_cell_id pos = -1 ∨
      (0 ≤ (AC4BinaryConstraint.init axis size M to_array).get_cell_id pos ∧
        (AC4BinaryConstraint.init axis size M to_array).get_cell_id pos < size.x * size.y) := by
    intro pos
    by_cases h : (⟨⟨0, 0⟩, size⟩ : Rect2i).has_point pos = true
    · exact Or.inr ((get_cell_id_spec axis size M to_array pos).2 h).2
    · simp only [Bool.not_eq_true] at h
      exact Or.inl ((get_cell_id_spec axis size M to_array pos).1.mpr h)
  refine ⟨(get_cell_id_spec axis size M to_array _).1, key _,
    (get_cell_id_spec axis size M to_array _).1, key _, ?_, ?_,
    ⟨Int.tmod_add_tdiv cell_id size.x, tmod_abs_lt cell_id size.x hw⟩,
    ⟨Int.tmod_add_tdiv cell_id p.rect_.size.x, tmod_abs_lt cell_id p.rect_.size.x hpw⟩⟩
  · intro id hid
    rw [get_related_cells_eq, List.mem_map] at hid
    obtain ⟨a, ha, rfl⟩ := hid
    rw [List.mem_filter] at ha
    exact coord_to_id_range p _ ha.2
  · rw [get_related_cells_eq]
    simp only [List.map_eq_nil_iff, List.filter_eq_nil_iff, Bool.not_eq_true]

/-- The statement of C14 on `square_constraint`, the constraint of axis `(1, 0)`
on a 2 by 2 grid, at the cell id 5, outside `[0, 4)`: its position is `(1, 2)`,
the shifted position `(2, 2)` is outside the grid, and the result is -1. -/
theorem getters_on_any_cell_id_witness : square_constraint.get_dependency 5 = -1 :=
  (getters_on_any_cell_id ⟨1, 0⟩ ⟨2, 2⟩ ⟨2, [⟨1, 0, [], 2⟩, ⟨2, 0, [], 2⟩]⟩ (fun _ => [])
    left_half_problem 5 (by decide) (by decide)).1.mpr (by decide)

/-- C14 as stated fails: on the 2 by 2 grid the cell id -1 is outside
`[0, 4)`; its computed position is `(-1, 0)`, whose neighbour along `(1, 0)` is
the cell `(0, 0)`; `get_dependency` returns 0, not -1, and `get_related_cells`
returns `[0]`, not the empty list. -/
theorem out_of_range_getters_counterexample :
    square_constraint.get_dependency (-1) = 0 ∧
    left_half_problem.get_cell_count = 4 ∧
    left_half_problem.get_related_cells (-1) = [0] := by
  decide

/-! ## Initial state -/

theorem populate_cell_eq (p : Problem) (calls : List StateCall) (cell_id : Int)
    (h0 : 0 ≤ cell_id) :
    p.populate_cell calls cell_id = calls ++ (p.cell_call cell_id).toList := by
  unfold Problem.populate_cell Problem.cell_call Problem.precondition_solution_at
  by_cases hlen : (p.precondition_solutions_.length : Int) > cell_id
  · have hlt : cell_id.toNat < p.precondition_solutions_.length := by omega
    simp only [List.getD_eq_getElem?_getD, List.getElem?_eq_getElem hlt, Option.getD_some,
      hlen, true_and]
    by_cases hs : p.precondition_solutions_[cell_id.toNat] ≥ 0
    · simp [hs]
    · simp only [hs, if_false]
      by_cases hdl : (p.precondition_domains_.length : Int) > cell_id
      · simp only [hdl, if_true]
        cases p.precondition_domains_[cell_id.toNat]?.getD none with
        | none => simp
        | some d => cases hd : d.is_empty <;> simp [hd]
      · have hge : p.precondition_domains_.length ≤ cell_id.toNat := by omega
        simp [hdl, List.getElem?_eq_none hge]
  · have hge : p.precondition_solutions_.length ≤ cell_id.toNat := by omega
    simp only [hlen, false_and, if_false, List.getD_eq_getElem?_getD,
      List.getElem?_eq_none hge, Option.getD_none]
    have hneg : ¬ ((-1 : Int) ≥ 0) := by decide
    simp only [hneg, if_false]
    by_cases hdl : (p.precondition_domains_.length : Int) > cell_id
    · simp only [hdl, if_true]
      cases p.precondition_domains_[cell_id.toNat]?.getD none with
      | none => simp
      | some d => cases hd : d.is_empty <;> simp [hd]
    · have hge2 : p.precondition_domains_.length ≤ cell_id.toNat := by omega
      simp [hdl, List.getElem?_eq_none hge2]

theorem populate_column (p : Problem) (w x : Int) (hw : 0 ≤ w) (hx : 0 ≤ x) (ys : List Int)
    (hys : ∀ y ∈ ys, 0 ≤ y) (calls : List StateCall) :
    ys.foldl (fun calls y => p.populate_cell calls (y * w + x)) calls =
      calls ++ (ys.map (fun y => y * w + x)).filterMap p.cell_call := by
  induction ys generalizing calls with
  | nil => simp
  | cons y t ih =>
    have hy : 0 ≤ y := hys y (List.mem_cons_self _ _)
    simp only [List.foldl_cons, List.map_cons]
    rw [ih (fun z hz => hys z (List.mem_cons_of_mem _ hz)),
      populate_cell_eq p calls _ (by positivity)]
    cases hc : p.cell_call (y * w + x) <;> simp [List.filterMap_cons, hc]

theorem populate_columns (p : Problem) (w : Int) (hw : 0 ≤ w) (xs ys : List Int)
    (hxs : ∀ x ∈ xs, 0 ≤ x) (hys : ∀ y ∈ ys, 0 ≤ y) (calls : List StateCall) :
    xs.foldl (fun calls x =>
      ys.foldl (fun calls y => p.populate_cell calls (y * w + x)) calls) calls =
      calls ++ (xs.flatMap (fun x => ys.map (fun y => y * w + x))).filterMap p.cell_call := by
  induction xs generalizing calls with
  | nil => simp
  | cons x t ih =>
    simp only [List.foldl_cons, List.flatMap_cons, List.filterMap_append]
    rw [populate_column p w x hw (hxs x (List.mem_cons_self _ _)) ys hys calls,
      ih (fun z hz => hxs z (List.mem_cons_of_mem _ hz))]
    simp

theorem loop_range_nodup (first count : Int) : (loop_range first count).Nodup := by
  unfold loop_range
  apply List.Nodup.map _ (List.nodup_range _)
  intro a b h
  simp only at h
  omega

theorem mem_column_major_cells (w h c : Int) :
    c ∈ column_major_cells w h ↔
      ∃ x y : Int, 0 ≤ x ∧ x < w ∧ 0 ≤ y ∧ y < h ∧ c = y * w + x := by
  unfold column_major_cells
  simp only [List.mem_flatMap, List.mem_map, mem_loop_range]
  constructor
  · rintro ⟨x, hx, y, hy, rfl⟩
    exact ⟨x, y, by omega, by omega, by omega, by omega, rfl⟩
  · rintro ⟨x, y, hx0, hx1, hy0, hy1, rfl⟩
    exact ⟨x, by omega, y, by omega, rfl⟩

theorem mem_column_major_cells_range (w h c : Int) (hw : 0 ≤ w) :
    c ∈ column_major_cells w h ↔ 0 ≤ c ∧ c < w * h := by
  rw [mem_column_major_cells]
  constructor
  · rintro ⟨x, y, hx0, hx1, hy0, hy1, rfl⟩
    have h4 : y + 1 ≤ h := by omega
    constructor
    · positivity
    · nlinarith [mul_le_mul_of_nonneg_right h4 hw]
  · rintro ⟨h0, h1⟩
    have hwpos : 0 < w := by
      rcases hw.lt_or_eq with h2 | h2
      · exact h2
      · rw [← h2] at h1
        simp at h1
        omega
    refine ⟨c % w, c / w, Int.emod_nonneg c hwpos.ne', Int.emod_lt_of_pos c hwpos,
      Int.ediv_nonneg h0 hw, ?_, ?_⟩
    · exact Int.ediv_lt_of_lt_mul hwpos (by rw [mul_comm]; exact h1)
    · have := Int.emod_add_ediv c w
      linarith

theorem column_major_cells_nodup (w h : Int) : (column_major_cells w h).Nodup := by
  unfold column_major_cells
  rw [List.nodup_flatMap]
  constructor
  · intro x hx
    rw [mem_loop_range] at hx
    apply List.Nodup.map _ (loop_range_nodup _ _)
    intro a b hab
    simp only at hab
    have hw : w ≠ 0 := by omega
    have : a * w = b * w := by linarith
    exact Int.eq_of_mul_eq_mul_right hw this
  · apply List.Nodup.pairwise_of_forall_ne (loop_range_nodup _ _)
    intro a ha b hb hne
    rw [mem_loop_range] at ha hb
    simp only [Function.onFun]
    intro c hca hcb
    rw [List.mem_map] at hca hcb
    obtain ⟨y1, _, rfl⟩ := hca
    obtain ⟨y2, _, h2⟩ := hcb
    apply hne
    have e1 : (a + y1 * w) % w = a := by
      rw [Int.add_mul_emod_self]
      exact Int.emod_eq_of_lt (by omega) (by omega)
    have e2 : (b + y2 * w) % w = b := by
      rw [Int.add_mul_emod_self]
      exact Int.emod_eq_of_lt (by omega) (by omega)
    rw [← e1, ← e2]
    congr 1
    linarith

/-- C15: the calls issued by `populate_initial_state` are obtained by visiting
the cell ids `y*w + x` in column-major order and issuing for each cell
`set_solution` if it has a pre-solved tile that is not negative, otherwise
`set_domain` if it has a non-empty precondition domain, otherwise nothing; no
cell id is visited twice, the visited ids are the ids `y*w + x` of the grid
positions, and for a width that is not negative they are exactly the ids in
`[0, w*h)`. -/
theorem populate_initial_state_calls (p : Problem) :
    p.populate_initial_state =
      (column_major_cells p.rect_.size.x p.rect_.size.y).filterMap p.cell_call ∧
    (column_major_cells p.rect_.size.x p.rect_.size.y).Nodup ∧
    (∀ c : Int, c ∈ column_major_cells p.rect_.size.x p.rect_.size.y ↔
      ∃ x y : Int, 0 ≤ x ∧ x < p.rect_.size.x ∧ 0 ≤ y ∧ y < p.rect_.size.y ∧
        c = y * p.rect_.size.x + x) ∧
    (0 ≤ p.rect_.size.x →
      ∀ c : Int, c ∈ column_major_cells p.rect_.size.x p.rect_.size.y ↔
        0 ≤ c ∧ c < p.rect_.size.x * p.rect_.size.y) ∧
    (∀ (c : Int) (d : BitSet), p.cell_call c = some (StateCall.set_domain c d) →
      p.precondition_solution_at c.toNat < 0) := by
  refine ⟨?_, column_major_cells_nodup _ _, mem_column_major_cells _ _,
    fun hw c => mem_column_major_cells_range _ _ c hw, ?_⟩
  · unfold Problem.populate_initial_state column_major_cells
    simp only
    by_cases hw : 0 ≤ p.rect_.size.x
    · rw [populate_columns p p.rect_.size.x hw _ _
        (fun x hx => by rw [mem_loop_range] at hx; omega)
        (fun y hy => by rw [mem_loop_range] at hy; omega)]
      simp
    · have hempty : loop_range 0 p.rect_.size.x = [] := by
        unfold loop_range
        have : p.rect_.size.x.toNat = 0 := by omega
        rw [this]
        rfl
      rw [hempty]
      rfl
  · intro c d hcall
    unfold Problem.cell_call at hcall
    split_ifs at hcall with h1
    · cases hcall
    · omega

/-- The statement of C15 on `preset_problem`: cell 0 is in the visited list. -/
theorem populate_initial_state_calls_witness :
    (0 : Int) ∈ column_major_cells preset_problem.rect_.size.x preset_problem.rect_.size.y ↔
      0 ≤ (0 : Int) ∧ (0 : Int) < preset_problem.rect_.size.x * preset_problem.rect_.size.y :=
  (populate_initial_state_calls preset_problem).2.2.2.1 (by decide) 0

/-! ## Weighted divergence -/

theorem progress_fold (tasks : List Task) (acc : Int × Int) :
    tasks.foldl
      (fun (acc : Int × Int) task =>
        (acc.1 + task.problem.get_cell_count, acc.2 + task.unsolved_cells)) acc =
    (acc.1 + (tasks.map (fun task => task.problem.get_cell_count)).sum,
      acc.2 + (tasks.map (fun task => task.unsolved_cells)).sum) := by
  induction tasks generalizing acc with
  | nil => simp
  | cons t rest ih =>
    simp only [List.foldl_cons, List.map_cons, List.sum_cons]
    rw [ih]
    simp only [Prod.mk.injEq]
    constructor <;> ring

/-- The value of `get_progress` in terms of the two sums. -/
theorem get_progress_eq (r : Runner) :
    r.get_progress =
      if r.tasks_ = [] then 1
      else if r.total_cells = 0 then 1
      else 1 - (r.unsolved_cells : Rat) / (r.total_cells : Rat) := by
  unfold Runner.get_progress Runner.total_cells Runner.unsolved_cells
  simp only [progress_fold, zero_add, List.isEmpty_iff]

theorem sum_le_of_forall_le (tasks : List Task) (f g : Task → Int)
    (h : ∀ t ∈ tasks, f t ≤ g t) : (tasks.map f).sum ≤ (tasks.map g).sum := by
  induction tasks with
  | nil => simp
  | cons t rest ih =>
    simp only [List.map_cons, List.sum_cons]
    have h1 := h t (List.mem_cons_self _ _)
    have h2 := ih (fun u hu => h u (List.mem_cons_of_mem _ hu))
    omega

/-- C17: `get_progress` is 1 when the runner has no tasks; otherwise it is 1
minus the sum of the published unsolved-cell counters over the sum of the cell
counts, and 1 when that sum of cell counts is 0; whenever every counter lies
between 0 and the task's cell count, the result lies between 0 and 1. -/
theorem get_progress_value (r : Runner) :
    (r.tasks_ = [] → r.get_progress = 1) ∧
    (r.tasks_ ≠ [] → r.total_cells ≠ 0 →
      r.get_progress = 1 - (r.unsolved_cells : Rat) / (r.total_cells : Rat)) ∧
    (r.tasks_ ≠ [] → r.total_cells = 0 → r.get_progress = 1) ∧
    ((∀ task ∈ r.tasks_,
        0 ≤ task.unsolved_cells ∧ task.unsolved_cells ≤ task.problem.get_cell_count) →
      0 ≤ r.get_progress ∧ r.get_progress ≤ 1) := by
  refine ⟨?_, ?_, ?_, ?_⟩
  · intro h
    rw [get_progress_eq, if_pos h]
  · intro h1 h2
    rw [get_progress_eq, if_neg h1, if_neg h2]
  · intro h1 h2
    rw [get_progress_eq, if_neg h1, if_pos h2]
  · intro h
    rw [get_progress_eq]
    split_ifs with h1 h2
    · norm_num
    · norm_num
    · have hu0 : 0 ≤ r.unsolved_cells := by
        unfold Runner.unsolved_cells
        have := sum_le_of_forall_le r.tasks_ (fun _ => 0) (fun task => task.unsolved_cells)
          (fun t ht => (h t ht).1)
        simpa using this
      have hut : r.unsolved_cells ≤ r.total_cells := by
        unfold Runner.unsolved_cells Runner.total_cells
        exact sum_le_of_forall_le r.tasks_ _ _ (fun t ht => (h t ht).2)
      have htpos : (0 : Rat) < (r.total_cells : Rat) := by
        have : 0 < r.total_cells := by omega
        exact_mod_cast this
      have hu0q : (0 : Rat) ≤ (r.unsolved_cells : Rat) := by exact_mod_cast hu0
      have hutq : (r.unsolved_cells : Rat) ≤ (r.total_cells : Rat) := by exact_mod_cast hut
      constructor
      · rw [sub_nonneg, div_le_one htpos]
        exact hutq
      · have := div_nonneg hu0q htpos.le
        linarith

/-- The statement of C17 on `chain_started`, whose two tasks have two cells
each, all unsolved. -/
theorem get_progress_value_witness :
    chain_started.get_progress =
      1 - (chain_started.unsolved_cells : Rat) / (chain_started.total_cells : Rat) :=
  (get_progress_value chain_started).2.1 (by decide) (by decide)

theorem copy_boundary_cell_rect (source_rect : Rect2i) (solutions : List Int) (t : Problem)
    (x y : Int) : (copy_boundary_cell source_rect solutions t x y).rect_ = t.rect_ := by
  unfold copy_boundary_cell
  cases boundary_write t.rect_ source_rect solutions x y <;> rfl

theorem copy_boundary_solutions_rect (target source : Problem) (st : SolverState)
    (read_rect : Rect2i) :
    (copy_boundary_solutions target source st read_rect).rect_ = target.rect_ := by
  unfold copy_boundary_solutions
  split_ifs
  · rfl
  · simp only
    generalize loop_range read_rect.position.x read_rect.size.x = xs
    generalize loop_range read_rect.position.y read_rect.size.y = ys
    induction xs generalizing target with
    | nil => rfl
    | cons x rest ih =>
      simp only [List.foldl_cons]
      rw [ih]
      clear ih
      induction ys generalizing target with
      | nil => rfl
      | cons y rest2 ih2 =>
        simp only [List.foldl_cons]
        rw [ih2, copy_boundary_cell_rect]

theorem copy_from_dependency_rect (tasks : List Task) (dependencies : List Int)
    (problem_2d : Problem) (j : Nat) :
    (copy_from_dependency tasks dependencies problem_2d j).rect_ = problem_2d.rect_ := by
  unfold copy_from_dependency
  simp only
  cases index? tasks (to_int32 (dependencies.getD j 0)) with
  | none => rfl
  | some dep_task =>
    simp only
    cases dep_task.state_snapshot with
    | none => rfl
    | some snapshot =>
      cases problem_2d.init_read_rects_[j]? with
      | none => rfl
      | some read_rect => exact copy_boundary_solutions_rect _ _ _ _

/-- The task put in place by `start_task` differs from the task it replaces in
its `started` flag, its thread and the preconditions of its problem only. -/
theorem start_task_fields (tasks : List Task) (i : Nat) (task : Task) (j : Nat) (t1 : Task)
    (h1 : (start_task tasks i task)[j]? = some t1) :
    (j = i ∧ t1.started = true ∧ t1.dependencies = task.dependencies ∧
      t1.completed = task.completed ∧ t1.unsolved_cells = task.unsolved_cells ∧
      t1.problem.rect_ = task.problem.rect_) ∨ (j ≠ i ∧ tasks[j]? = some t1) := by
  unfold start_task at h1
  rw [List.getElem?_set] at h1
  by_cases hij : i = j
  · subst hij
    rw [if_pos rfl] at h1
    split_ifs at h1
    simp only [Option.some.injEq] at h1
    subst h1
    refine Or.inl ⟨rfl, rfl, rfl, rfl, rfl, ?_⟩
    simp only
    generalize List.range task.dependencies.length = js
    generalize task.problem = pr
    induction js generalizing pr with
    | nil => rfl
    | cons j0 rest ih =>
      simp only [List.foldl_cons]
      rw [ih, copy_from_dependency_rect]
  · rw [if_neg hij] at h1
    exact Or.inr ⟨fun h0 => hij h0.symm, h1⟩

/-- The loop of `start_available_tasks` keeps, for every task, its rect, its
published counter, its completed flag and its dependency list, and it never
clears a `started` flag. -/
theorem start_available_loop_fields (mt : Int) (idxs : List Nat) (tasks : List Task)
    (s rc : Int) :
    (start_available_loop mt idxs tasks s rc).1.length = tasks.length ∧
    ∀ (j : Nat) (t2 : Task), (start_available_loop mt idxs tasks s rc).1[j]? = some t2 →
      ∃ t : Task, tasks[j]? = some t ∧ t2.problem.rect_ = t.problem.rect_ ∧
        t2.unsolved_cells = t.unsolved_cells ∧ t2.completed = t.completed ∧
        t2.dependencies = t.dependencies ∧ (t.started = true → t2.started = true) := by
  induction idxs generalizing tasks s rc with
  | nil => exact ⟨rfl, fun j t2 h => ⟨t2, h, rfl, rfl, rfl, rfl, id⟩⟩
  | cons i rest ih =>
    unfold start_available_loop
    by_cases hrc : rc ≥ mt
    · rw [if_pos hrc]
      exact ⟨rfl, fun j t2 h => ⟨t2, h, rfl, rfl, rfl, rfl, id⟩⟩
    · rw [if_neg hrc]
      cases hti : tasks[i]? with
      | none => exact ih tasks s rc
      | some task =>
        simp only
        by_cases hg : (!task.started && !is_task_blocked tasks i) = true
        · rw [if_pos hg]
          obtain ⟨hlen, hspec⟩ := ih (start_task tasks i task) (s + 1) (rc + 1)
          refine ⟨by rw [hlen]; simp [start_task], ?_⟩
          intro j t2 h2
          obtain ⟨t1, ht1, e1, e2, e3, e4, e5⟩ := hspec j t2 h2
          rcases start_task_fields tasks i task j t1 ht1 with
            ⟨hj, f1, f2, f3, f4, f5⟩ | ⟨_, hj⟩
          · subst hj
            exact ⟨task, hti, by rw [e1, f5], by rw [e2, f4], by rw [e3, f3], by rw [e4, f2],
              fun _ => e5 f1⟩
          · exact ⟨t1, hj, e1, e2, e3, e4, e5⟩
        · rw [if_neg hg]
          exact ih tasks s rc

/-- Every step keeps the number of tasks and the rect of each task's problem. -/
theorem step_keeps_cells (r r2 : Runner) (hstep : Step r r2) :
    r2.tasks_.length = r.tasks_.length ∧
    ∀ (i : Nat) (t t2 : Task), r.tasks_[i]? = some t → r2.tasks_[i]? = some t2 →
      t2.problem.get_cell_count = t.problem.get_cell_count := by
  have hset : ∀ (i : Nat) (task task2 : Task), r.tasks_[i]? = some task →
      task2.problem = task.problem →
      (r.tasks_.set i task2).length = r.tasks_.length ∧
      ∀ (j : Nat) (t t2 : Task), r.tasks_[j]? = some t → (r.tasks_.set i task2)[j]? = some t2 →
        t2.problem.get_cell_count = t.problem.get_cell_count := by
    intro i task task2 hi hp
    refine ⟨List.length_set _ _ _, ?_⟩
    intro j t t2 ht ht2
    rw [List.getElem?_set] at ht2
    by_cases hij : i = j
    · subst hij
      rw [if_pos rfl] at ht2
      split_ifs at ht2
      simp only [Option.some.injEq] at ht2
      rw [hi] at ht
      simp only [Option.some.injEq] at ht
      rw [← ht2, ← ht, hp]
    · rw [if_neg hij, ht] at ht2
      simp only [Option.some.injEq] at ht2
      rw [ht2]
  have hloop : ∀ r1 : Runner,
      r1.start_available_tasks.1.tasks_.length = r1.tasks_.length ∧
      ∀ (i : Nat) (t t2 : Task), r1.tasks_[i]? = some t →
        r1.start_available_tasks.1.tasks_[i]? = some t2 →
        t2.problem.get_cell_count = t.problem.get_cell_count := by
    intro r1
    obtain ⟨hlen, hspec⟩ := start_available_loop_fields r1.max_threads_
      (List.range r1.tasks_.length) r1.tasks_ 0 r1.running_count
    refine ⟨hlen, ?_⟩
    intro i t t2 ht ht2
    obtain ⟨t0, ht0, e1, _⟩ := hspec i t2 ht2
    rw [ht] at ht0
    simp only [Option.some.injEq] at ht0
    subst ht0
    unfold Problem.get_cell_count
    rw [e1]
  have hjoin : (Runner.join_completed r.tasks_).length = r.tasks_.length ∧
      ∀ (i : Nat) (t t2 : Task), r.tasks_[i]? = some t →
        (Runner.join_completed r.tasks_)[i]? = some t2 → t2.problem = t.problem := by
    unfold Runner.join_completed
    refine ⟨List.length_map _ _, ?_⟩
    intro i t t2 ht ht2
    rw [List.getElem?_map, ht] at ht2
    simp only [Option.map_some', Option.some.injEq] at ht2
    rw [← ht2]
    split_ifs <;> rfl
  cases hstep with
  | solve_step i task unsolved state hi hs hc =>
    unfold Runner.thread_solve_step
    rw [hi]
    simp only
    apply hset i task _ hi
    split_ifs <;> rfl
  | finish i task state hi hs hc =>
    unfold Runner.thread_finish
    rw [hi]
    simp only
    exact hset i task _ hi rfl
  | update =>
    unfold Runner.update
    by_cases h0 : r.tasks_.isEmpty = true
    · rw [if_pos h0]
      exact ⟨rfl, fun i t t2 ht ht2 => by rw [ht] at ht2; cases ht2; rfl⟩
    · rw [if_neg h0]
      by_cases h1 : (r.tasks_.any fun task => task.started && task.completed && task.has_thread)
          = true
      · simp only [h1, if_true]
        obtain ⟨l1, l2⟩ := hloop { r with tasks_ := Runner.join_completed r.tasks_ }
        refine ⟨by rw [l1]; exact hjoin.1, ?_⟩
        intro i t t2 ht ht2
        have hlt : i < (Runner.join_completed r.tasks_).length := by
          rw [hjoin.1]
          exact (List.getElem?_eq_some_iff.mp ht).1
        have hmid := List.getElem?_eq_getElem hlt
        rw [l2 i _ t2 hmid ht2, hjoin.2 i t _ ht hmid]
      · simp only [h1, if_false]
        refine ⟨hjoin.1, ?_⟩
        intro i t t2 ht ht2
        rw [hjoin.2 i t t2 ht ht2]
  | start_available => exact hloop r

theorem sum_eq_of_pointwise (f : Task → Int) (a b : List Task) (hlen : b.length = a.length)
    (h : ∀ (i : Nat) (ta tb : Task), a[i]? = some ta → b[i]? = some tb → f tb = f ta) :
    (b.map f).sum = (a.map f).sum := by
  induction a generalizing b with
  | nil =>
    have : b = [] := List.length_eq_zero.mp hlen
    rw [this]
  | cons x rest ih =>
    cases b with
    | nil => simp at hlen
    | cons y rest2 =>
      simp only [List.map_cons, List.sum_cons]
      rw [h 0 x y (by simp) (by simp), ih rest2 (by simpa using hlen)
        (fun i ta tb h1 h2 => h (i + 1) ta tb (by simpa using h1) (by simpa using h2))]

theorem sum_le_of_pointwise (f : Task → Int) (a b : List Task) (hlen : b.length = a.length)
    (h : ∀ (i : Nat) (ta tb : Task), a[i]? = some ta → b[i]? = some tb → f tb ≤ f ta) :
    (b.map f).sum ≤ (a.map f).sum := by
  induction a generalizing b with
  | nil =>
    have : b = [] := List.length_eq_zero.mp hlen
    rw [this]
  | cons x rest ih =>
    cases b with
    | nil => simp at hlen
    | cons y rest2 =>
      simp only [List.map_cons, List.sum_cons]
      have h1 := h 0 x y (by simp) (by simp)
      have h2 := ih rest2 (by simpa using hlen)
        (fun i ta tb h1 h2 => h (i + 1) ta tb (by simpa using h1) (by simpa using h2))
      omega

theorem settling_run_sums (r r2 : Runner) (hrun : SettlingRun r r2) :
    r2.tasks_.length = r.tasks_.length ∧ r2.total_cells = r.total_cells ∧
    r2.unsolved_cells ≤ r.unsolved_cells := by
  induction hrun with
  | refl => exact ⟨rfl, rfl, le_refl _⟩
  | step r2 r3 _ hstep hsettle ih =>
    obtain ⟨hlen, hcells⟩ := step_keeps_cells r2 r3 hstep
    obtain ⟨i1, i2, i3⟩ := ih
    refine ⟨by rw [hlen, i1], ?_, ?_⟩
    · rw [← i2]
      exact sum_eq_of_pointwise _ _ _ hlen hcells
    · have := sum_le_of_pointwise (fun task => task.unsolved_cells) _ _ hlen hsettle
      exact le_trans this i3

/-- C19, as the code has it: along a run in which no solver report raises the
published counter of its task, and with a total cell count that is not
negative, a later value of `get_progress` is at least an earlier one. -/
theorem progress_monotone (r r2 : Runner) (hrun : SettlingRun r r2)
    (hcells : 0 ≤ r.total_cells) : r.get_progress ≤ r2.get_progress := by
  obtain ⟨hlen, htotal, hle⟩ := settling_run_sums r r2 hrun
  rw [get_progress_eq, get_progress_eq, htotal]
  have hnil : r2.tasks_ = [] ↔ r.tasks_ = [] := by
    rw [← List.length_eq_zero, ← List.length_eq_zero (l := r.tasks_), hlen]
  by_cases h1 : r.tasks_ = []
  · rw [if_pos h1, if_pos (hnil.mpr h1)]
  · rw [if_neg h1, if_neg (fun h => h1 (hnil.mp h))]
    by_cases h2 : r.total_cells = 0
    · rw [if_pos h2, if_pos h2]
    · rw [if_neg h2, if_neg h2]
      have htpos : (0 : Rat) < (r.total_cells : Rat) := by
        have : 0 < r.total_cells := by omega
        exact_mod_cast this
      have hq : (r2.unsolved_cells : Rat) ≤ (r.unsolved_cells : Rat) := by exact_mod_cast hle
      have := div_le_div_of_nonneg_right hq htpos.le
      linarith

/-- The statement of C19 on the step from `single_started` to `single_guessed`,
where the solver's report lowers the counter from 2 to 1. -/
theorem progress_monotone_witness :
    single_started.get_progress ≤ single_guessed.get_progress :=
  progress_monotone single_started single_guessed
    (SettlingRun.step _ _ _ (SettlingRun.refl single_started)
      (Step.solve_step single_started 0
        (single_started.tasks_.getD 0 (Runner.new_task pair_problem.single_sub_problem))
        1 pair_state (by decide) (by decide) (by decide))
      (by
        intro i t t2 h1 h2
        match i, h1, h2 with
        | 0, h1, h2 =>
          have e1 : t = single_started.tasks_.getD 0
              (Runner.new_task pair_problem.single_sub_problem) := by
            have : single_started.tasks_[0]? = some (single_started.tasks_.getD 0
              (Runner.new_task pair_problem.single_sub_problem)) := by decide
            rw [this] at h1
            exact (Option.some.inj h1).symm
          have e2 : t2 = single_guessed.tasks_.getD 0
              (Runner.new_task pair_problem.single_sub_problem) := by
            have : single_guessed.tasks_[0]? = some (single_guessed.tasks_.getD 0
              (Runner.new_task pair_problem.single_sub_problem)) := by decide
            rw [this] at h2
            exact (Option.some.inj h2).symm
          rw [e1, e2]
          decide
        | k + 1, h1, h2 =>
          have : single_started.tasks_[k + 1]? = none := by
            apply List.getElem?_eq_none
            have : single_started.tasks_.length = 1 := by decide
            omega
          rw [this] at h1
          cases h1))
    (by decide)

/-- C19 as stated fails: from `single_guessed`, where the solver of the only
task has reported one unsolved cell of two, a solver step that backtracks and
reports two unsolved cells leads to `single_backtracked`; `get_progress` falls
from 1/2 to 0. -/
theorem progress_backtrack_counterexample :
    Reachable single_guessed ∧ Step single_guessed single_backtracked ∧
    single_guessed.get_progress = 1 / 2 ∧ single_backtracked.get_progress = 0 := by
  refine ⟨?_, ?_, ?_, ?_⟩
  · exact Reachable.step _ _ (Reachable.start _ single_sub_problems 1)
      (Step.solve_step single_started 0
        (single_started.tasks_.getD 0 (Runner.new_task pair_problem.single_sub_problem))
        1 pair_state (by decide) (by decide) (by decide))
  · exact Step.solve_step single_guessed 0
      (single_guessed.tasks_.getD 0 (Runner.new_task pair_problem.single_sub_problem))
      2 pair_state (by decide) (by decide) (by decide)
  · rw [get_progress_eq]
    have h1 : single_guessed.tasks_ ≠ [] := by decide
    have h2 : single_guessed.total_cells = 2 := by decide
    have h3 : single_guessed.unsolved_cells = 1 := by decide
    rw [if_neg h1, h2, h3]
    norm_num
  · rw [get_progress_eq]
    have h1 : single_backtracked.tasks_ ≠ [] := by decide
    have h2 : single_backtracked.total_cells = 2 := by decide
    have h3 : single_backtracked.unsolved_cells = 2 := by decide
    rw [if_neg h1, h2, h3]
    norm_num

/-! ## The thread bound -/

theorem running_tasks_set (l : List Task) (i : Nat) (t t2 : Task) (h : l[i]? = some t) :
    running_tasks (l.set i t2) + (if (t.started && !t.completed) = true then 1 else 0) =
      running_tasks l + (if (t2.started && !t2.completed) = true then 1 else 0) := by
  unfold running_tasks
  induction l generalizing i with
  | nil => simp at h
  | cons x rest ih =>
    cases i with
    | zero =>
      simp only [List.getElem?_cons_zero, Option.some.injEq] at h
      subst h
      simp only [List.set_cons_zero, List.filter_cons]
      split_ifs <;> simp
    | succ n =>
      simp only [List.getElem?_cons_succ] at h
      have := ih n h
      simp only [List.set_cons_succ, List.filter_cons]
      split_ifs at this ⊢ <;> simp at this ⊢ <;> omega

theorem start_task_eq (tasks : List Task) (i : Nat) (task : Task) :
    ∃ t1 : Task, start_task tasks i task = tasks.set i t1 ∧ t1.started = true ∧
      t1.completed = task.completed :=
  ⟨_, rfl, rfl, rfl⟩

theorem dependencies_completed_start_task (tasks : List Task) (a : Nat) (task t : Task)
    (h : tasks[a]? = some task) (hc : dependencies_completed tasks t) :
    dependencies_completed (start_task tasks a task) t := by
  intro d hd dt1 hdt1
  obtain ⟨h0, hget⟩ := index?_eq_some _ _ dt1 hdt1
  rcases start_task_fields tasks a task _ dt1 hget with ⟨hj, _, _, f3, _⟩ | ⟨_, hj⟩
  · rw [f3]
    apply hc d hd task
    rw [index?_of_getElem? _ _ h0, hj]
    exact h
  · apply hc d hd dt1
    rw [index?_of_getElem? _ _ h0]
    exact hj

/-- The counters of the loop of `start_available_tasks`: the number of tasks it
starts never takes the running count above the larger of its initial value and
`max_threads`, and the tasks running afterwards are at most those running
before plus the tasks started, with equality when every completed task was
started. -/
theorem start_available_loop_count (mt : Int) (idxs : List Nat) (tasks : List Task)
    (s rc : Int) :
    s ≤ (start_available_loop mt idxs tasks s rc).2 ∧
    rc + ((start_available_loop mt idxs tasks s rc).2 - s) ≤ max rc mt ∧
    running_tasks (start_available_loop mt idxs tasks s rc).1
      ≤ running_tasks tasks + ((start_available_loop mt idxs tasks s rc).2 - s) ∧
    (completed_were_started tasks →
      completed_were_started (start_available_loop mt idxs tasks s rc).1 ∧
      running_tasks (start_available_loop mt idxs tasks s rc).1
        = running_tasks tasks + ((start_available_loop mt idxs tasks s rc).2 - s)) := by
  induction idxs generalizing tasks s rc with
  | nil =>
    simp only [start_available_loop]
    exact ⟨le_refl _, by simp, by simp, fun hK => ⟨hK, by simp⟩⟩
  | cons i rest ih =>
    unfold start_available_loop
    by_cases hrc : rc ≥ mt
    · rw [if_pos hrc]
      exact ⟨le_refl _, by simp, by simp, fun hK => ⟨hK, by simp⟩⟩
    · rw [if_neg hrc]
      cases hti : tasks[i]? with
      | none => exact ih tasks s rc
      | some task =>
        simp only
        by_cases hg : (!task.started && !is_task_blocked tasks i) = true
        · rw [if_pos hg]
          simp only [Bool.and_eq_true, Bool.not_eq_true'] at hg
          obtain ⟨t1, hset, hs1, hc1⟩ := start_task_eq tasks i task
          obtain ⟨a1, a2, a3, a4⟩ := ih (start_task tasks i task) (s + 1) (rc + 1)
          have hrun := running_tasks_set tasks i task t1 hti
          rw [← hset] at hrun
          simp only [hg.1, Bool.false_and, Bool.false_eq_true, if_false, add_zero, hs1,
            Bool.true_and] at hrun
          refine ⟨by omega, ?_, ?_, ?_⟩
          · have : max (rc + 1) mt = mt := max_eq_right (by omega)
            have h2 : max rc mt = mt := max_eq_right (by omega)
            rw [this] at a2
            rw [h2]
            omega
          · have : running_tasks (start_task tasks i task) ≤ running_tasks tasks + 1 := by
              rw [hrun]
              split_ifs <;> omega
            omega
          · intro hK
            have hmem : task ∈ tasks := by
              rw [List.getElem?_eq_some_iff] at hti
              obtain ⟨hlt, hti⟩ := hti
              rw [← hti]
              exact List.getElem_mem hlt
            have hnc : task.completed = false := by
              cases hcm : task.completed
              · rfl
              · have := hK task hmem hcm
                rw [hg.1] at this
                cases this
            have hK1 : completed_were_started (start_task tasks i task) := by
              intro u hu hcu
              rw [hset] at hu
              rcases List.mem_or_eq_of_mem_set hu with h1 | h1
              · exact hK u h1 hcu
              · rw [h1]
                exact hs1
            obtain ⟨b1, b2⟩ := a4 hK1
            refine ⟨b1, ?_⟩
            rw [b2, hrun, hc1, hnc]
            simp
            ring
        · rw [if_neg hg]
          exact ih tasks s rc

/-- An eligible task that the loop of `start_available_tasks` visits and leaves
unstarted was left because the running count had reached `max_threads`. -/
theorem start_available_loop_full (mt : Int) (idxs : List Nat) (tasks : List Task)
    (s rc : Int) (i : Nat) (t t2 : Task) (hi : i ∈ idxs) (ht : tasks[i]? = some t)
    (hs : t.started = false) (hb : is_task_blocked tasks i = false)
    (ht2 : (start_available_loop mt idxs tasks s rc).1[i]? = some t2)
    (hs2 : t2.started = false) :
    mt ≤ rc + ((start_available_loop mt idxs tasks s rc).2 - s) := by
  induction idxs generalizing tasks s rc with
  | nil => simp at hi
  | cons a rest ih =>
    unfold start_available_loop at ht2 ⊢
    by_cases hrc : rc ≥ mt
    · rw [if_pos hrc]
      simp only [sub_self, add_zero]
      exact hrc
    · rw [if_neg hrc] at ht2 ⊢
      by_cases hia : i = a
      · subst hia
        rw [ht] at ht2 ⊢
        simp only at ht2 ⊢
        have hg : (!t.started && !is_task_blocked tasks i) = true := by simp [hs, hb]
        rw [if_pos hg] at ht2
        obtain ⟨u, hu, _, _, _, _, hstart⟩ :=
          (start_available_loop_fields mt rest (start_task tasks i t) (s + 1) (rc + 1)).2 i t2 ht2
        rcases start_task_fields tasks i t i u hu with ⟨_, f1, _⟩ | ⟨hne, _⟩
        · rw [hstart f1] at hs2
          cases hs2
        · exact absurd rfl hne
      · have hir : i ∈ rest := by
          rcases List.mem_cons.mp hi with h | h
          · exact absurd h hia
          · exact h
        cases hta : tasks[a]? with
        | none =>
          rw [hta] at ht2
          simp only at ht2 ⊢
          exact ih tasks s rc hir ht hb ht2
        | some task =>
          rw [hta] at ht2
          simp only at ht2 ⊢
          by_cases hg : (!task.started && !is_task_blocked tasks a) = true
          · rw [if_pos hg] at ht2 ⊢
            have hget : (start_task tasks a task)[i]? = some t := by
              unfold start_task
              rw [List.getElem?_set_ne (fun h => hia h.symm)]
              exact ht
            have hb1 : is_task_blocked (start_task tasks a task) i = false := by
              rw [is_task_blocked_false_iff _ i t hget]
              exact dependencies_completed_start_task tasks a task t hta
                ((is_task_blocked_false_iff tasks i t ht).mp hb)
            have := ih (start_task tasks a task) (s + 1) (rc + 1) hir hget hb1 ht2
            omega
          · rw [if_neg hg] at ht2 ⊢
            exact ih tasks s rc hir ht hb ht2

/-- The loop of `start_available_tasks` over the indices from `k` on starts a
task only after every eligible task of smaller index. -/
theorem start_available_loop_order (mt : Int) (m k : Nat) (tasks : List Task) (s rc : Int)
    (i j : Nat) (t tj t2 : Task) (hkj : k ≤ j) (hji : j < i)
    (ht : tasks[i]? = some t) (hs : t.started = false)
    (ht2 : (start_available_loop mt (List.range' k m) tasks s rc).1[i]? = some t2)
    (hs2 : t2.started = true)
    (htj : tasks[j]? = some tj) (hsj : tj.started = false)
    (hbj : is_task_blocked tasks j = false) :
    ∃ tj2 : Task, (start_available_loop mt (List.range' k m) tasks s rc).1[j]? = some tj2 ∧
      tj2.started = true := by
  induction m generalizing k tasks s rc with
  | zero =>
    simp only [List.range'_zero, start_available_loop] at ht2
    rw [ht] at ht2
    simp only [Option.some.injEq] at ht2
    rw [← ht2, hs] at hs2
    cases hs2
  | succ n ih =>
    rw [List.range'_succ] at ht2 ⊢
    unfold start_available_loop at ht2 ⊢
    by_cases hrc : rc ≥ mt
    · rw [if_pos hrc] at ht2
      rw [ht] at ht2
      simp only [Option.some.injEq] at ht2
      rw [← ht2, hs] at hs2
      cases hs2
    · rw [if_neg hrc] at ht2 ⊢
      by_cases hjk : j = k
      · subst hjk
        rw [htj] at ht2 ⊢
        simp only at ht2 ⊢
        have hg : (!tj.started && !is_task_blocked tasks j) = true := by simp [hsj, hbj]
        rw [if_pos hg] at ht2 ⊢
        obtain ⟨hlen, hspec⟩ := start_available_loop_fields mt (List.range' (j + 1) n)
          (start_task tasks j tj) (s + 1) (rc + 1)
        have hjlt : j < (start_available_loop mt (List.range' (j + 1) n)
            (start_task tasks j tj) (s + 1) (rc + 1)).1.length := by
          rw [hlen]
          simp only [start_task, List.length_set]
          exact (List.getElem?_eq_some_iff.mp htj).1
        refine ⟨_, List.getElem?_eq_getElem hjlt, ?_⟩
        obtain ⟨u, hu, _, _, _, _, hstart⟩ := hspec j _ (List.getElem?_eq_getElem hjlt)
        rcases start_task_fields tasks j tj j u hu with ⟨_, f1, _⟩ | ⟨hne, _⟩
        · exact hstart f1
        · exact absurd rfl hne
      · cases htk : tasks[k]? with
        | none =>
          rw [htk] at ht2
          simp only at ht2 ⊢
          exact ih (k + 1) tasks s rc (by omega) ht ht2 htj hbj
        | some task =>
          rw [htk] at ht2
          simp only at ht2 ⊢
          by_cases hg : (!task.started && !is_task_blocked tasks k) = true
          · rw [if_pos hg] at ht2 ⊢
            have hget : ∀ (x : Nat) (u : Task), x ≠ k → tasks[x]? = some u →
                (start_task tasks k task)[x]? = some u := by
              intro x u hx hu
              unfold start_task
              rw [List.getElem?_set_ne (fun h => hx h.symm)]
              exact hu
            have hgj := hget j tj hjk htj
            have hb1 : is_task_blocked (start_task tasks k task) j = false := by
              rw [is_task_blocked_false_iff _ j tj hgj]
              exact dependencies_completed_start_task tasks k task tj htk
                ((is_task_blocked_false_iff tasks j tj htj).mp hbj)
            exact ih (k + 1) (start_task tasks k task) (s + 1) (rc + 1) (by omega)
              (hget i t (by omega) ht) ht2 hgj hb1
          · rw [if_neg hg] at ht2 ⊢
            exact ih (k + 1) tasks s rc (by omega) ht ht2 htj hbj

theorem running_tasks_nonneg (tasks : List Task) : 0 ≤ running_tasks tasks := by
  unfold running_tasks
  positivity

theorem running_tasks_unstarted (tasks : List Task) (h : ∀ t ∈ tasks, t.started = false) :
    running_tasks tasks = 0 := by
  unfold running_tasks
  have : tasks.filter (fun task => task.started && !task.completed) = [] := by
    rw [List.filter_eq_nil_iff]
    intro t ht
    simp [h t ht]
  rw [this]
  rfl

theorem running_tasks_join (tasks : List Task) :
    running_tasks (Runner.join_completed tasks) = running_tasks tasks := by
  unfold running_tasks Runner.join_completed
  rw [List.filter_map, List.length_map]
  have hp : ((fun task : Task => task.started && !task.completed) ∘
      (fun task : Task => if (task.started && task.completed && task.has_thread) = true then
        { task with has_thread := false } else task)) =
      (fun task : Task => task.started && !task.completed) := by
    funext t
    simp only [Function.comp]
    split_ifs <;> rfl
  rw [hp]

theorem join_completed_were_started (tasks : List Task) (h : completed_were_started tasks) :
    completed_were_started (Runner.join_completed tasks) := by
  unfold Runner.join_completed
  intro u hu hc
  rw [List.mem_map] at hu
  obtain ⟨t, ht, rfl⟩ := hu
  split_ifs at hc ⊢
  · exact h t ht hc
  · exact h t ht hc

/-- The bound kept by `start_available_tasks`, and what it keeps of the runner. -/
theorem start_available_tasks_bound (r : Runner)
    (h : running_tasks r.tasks_ ≤ max r.max_threads_ 0) :
    r.start_available_tasks.1.max_threads_ = r.max_threads_ ∧
    running_tasks r.start_available_tasks.1.tasks_ ≤ max r.max_threads_ 0 ∧
    (completed_were_started r.tasks_ →
      completed_were_started r.start_available_tasks.1.tasks_) := by
  obtain ⟨a1, a2, a3, a4⟩ := start_available_loop_count r.max_threads_
    (List.range r.tasks_.length) r.tasks_ 0 (running_tasks r.tasks_)
  refine ⟨rfl, ?_, fun hK => (a4 hK).1⟩
  show running_tasks (start_available_loop r.max_threads_ (List.range r.tasks_.length)
    r.tasks_ 0 (running_tasks r.tasks_)).1 ≤ max r.max_threads_ 0
  have h1 : max (running_tasks r.tasks_) r.max_threads_ ≤ max r.max_threads_ 0 := by
    apply max_le h
    exact le_max_left _ _
  omega

theorem running_bound_set (tasks : List Task) (i : Nat) (t t2 : Task) (mt : Int)
    (hi : tasks[i]? = some t) (hs : t.started = true) (hc : t.completed = false)
    (hs2 : t2.started = true)
    (h : running_tasks tasks ≤ mt ∧ completed_were_started tasks) :
    running_tasks (tasks.set i t2) ≤ mt ∧ completed_were_started (tasks.set i t2) := by
  constructor
  · have h1 := running_tasks_set tasks i t t2 hi
    have h2 : (t.started && !t.completed) = true := by simp [hs, hc]
    rw [if_pos h2] at h1
    have h3 := h.1
    split_ifs at h1 <;> omega
  · intro u hu hcu
    rcases List.mem_or_eq_of_mem_set hu with h1 | h1
    · exact h.2 u h1 hcu
    · rw [h1]
      exact hs2

theorem step_running_bound (r r2 : Runner) (hstep : Step r r2)
    (h : running_tasks r.tasks_ ≤ max r.max_threads_ 0 ∧ completed_were_started r.tasks_) :
    r2.max_threads_ = r.max_threads_ ∧
    running_tasks r2.tasks_ ≤ max r.max_threads_ 0 ∧ completed_were_started r2.tasks_ := by
  cases hstep with
  | solve_step i task unsolved state hi hs hc =>
    unfold Runner.thread_solve_step
    rw [hi]
    exact ⟨rfl, running_bound_set r.tasks_ i task _ _ hi hs hc
      (by split_ifs <;> exact hs) h⟩
  | finish i task state hi hs hc =>
    unfold Runner.thread_finish
    rw [hi]
    exact ⟨rfl, running_bound_set r.tasks_ i task _ _ hi hs hc hs h⟩
  | update =>
    unfold Runner.update
    by_cases h0 : r.tasks_.isEmpty = true
    · rw [if_pos h0]
      exact ⟨rfl, h.1, h.2⟩
    · rw [if_neg h0]
      have hj1 : running_tasks (Runner.join_completed r.tasks_) ≤ max r.max_threads_ 0 := by
        rw [running_tasks_join]
        exact h.1
      have hj2 := join_completed_were_started r.tasks_ h.2
      by_cases h1 : (r.tasks_.any fun task => task.started && task.completed && task.has_thread)
          = true
      · simp only [h1, if_true]
        obtain ⟨b1, b2, b3⟩ := start_available_tasks_bound
          { r with tasks_ := Runner.join_completed r.tasks_ } hj1
        exact ⟨b1, b2, b3 hj2⟩
      · simp only [h1, if_false]
        exact ⟨rfl, hj1, hj2⟩
  | start_available =>
    obtain ⟨b1, b2, b3⟩ := start_available_tasks_bound r h.1
    exact ⟨b1, b2, b3 h.2⟩

theorem reachable_running_bound (r : Runner) (h : Reachable r) :
    running_tasks r.tasks_ ≤ max r.max_threads_ 0 ∧ completed_were_started r.tasks_ := by
  induction h with
  | start r0 sub_problems max_threads =>
    unfold Runner.start
    simp only
    have hun : ∀ t ∈ (List.filterMap id sub_problems).map Runner.new_task,
        t.started = false ∧ t.completed = false := by
      intro t ht
      rw [List.mem_map] at ht
      obtain ⟨sub, _, rfl⟩ := ht
      exact ⟨rfl, rfl⟩
    obtain ⟨b1, b2, b3⟩ := start_available_tasks_bound
      ({ tasks_ := (List.filterMap id sub_problems).map Runner.new_task,
         interrupted_ := false, all_done_ := false,
         max_threads_ := if max_threads > 0 then max_threads else r0.max_threads_ } : Runner)
      (by
        simp only
        rw [running_tasks_unstarted _ (fun t ht => (hun t ht).1)]
        exact le_max_right _ _)
    rw [b1]
    refine ⟨b2, b3 ?_⟩
    intro t ht hc
    rw [(hun t ht).2] at hc
    cases hc
  | step r r2 _ hstep ih =>
    obtain ⟨b1, b2, b3⟩ := step_running_bound r r2 hstep ih
    rw [b1]
    exact ⟨b2, b3⟩

/-- C20: with a positive `max_threads`, in every reachable state at most
`max_threads` tasks are started and not completed; an eligible task that
`start_available_tasks` leaves unstarted is left only when that count has
reached `max_threads`; and a task is started only after every eligible task of
smaller index. -/
theorem running_tasks_bounded (r : Runner) (h : Reachable r) (hmt : 0 < r.max_threads_) :
    r.running_count ≤ r.max_threads_ ∧
    (∀ (i : Nat) (t t2 : Task), r.tasks_[i]? = some t → t.started = false →
      is_task_blocked r.tasks_ i = false →
      r.start_available_tasks.1.tasks_[i]? = some t2 → t2.started = false →
      r.max_threads_ ≤ r.start_available_tasks.1.running_count) ∧
    (∀ (i j : Nat) (t tj t2 : Task), j < i →
      r.tasks_[i]? = some t → t.started = false →
      r.start_available_tasks.1.tasks_[i]? = some t2 → t2.started = true →
      r.tasks_[j]? = some tj → tj.started = false → is_task_blocked r.tasks_ j = false →
      ∃ tj2 : Task, r.start_available_tasks.1.tasks_[j]? = some tj2 ∧ tj2.started = true) := by
  obtain ⟨hJ, hK⟩ := reachable_running_bound r h
  have hmax : max r.max_threads_ 0 = r.max_threads_ := max_eq_left hmt.le
  refine ⟨by rw [hmax] at hJ; exact hJ, ?_, ?_⟩
  · intro i t t2 ht hs hb ht2 hs2
    have hi : i ∈ List.range r.tasks_.length :=
      List.mem_range.mpr (List.getElem?_eq_some_iff.mp ht).1
    have hfull := start_available_loop_full r.max_threads_ (List.range r.tasks_.length)
      r.tasks_ 0 (running_tasks r.tasks_) i t t2 hi ht hs hb ht2 hs2
    obtain ⟨_, _, _, a4⟩ := start_available_loop_count r.max_threads_
      (List.range r.tasks_.length) r.tasks_ 0 (running_tasks r.tasks_)
    have heq := (a4 hK).2
    show r.max_threads_ ≤ running_tasks (start_available_loop r.max_threads_
      (List.range r.tasks_.length) r.tasks_ 0 (running_tasks r.tasks_)).1
    rw [heq]
    omega
  · intro i j t tj t2 hji ht hs ht2 hs2 htj hsj hbj
    have hr : List.range r.tasks_.length = List.range' 0 r.tasks_.length :=
      List.range_eq_range' _
    have ht2' : (start_available_loop r.max_threads_ (List.range' 0 r.tasks_.length)
        r.tasks_ 0 r.running_count).1[i]? = some t2 := by
      rw [← hr]
      exact ht2
    have := start_available_loop_order r.max_threads_ r.tasks_.length 0 r.tasks_ 0
      r.running_count i j t tj t2 (Nat.zero_le _) hji ht hs ht2' hs2 htj hsj hbj
    rw [← hr] at this
    exact this

/-- The statement of C20 on `triple_started`: two of the three tasks run. -/
theorem running_tasks_bounded_witness :
    triple_started.running_count ≤ triple_started.max_threads_ :=
  (running_tasks_bounded triple_started (Reachable.start _ triple_sub_problems 2)
    (by decide)).1

/-! ## Boundaries of `split_range` -/

/-- The boundaries returned by the recursion of `split_range` are those of an
even division into some number `n2` of bands, with `1 ≤ n2 ≤ n`. -/
theorem split_range_rec_form (first size m : Int) (hs : 0 ≤ size) (n : Nat) (hn : 0 < n) :
    ∃ n2 : Nat, 1 ≤ n2 ∧ n2 ≤ n ∧ (split_range_rec first size m n).length = n2 + 1 ∧
      ∀ j : Nat, j ≤ n2 →
        (split_range_rec first size m n).getD j 0 = first + (size * (j : Int)) / (n2 : Int) := by
  induction n with
  | zero => omega
  | succ k ih =>
    unfold split_range_rec
    simp only
    split_ifs with h1 h2
    · refine ⟨1, le_refl _, by omega, rfl, ?_⟩
      intro j hj
      match j, hj with
      | 0, _ => simp
      | 1, _ => simp
    · have hk : 0 < k := by
        rcases Nat.eq_zero_or_pos k with h0 | h0
        · subst h0
          simp at h2
        · exact h0
      obtain ⟨n2, a1, a2, a3, a4⟩ := ih hk
      exact ⟨n2, a1, by omega, a3, a4⟩
    · refine ⟨k + 1, by omega, le_refl _, by simp, ?_⟩
      have hp : (0 : Int) < ((k + 1 : Nat) : Int) := by positivity
      intro j hj
      rw [List.getD_eq_getElem?_getD]
      by_cases hjk : j < k + 1
      · rw [List.getElem?_append_left (by simp; exact hjk), List.getElem?_map,
          List.getElem?_range hjk]
        simp only [Option.map_some', Option.getD_some]
        rw [Int.tdiv_eq_ediv (by positivity) hp.le]
      · have hjeq : j = k + 1 := by omega
        subst hjeq
        rw [List.getElem?_append_right (by simp)]
        simp only [List.length_map, List.length_range, Nat.sub_self, List.getElem?_cons_zero,
          Option.getD_some]
        rw [Int.mul_ediv_cancel _ hp.ne']

/-- The boundaries of `split_range` do not decrease. -/
theorem split_range_rec_mono (first size m : Int) (hs : 0 ≤ size) (n : Nat) (hn : 0 < n)
    (i j : Nat) (hij : i ≤ j) (hj : j < (split_range_rec first size m n).length) :
    (split_range_rec first size m n).getD i 0 ≤ (split_range_rec first size m n).getD j 0 := by
  obtain ⟨n2, h1, _, hlen, hform⟩ := split_range_rec_form first size m hs n hn
  rw [hform i (by omega), hform j (by omega)]
  have hp : (0 : Int) < (n2 : Int) := by exact_mod_cast h1
  have hle : size * (i : Int) ≤ size * (j : Int) :=
    mul_le_mul_of_nonneg_left (by exact_mod_cast hij) hs
  have := Int.ediv_le_ediv hp hle
  linarith

/-- C26: for a size that is not negative and at least one partition,
`split_range` returns a list of boundaries that starts at `first`, ends at
`first + size`, does not decrease, and has at least one and at most
`partitions` bands, so every `x` in `[first, first + size)` lies in exactly one
band; for a partition count that is not positive it returns the empty list. -/
theorem split_range_tiles (first size partitions m : Int) :
    (0 ≤ size → 1 ≤ partitions →
      (split_range first size partitions m).head? = some first ∧
      (split_range first size partitions m).getLast? = some (first + size) ∧
      2 ≤ (split_range first size partitions m).length ∧
      ((split_range first size partitions m).length : Int) - 1 ≤ partitions ∧
      (∀ i j : Nat, i ≤ j → j < (split_range first size partitions m).length →
        (split_range first size partitions m).getD i 0
          ≤ (split_range first size partitions m).getD j 0) ∧
      (∀ x : Int, first ≤ x → x < first + size →
        ∃ i : Nat, (i + 1 < (split_range first size partitions m).length ∧
          (split_range first size partitions m).getD i 0 ≤ x ∧
          x < (split_range first size partitions m).getD (i + 1) 0) ∧
          ∀ k : Nat, k + 1 < (split_range first size partitions m).length →
            (split_range first size partitions m).getD k 0 ≤ x →
            x < (split_range first size partitions m).getD (k + 1) 0 → k = i)) ∧
    (partitions ≤ 0 → split_range first size partitions m = []) := by
  constructor
  · intro hs hp
    have hn : 0 < partitions.toNat := by omega
    have hsr : split_range first size partitions m
        = split_range_rec first size m partitions.toNat := by
      unfold split_range
      rw [if_neg (by omega)]
    obtain ⟨n2, h1, h2, hlen, _⟩ := split_range_rec_form first size m hs partitions.toNat hn
    obtain ⟨he1, he2⟩ := split_range_rec_ends first size m partitions.toNat hn
    rw [hsr]
    refine ⟨he1, he2, by omega, by omega, ?_, ?_⟩
    · intro i j hij hj
      exact split_range_rec_mono first size m hs _ hn i j hij hj
    · intro x hx0 hx1
      obtain ⟨i, hi, hlo, hhi⟩ := boundaries_cover _ first (first + size) x he1 he2 hx0 hx1
      refine ⟨i, ⟨hi, hlo, hhi⟩, ?_⟩
      intro k hk hklo hkhi
      by_contra hne
      rcases Nat.lt_or_gt_of_ne hne with hlt | hgt
      · have := split_range_rec_mono first size m hs _ hn (k + 1) i (by omega) (by omega)
        omega
      · have := split_range_rec_mono first size m hs _ hn (i + 1) k (by omega) (by omega)
        omega
  · intro hp
    unfold split_range
    rw [if_pos hp]

/-- The statement of C26 on `split_range 0 100 8 5`. -/
theorem split_range_tiles_witness :
    (split_range 0 100 8 5).head? = some 0 ∧
    (split_range 0 100 8 5).getLast? = some (0 + 100) ∧
    2 ≤ (split_range 0 100 8 5).length ∧
    ((split_range 0 100 8 5).length : Int) - 1 ≤ 8 :=
  have h := (split_range_tiles 0 100 8 5).1 (by decide) (by decide)
  ⟨h.1, h.2.1, h.2.2.1, h.2.2.2.1⟩

/-! ## Dependency range -/

/-- The loop of `get_dependencies_range` from a running value `r`: the result
bounds `r` and every axis of the list, and is `r` or attained by an axis. -/
theorem dependencies_range_fold (l : List Vector2i) (r : Vector2i) :
    r.x ≤ (l.foldl (fun r axis => (⟨max r.x |axis.x|, max r.y |axis.y|⟩ : Vector2i)) r).x ∧
    r.y ≤ (l.foldl (fun r axis => (⟨max r.x |axis.x|, max r.y |axis.y|⟩ : Vector2i)) r).y ∧
    (∀ a ∈ l,
      |a.x| ≤ (l.foldl (fun r axis => (⟨max r.x |axis.x|, max r.y |axis.y|⟩ : Vector2i)) r).x ∧
      |a.y| ≤ (l.foldl (fun r axis => (⟨max r.x |axis.x|, max r.y |axis.y|⟩ : Vector2i)) r).y) ∧
    ((l.foldl (fun r axis => (⟨max r.x |axis.x|, max r.y |axis.y|⟩ : Vector2i)) r).x = r.x ∨
      ∃ a ∈ l,
        |a.x| = (l.foldl (fun r axis => (⟨max r.x |axis.x|, max r.y |axis.y|⟩ : Vector2i)) r).x) ∧
    ((l.foldl (fun r axis => (⟨max r.x |axis.x|, max r.y |axis.y|⟩ : Vector2i)) r).y = r.y ∨
      ∃ a ∈ l,
        |a.y| = (l.foldl (fun r axis => (⟨max r.x |axis.x|, max r.y |axis.y|⟩ : Vector2i)) r).y) := by
  induction l generalizing r with
  | nil => simp
  | cons a t ih =>
    simp only [List.foldl_cons]
    obtain ⟨h1, h2, h3, h4, h5⟩ := ih ⟨max r.x |a.x|, max r.y |a.y|⟩
    simp only at h1 h2 h4 h5
    refine ⟨le_trans (le_max_left _ _) h1, le_trans (le_max_left _ _) h2, ?_, ?_, ?_⟩
    · intro b hb
      rcases List.mem_cons.mp hb with rfl | hb
      · exact ⟨le_trans (le_max_right _ _) h1, le_trans (le_max_right _ _) h2⟩
      · exact h3 b hb
    · rcases h4 with h4 | ⟨b, hb, hbe⟩
      · rcases max_cases r.x |a.x| with ⟨hm, _⟩ | ⟨hm, _⟩
        · left
          rw [h4, hm]
        · right
          exact ⟨a, List.mem_cons_self _ _, by rw [h4, hm]⟩
      · right
        exact ⟨b, List.mem_cons_of_mem _ hb, hbe⟩
    · rcases h5 with h5 | ⟨b, hb, hbe⟩
      · rcases max_cases r.y |a.y| with ⟨hm, _⟩ | ⟨hm, _⟩
        · left
          rw [h5, hm]
        · right
          exact ⟨a, List.mem_cons_self _ _, by rw [h5, hm]⟩
      · right
        exact ⟨b, List.mem_cons_of_mem _ hb, hbe⟩

/-- The runtime axes built by the loop of `initialize` are the declared axes
and their negations. -/
theorem mem_init_loop_axes (decls : List (Vector2i × BitMatrix)) (a : Vector2i) :
    a ∈ (init_loop (decls.map Prod.fst) (decls.map Prod.snd)).1 ↔
      ∃ d ∈ decls.map Prod.fst, a = d ∨ a = d.neg := by
  induction decls with
  | nil => simp [init_loop]
  | cons d t ih =>
    simp only [List.map_cons, init_loop, List.mem_cons, ih]
    constructor
    · rintro (h | h | ⟨e, he, h⟩)
      · exact ⟨d.1, Or.inl rfl, Or.inl h⟩
      · exact ⟨d.1, Or.inl rfl, Or.inr h⟩
      · exact ⟨e, Or.inr he, h⟩
    · rintro ⟨e, he | he, h⟩
      · subst he
        rcases h with h | h
        · exact Or.inl h
        · exact Or.inr (Or.inl h)
      · exact Or.inr (Or.inr ⟨e, he, h⟩)

/-- The runtime axes of an initialised problem. -/
theorem mem_init_axes (self : Problem) (rules : Rules) (rect : Rect2i) (a : Vector2i) :
    a ∈ (self.init rules rect).axes_ ↔ ∃ d ∈ rules.get_axes, a = d ∨ a = d.neg :=
  mem_init_loop_axes rules.declarations a

/-- C24: for an initialised problem `get_dependencies_range` is, on each
dimension, the maximum of the absolute displacements of the declared axes, and
`(0, 0)` when no axis is declared; every runtime axis is a declared axis or the
negation of one and is bounded by the range on each dimension. -/
theorem dependencies_range_max (self : Problem) (rules : Rules) (rect : Rect2i) :
    (rules.declarations = [] → (self.init rules rect).get_dependencies_range = ⟨0, 0⟩) ∧
    (∀ d ∈ rules.get_axes,
      |d.x| ≤ (self.init rules rect).get_dependencies_range.x ∧
      |d.y| ≤ (self.init rules rect).get_dependencies_range.y) ∧
    (rules.declarations ≠ [] →
      (∃ d ∈ rules.get_axes, |d.x| = (self.init rules rect).get_dependencies_range.x) ∧
      (∃ d ∈ rules.get_axes, |d.y| = (self.init rules rect).get_dependencies_range.y)) ∧
    (∀ a ∈ (self.init rules rect).axes_,
      (∃ d ∈ rules.get_axes, a = d ∨ a = d.neg) ∧
      |a.x| ≤ (self.init rules rect).get_dependencies_range.x ∧
      |a.y| ≤ (self.init rules rect).get_dependencies_range.y) := by
  obtain ⟨_, _, hb, hx, hy⟩ := dependencies_range_fold (self.init rules rect).axes_ ⟨0, 0⟩
  have hmem := mem_init_axes self rules rect
  have hfwd : ∀ d ∈ rules.get_axes, d ∈ (self.init rules rect).axes_ :=
    fun d hd => (hmem d).mpr ⟨d, hd, Or.inl rfl⟩
  have habs : ∀ a ∈ (self.init rules rect).axes_, ∃ d ∈ rules.get_axes,
      |d.x| = |a.x| ∧ |d.y| = |a.y| := by
    intro a ha
    obtain ⟨d, hd, h | h⟩ := (hmem a).mp ha
    · exact ⟨d, hd, by rw [h], by rw [h]⟩
    · refine ⟨d, hd, ?_, ?_⟩
      · rw [h]
        simp [Vector2i.neg]
      · rw [h]
        simp [Vector2i.neg]
  refine ⟨?_, fun d hd => hb d (hfwd d hd), ?_, fun a ha => ⟨(hmem a).mp ha, hb a ha⟩⟩
  · intro hnil
    have : (self.init rules rect).axes_ = [] := by
      simp [Problem.init, Rules.get_axes, Rules.get_axis_matrices, hnil, init_loop]
    unfold Problem.get_dependencies_range
    rw [this]
    rfl
  · intro hne
    obtain ⟨d0, hd0⟩ : ∃ d0, d0 ∈ rules.get_axes := by
      cases hdecl : rules.declarations with
      | nil => exact absurd hdecl hne
      | cons e t => exact ⟨e.1, by simp [Rules.get_axes, hdecl]⟩
    constructor
    · rcases hx with h0 | ⟨a, ha, hae⟩
      · refine ⟨d0, hd0, ?_⟩
        have h1 := (hb d0 (hfwd d0 hd0)).1
        have h2 := abs_nonneg d0.x
        simp only at h0
        unfold Problem.get_dependencies_range at h1 ⊢
        omega
      · obtain ⟨d, hd, e1, _⟩ := habs a ha
        exact ⟨d, hd, by rw [e1]; exact hae⟩
    · rcases hy with h0 | ⟨a, ha, hae⟩
      · refine ⟨d0, hd0, ?_⟩
        have h1 := (hb d0 (hfwd d0 hd0)).2
        have h2 := abs_nonneg d0.y
        simp only at h0
        unfold Problem.get_dependencies_range at h1 ⊢
        omega
      · obtain ⟨d, hd, _, e2⟩ := habs a ha
        exact ⟨d, hd, by rw [e2]; exact hae⟩

/-- The statement of C24 on `line_problem`, whose only declared axis is `(1, 0)`. -/
theorem dependencies_range_max_witness :
    (∃ d ∈ line_rules.get_axes, |d.x| = line_problem.get_dependencies_range.x) ∧
    (∃ d ∈ line_rules.get_axes, |d.y| = line_problem.get_dependencies_range.y) :=
  (dependencies_range_max (Problem.fresh line_rules) line_rules ⟨⟨0, 0⟩, ⟨100, 1⟩⟩).2.2.1
    (by decide)

/-! ## Cell coordinates -/

/-- The coordinate of an id that is not negative, on a rect of positive width. -/
theorem id_to_coord_spec (p : Problem) (hw : 0 < p.rect_.size.x) (id : Int) (h0 : 0 ≤ id) :
    0 ≤ (p.id_to_coord id).x ∧ (p.id_to_coord id).x < p.rect_.size.x ∧
    0 ≤ (p.id_to_coord id).y ∧
    p.coord_to_id (p.id_to_coord id) = id ∧
    (id < p.get_cell_count → (p.id_to_coord id).y < p.rect_.size.y) := by
  have hm0 := Int.emod_nonneg id hw.ne'
  have hm1 := Int.emod_lt_of_pos id hw
  have hd := Int.emod_add_ediv id p.rect_.size.x
  simp only [Problem.id_to_coord, Problem.coord_to_id, Problem.get_cell_count, Rect2i.get_area]
  rw [Int.tmod_eq_emod h0 hw.le, Int.tdiv_eq_ediv h0 hw.le]
  refine ⟨hm0, hm1, Int.ediv_nonneg h0 hw.le, by linarith, ?_⟩
  intro hlt
  exact Int.ediv_lt_of_lt_mul hw (by rw [mul_comm]; exact hlt)

/-- The coordinate of the id of a coordinate inside the grid. -/
theorem id_to_coord_coord_to_id (p : Problem) (q : Vector2i) (hx0 : 0 ≤ q.x)
    (hx : q.x < p.rect_.size.x) (hy0 : 0 ≤ q.y) : p.id_to_coord (p.coord_to_id q) = q := by
  have hw : 0 < p.rect_.size.x := by omega
  have hid : 0 ≤ p.rect_.size.x * q.y + q.x := by positivity
  simp only [Problem.id_to_coord, Problem.coord_to_id]
  rw [Int.tmod_eq_emod hid hw.le, Int.tdiv_eq_ediv hid hw.le]
  cases q with
  | mk x y =>
    simp only at hx0 hx hy0 ⊢
    congr 1
    · rw [Int.add_comm, Int.add_mul_emod_self_left]
      exact Int.emod_eq_of_lt hx0 hx
    · rw [Int.add_comm, Int.add_mul_ediv_left _ _ hw.ne']
      rw [Int.ediv_eq_zero_of_lt hx0 hx]
      simp

/-- The rect test of the neighbour loops, on local coordinates. -/
theorem has_point_local (p : Problem) (q : Vector2i) :
    p.rect_.has_point (q.add p.rect_.position) = true ↔
      0 ≤ q.x ∧ q.x < p.rect_.size.x ∧ 0 ≤ q.y ∧ q.y < p.rect_.size.y := by
  rw [has_point_iff]
  simp only [Vector2i.add]
  omega

/-! ## Related cells -/

/-- C22: `get_related_cells` is the list, in runtime-axis order, of the ids of
the neighbour coordinates `pos + axis` that lie in bounds, as the specification
words it; every returned id is in `[0, cell count)`; `mark_related_cells` calls
`mark_cell` on the same ids in the same order; and for an in-range id on a
rect of positive width `pos` is the grid coordinate whose id is the cell. -/
theorem get_related_cells_refines (p : Problem) (cell_id : Int) :
    p.get_related_cells cell_id = p.related_cells_spec cell_id ∧
    (∀ id ∈ p.get_related_cells cell_id, 0 ≤ id ∧ id < p.get_cell_count) ∧
    p.mark_related_cells cell_id = p.get_related_cells cell_id ∧
    (0 < p.rect_.size.x → 0 ≤ cell_id → cell_id < p.get_cell_count →
      0 ≤ (p.id_to_coord cell_id).x ∧ (p.id_to_coord cell_id).x < p.rect_.size.x ∧
      0 ≤ (p.id_to_coord cell_id).y ∧ (p.id_to_coord cell_id).y < p.rect_.size.y ∧
      p.coord_to_id (p.id_to_coord cell_id) = cell_id) := by
  refine ⟨?_, ?_, rfl, ?_⟩
  · rw [get_related_cells_eq]
    unfold Problem.related_cells_spec
    induction p.axes_ with
    | nil => rfl
    | cons a t ih =>
      simp only [List.filter_cons, List.filterMap_cons]
      by_cases h : p.rect_.has_point (((p.id_to_coord cell_id).add a).add p.rect_.position) = true
      · rw [if_pos h, if_pos ((has_point_local p _).mp h)]
        simp only [List.map_cons]
        rw [ih]
      · rw [if_neg h, if_neg (fun hc => h ((has_point_local p _).mpr hc))]
        exact ih
  · intro id hid
    rw [get_related_cells_eq, List.mem_map] at hid
    obtain ⟨a, ha, rfl⟩ := hid
    rw [List.mem_filter] at ha
    exact coord_to_id_range p _ ha.2
  · intro hw h0 h1
    obtain ⟨a1, a2, a3, a4, a5⟩ := id_to_coord_spec p hw cell_id h0
    exact ⟨a1, a2, a3, a5 h1, a4⟩

/-- The statement of C22 on `left_half_problem`, a 2 by 2 grid, at cell 3. -/
theorem get_related_cells_refines_witness :
    0 ≤ (left_half_problem.id_to_coord 3).x ∧
    (left_half_problem.id_to_coord 3).x < left_half_problem.rect_.size.x ∧
    0 ≤ (left_half_problem.id_to_coord 3).y ∧
    (left_half_problem.id_to_coord 3).y < left_half_problem.rect_.size.y ∧
    left_half_problem.coord_to_id (left_half_problem.id_to_coord 3) = 3 :=
  (get_related_cells_refines left_half_problem 3).2.2.2 (by decide) (by decide) (by decide)

/-! ## Reads of `compute_cell_domain` -/

/-- C28: for a problem of positive width, an in-range cell id and a state whose
domain and solution arrays have one entry per cell, `compute_cell_domain` finds
the cell's own domain and runs its axis loop, and in every iteration of the
loop either the neighbour fails the rect test and nothing is read, or the
index `other_id` lies in `[0, cell count)`, both array reads find their entry,
and the iteration is the rest of the loop body on the values read: the
out-of-bounds outcome of a read is never taken; the position the loop starts
from is the grid coordinate of the cell. -/
theorem compute_cell_domain_reads_in_range (p : Problem) (F : Int) (state : SolverState)
    (cell_id : Int) (hw : 0 < p.rect_.size.x) (h0 : 0 ≤ cell_id)
    (h1 : cell_id < p.get_cell_count)
    (hd : (state.cell_domains.length : Int) = p.get_cell_count)
    (hs : (state.cell_solution_or_entropy.length : Int) = p.get_cell_count) :
    (∃ current_domain, index? state.cell_domains cell_id = some current_domain ∧
      p.compute_cell_domain F state cell_id =
        (List.range p.axes_.length).foldlM
          (fun res i => p.compute_cell_domain_step F state (p.id_to_coord cell_id) res i)
          current_domain.copy) ∧
    (∀ (i : Nat) (axis : Vector2i) (res : BitSet), p.axes_[i]? = some axis →
      (p.rect_.has_point (((p.id_to_coord cell_id).add axis).add p.rect_.position) = false →
        p.compute_cell_domain_step F state (p.id_to_coord cell_id) res i = some res) ∧
      (p.rect_.has_point (((p.id_to_coord cell_id).add axis).add p.rect_.position) = true →
        0 ≤ p.coord_to_id ((p.id_to_coord cell_id).add axis) ∧
        p.coord_to_id ((p.id_to_coord cell_id).add axis) < p.get_cell_count ∧
        ∃ soe other_domain,
          index? state.cell_solution_or_entropy
            (p.coord_to_id ((p.id_to_coord cell_id).add axis)) = some soe ∧
          index? state.cell_domains
            (p.coord_to_id ((p.id_to_coord cell_id).add axis)) = some other_domain ∧
          p.compute_cell_domain_step F state (p.id_to_coord cell_id) res i =
            if soe = F then some res
            else
              match p.axis_matrices_[i]? with
              | none => none
              | some matrix =>
                match matrix.transform other_domain with
                | none => none
                | some transformed => res.intersect_in_place transformed)) ∧
    (0 ≤ (p.id_to_coord cell_id).x ∧ (p.id_to_coord cell_id).x < p.rect_.size.x ∧
      0 ≤ (p.id_to_coord cell_id).y ∧ (p.id_to_coord cell_id).y < p.rect_.size.y ∧
      p.coord_to_id (p.id_to_coord cell_id) = cell_id) := by
  refine ⟨?_, ?_, ?_⟩
  · obtain ⟨d, hdv, _⟩ := index?_isSome state.cell_domains cell_id h0 (by rw [hd]; exact h1)
    refine ⟨d, hdv, ?_⟩
    unfold Problem.compute_cell_domain
    rw [hdv]
  · intro i axis res hax
    constructor
    · intro hp
      unfold Problem.compute_cell_domain_step
      rw [hax]
      simp only [hp, Bool.not_false, if_true]
    · intro hp
      obtain ⟨r0, r1⟩ := coord_to_id_range p _ hp
      obtain ⟨v, hv, _⟩ := index?_isSome state.cell_solution_or_entropy _ r0
        (by rw [hs]; exact r1)
      obtain ⟨d, hdv, _⟩ := index?_isSome state.cell_domains _ r0 (by rw [hd]; exact r1)
      refine ⟨r0, r1, v, d, hv, hdv, ?_⟩
      unfold Problem.compute_cell_domain_step
      rw [hax]
      simp only [hp, Bool.not_true, Bool.false_eq_true, if_false]
      rw [hv, hdv]
  · obtain ⟨a1, a2, a3, a4, a5⟩ := id_to_coord_spec p hw cell_id h0
    exact ⟨a1, a2, a3, a5 h1, a4⟩

/-- The statement of C28 on `left_half_problem` and `left_half_state` at cell
0 and axis index 0, the axis `(1, 0)`, whose neighbour is cell 1. -/
theorem compute_cell_domain_reads_in_range_witness :
    0 ≤ left_half_problem.coord_to_id ((left_half_problem.id_to_coord 0).add ⟨1, 0⟩) ∧
    left_half_problem.coord_to_id ((left_half_problem.id_to_coord 0).add ⟨1, 0⟩)
      < left_half_problem.get_cell_count ∧
    ∃ soe other_domain,
      index? left_half_state.cell_solution_or_entropy
        (left_half_problem.coord_to_id ((left_half_problem.id_to_coord 0).add ⟨1, 0⟩))
        = some soe ∧
      index? left_half_state.cell_domains
        (left_half_problem.coord_to_id ((left_half_problem.id_to_coord 0).add ⟨1, 0⟩))
        = some other_domain ∧
      left_half_problem.compute_cell_domain_step 9223372036854775807 left_half_state
          (left_half_problem.id_to_coord 0) ⟨3, 0, [], 2⟩ 0 =
        if soe = 9223372036854775807 then some ⟨3, 0, [], 2⟩
        else
          match left_half_problem.axis_matrices_[0]? with
          | none => none
          | some matrix =>
            match matrix.transform other_domain with
            | none => none
            | some transformed => (⟨3, 0, [], 2⟩ : BitSet).intersect_in_place transformed :=
  ((compute_cell_domain_reads_in_range left_half_problem 9223372036854775807 left_half_state 0
    (by decide) (by decide) (by decide) (by decide) (by decide)).2.1 0 ⟨1, 0⟩ ⟨3, 0, [], 2⟩
      (by decide)).2 (by decide)

/-! ## Symmetry of the related cells -/

theorem neg_neg_axis (a : Vector2i) : a.neg.neg = a := by
  cases a
  simp [Vector2i.neg]

/-- The runtime axes of an initialised problem are closed under negation. -/
theorem init_axes_neg (self : Problem) (rules : Rules) (rect : Rect2i) (a : Vector2i)
    (h : a ∈ (self.init rules rect).axes_) : a.neg ∈ (self.init rules rect).axes_ := by
  rw [mem_init_axes] at h ⊢
  obtain ⟨d, hd, h | h⟩ := h
  · exact ⟨d, hd, Or.inr (by rw [h])⟩
  · exact ⟨d, hd, Or.inl (by rw [h, neg_neg_axis])⟩

/-- One direction of the symmetry: a related cell of an in-range cell has that
cell among its own related cells, when the axes are closed under negation. -/
theorem related_cells_back (p : Problem) (hneg : ∀ ax ∈ p.axes_, ax.neg ∈ p.axes_)
    (a b : Int) (ha0 : 0 ≤ a) (ha1 : a < p.get_cell_count)
    (h : b ∈ p.get_related_cells a) : a ∈ p.get_related_cells b := by
  rw [get_related_cells_eq, List.mem_map] at h ⊢
  obtain ⟨axis, hax, rfl⟩ := h
  rw [List.mem_filter] at hax
  obtain ⟨hmem, hp⟩ := hax
  have hloc := (has_point_local p _).mp hp
  have hw : 0 < p.rect_.size.x := by omega
  obtain ⟨a1, a2, a3, a4, a5⟩ := id_to_coord_spec p hw a ha0
  have hback : p.id_to_coord (p.coord_to_id ((p.id_to_coord a).add axis))
      = (p.id_to_coord a).add axis :=
    id_to_coord_coord_to_id p _ hloc.1 hloc.2.1 hloc.2.2.1
  have hsum : ((p.id_to_coord a).add axis).add axis.neg = p.id_to_coord a := by
    simp only [Vector2i.add, Vector2i.neg]
    cases hc : p.id_to_coord a
    simp
  refine ⟨axis.neg, ?_, ?_⟩
  · rw [List.mem_filter]
    refine ⟨hneg axis hmem, ?_⟩
    rw [hback, hsum, has_point_local]
    exact ⟨a1, a2, a3, a5 ha1⟩
  · rw [hback, hsum]
    exact a4

/-- C29: for an initialised problem and in-range cell ids `a` and `b`, `b`
occurs in `get_related_cells(a)` if and only if `a` occurs in
`get_related_cells(b)`. -/
theorem related_cells_symmetric (self : Problem) (rules : Rules) (rect : Rect2i) (a b : Int)
    (ha0 : 0 ≤ a) (ha1 : a < (self.init rules rect).get_cell_count)
    (hb0 : 0 ≤ b) (hb1 : b < (self.init rules rect).get_cell_count) :
    b ∈ (self.init rules rect).get_related_cells a ↔
      a ∈ (self.init rules rect).get_related_cells b :=
  ⟨related_cells_back _ (init_axes_neg self rules rect) a b ha0 ha1,
   related_cells_back _ (init_axes_neg self rules rect) b a hb0 hb1⟩

/-- The statement of C29 on `pair_problem` (2 by 1) at the cells 0 and 1. -/
theorem related_cells_symmetric_witness :
    (1 : Int) ∈ pair_problem.get_related_cells 0 ↔ (0 : Int) ∈ pair_problem.get_related_cells 1 :=
  related_cells_symmetric (Problem.fresh line_rules) line_rules ⟨⟨0, 0⟩, ⟨2, 1⟩⟩ 0 1
    (by decide) (by decide) (by decide) (by decide)

/-! ## The AC4 getters on in-range ids -/

/-- The position of an in-range id on a grid of positive width, and the id of
that position. -/
theorem get_cell_pos_spec (axis size : Vector2i) (M : BitMatrix) (to_array : BitSet → List Int)
    (c : Int) (hw : 0 < size.x) (h0 : 0 ≤ c) (h1 : c < size.x * size.y) :
    0 ≤ ((AC4BinaryConstraint.init axis size M to_array).get_cell_pos c).x ∧
    ((AC4BinaryConstraint.init axis size M to_array).get_cell_pos c).x < size.x ∧
    0 ≤ ((AC4BinaryConstraint.init axis size M to_array).get_cell_pos c).y ∧
    ((AC4BinaryConstraint.init axis size M to_array).get_cell_pos c).y < size.y ∧
    ((AC4BinaryConstraint.init axis size M to_array).get_cell_pos c).x
      + ((AC4BinaryConstraint.init axis size M to_array).get_cell_pos c).y * size.x = c := by
  have hm0 := Int.emod_nonneg c hw.ne'
  have hm1 := Int.emod_lt_of_pos c hw
  have hd := Int.emod_add_ediv c size.x
  simp only [AC4BinaryConstraint.get_cell_pos, AC4BinaryConstraint.init]
  rw [Int.tmod_eq_emod h0 hw.le, Int.tdiv_eq_ediv h0 hw.le]
  refine ⟨hm0, hm1, Int.ediv_nonneg h0 hw.le, ?_, by linarith⟩
  exact Int.ediv_lt_of_lt_mul hw (by rw [mul_comm]; exact h1)

/-- The position of the id of a position inside the grid. -/
theorem get_cell_pos_of_id (axis size : Vector2i) (M : BitMatrix) (to_array : BitSet → List Int)
    (q : Vector2i) (hq : (⟨⟨0, 0⟩, size⟩ : Rect2i).has_point q = true) :
    (AC4BinaryConstraint.init axis size M to_array).get_cell_pos (q.x + q.y * size.x) = q := by
  rw [has_point_iff] at hq
  simp only at hq
  have hw : 0 < size.x := by omega
  have hid : 0 ≤ q.x + q.y * size.x := by
    have : 0 ≤ q.y * size.x := mul_nonneg (by omega) hw.le
    omega
  simp only [AC4BinaryConstraint.get_cell_pos, AC4BinaryConstraint.init]
  rw [Int.tmod_eq_emod hid hw.le, Int.tdiv_eq_ediv hid hw.le]
  cases q with
  | mk x y =>
    simp only at hq hid ⊢
    congr 1
    · rw [Int.add_mul_emod_self]
      exact Int.emod_eq_of_lt (by omega) (by omega)
    · rw [Int.add_mul_ediv_right _ _ hw.ne']
      rw [Int.ediv_eq_zero_of_lt (by omega) (by omega)]
      simp

/-- One direction of the inverse relation, for a shift `s` and its opposite. -/
theorem get_cell_id_shift_back (axis size : Vector2i) (M : BitMatrix)
    (to_array : BitSet → List Int) (c : Int) (hw : 0 < size.x) (h0 : 0 ≤ c)
    (h1 : c < size.x * size.y) (s t : Vector2i)
    (hst : ∀ q : Vector2i, (q.add s).add t = q) (d : Int)
    (hd : (AC4BinaryConstraint.init axis size M to_array).get_cell_id
      (((AC4BinaryConstraint.init axis size M to_array).get_cell_pos c).add s) = d)
    (hne : d ≠ -1) :
    (AC4BinaryConstraint.init axis size M to_array).get_cell_id
      (((AC4BinaryConstraint.init axis size M to_array).get_cell_pos d).add t) = c := by
  obtain ⟨e1, e2⟩ := get_cell_id_spec axis size M to_array
    (((AC4BinaryConstraint.init axis size M to_array).get_cell_pos c).add s)
  have hin : (⟨⟨0, 0⟩, size⟩ : Rect2i).has_point
      (((AC4BinaryConstraint.init axis size M to_array).get_cell_pos c).add s) = true := by
    by_contra hc
    simp only [Bool.not_eq_true] at hc
    rw [e1.mpr hc] at hd
    exact hne hd.symm
  have hval := (e2 hin).1
  rw [hd] at hval
  rw [hval, get_cell_pos_of_id axis size M to_array _ hin, hst]
  obtain ⟨a1, a2, a3, a4, a5⟩ := get_cell_pos_spec axis size M to_array c hw h0 h1
  have hpos : (⟨⟨0, 0⟩, size⟩ : Rect2i).has_point
      ((AC4BinaryConstraint.init axis size M to_array).get_cell_pos c) = true := by
    rw [has_point_iff]
    simp only
    omega
  rw [((get_cell_id_spec axis size M to_array _).2 hpos).1]
  exact a5

/-- C30: for an AC4 constraint over a grid of positive width and an in-range
cell id `c`, `get_dependency(c)` is the row-major id of the cell at
`pos(c) + axis` when that cell is inside the grid and -1 otherwise,
`get_dependent(c)` likewise for `pos(c) - axis`, and the two are mutually
inverse wherever they do not return -1. -/
theorem dependency_dependent_inverse (axis size : Vector2i) (M : BitMatrix)
    (to_array : BitSet → List Int) (c : Int) (hw : 0 < size.x) (h0 : 0 ≤ c)
    (h1 : c < size.x * size.y) :
    ((AC4BinaryConstraint.init axis size M to_array).get_dependency c =
      if (⟨⟨0, 0⟩, size⟩ : Rect2i).has_point
          (((AC4BinaryConstraint.init axis size M to_array).get_cell_pos c).add axis) then
        (((AC4BinaryConstraint.init axis size M to_array).get_cell_pos c).add axis).x
          + (((AC4BinaryConstraint.init axis size M to_array).get_cell_pos c).add axis).y * size.x
      else -1) ∧
    ((AC4BinaryConstraint.init axis size M to_array).get_dependent c =
      if (⟨⟨0, 0⟩, size⟩ : Rect2i).has_point
          (((AC4BinaryConstraint.init axis size M to_array).get_cell_pos c).sub axis) then
        (((AC4BinaryConstraint.init axis size M to_array).get_cell_pos c).sub axis).x
          + (((AC4BinaryConstraint.init axis size M to_array).get_cell_pos c).sub axis).y * size.x
      else -1) ∧
    ((AC4BinaryConstraint.init axis size M to_array).get_cell_pos c
      = ⟨c % size.x, c / size.x⟩) ∧
    (∀ d : Int, (AC4BinaryConstraint.init axis size M to_array).get_dependency c = d → d ≠ -1 →
      (AC4BinaryConstraint.init axis size M to_array).get_dependent d = c) ∧
    (∀ d : Int, (AC4BinaryConstraint.init axis size M to_array).get_dependent c = d → d ≠ -1 →
      (AC4BinaryConstraint.init axis size M to_array).get_dependency d = c) := by
  have hsub : ∀ q : Vector2i, q.sub axis = q.add axis.neg := by
    intro q
    simp only [Vector2i.sub, Vector2i.add, Vector2i.neg]
    congr 1
  have hax : (AC4BinaryConstraint.init axis size M to_array).axis_ = axis := rfl
  refine ⟨rfl, rfl, ?_, ?_, ?_⟩
  · simp only [AC4BinaryConstraint.get_cell_pos, AC4BinaryConstraint.init]
    rw [Int.tmod_eq_emod h0 hw.le, Int.tdiv_eq_ediv h0 hw.le]
  · intro d hd hne
    unfold AC4BinaryConstraint.get_dependency at hd
    unfold AC4BinaryConstraint.get_dependent
    rw [hax] at hd ⊢
    rw [hsub]
    exact get_cell_id_shift_back axis size M to_array c hw h0 h1 axis axis.neg
      (fun q => by cases q; simp [Vector2i.add, Vector2i.neg]) d hd hne
  · intro d hd hne
    unfold AC4BinaryConstraint.get_dependent at hd
    unfold AC4BinaryConstraint.get_dependency
    rw [hax] at hd ⊢
    rw [hsub] at hd
    exact get_cell_id_shift_back axis size M to_array c hw h0 h1 axis.neg axis
      (fun q => by cases q; simp [Vector2i.add, Vector2i.neg]) d hd hne

/-- The statement of C30 on `square_constraint`, the constraint of axis `(1, 0)`
on a 2 by 2 grid, at cell 2, whose dependency is cell 3. -/
theorem dependency_dependent_inverse_witness :
    square_constraint.get_dependent 3 = 2 :=
  (dependency_dependent_inverse ⟨1, 0⟩ ⟨2, 2⟩ ⟨2, [⟨1, 0, [], 2⟩, ⟨2, 0, [], 2⟩]⟩ (fun _ => []) 2
    (by decide) (by decide) (by decide)).2.2.2.1 3 (by decide) (by decide)

/-! ## Rects of the sub-problems -/

theorem split_read_rects_edges (result : List SubProblem) (i : Nat) (s : SubProblem) :
    (Problem.split_read_rects result i s).problem.edges_rect_ = s.problem.edges_rect_ := by
  unfold Problem.split_read_rects
  split_ifs <;> rfl

/-- The rects of entry `i` of a split result with three or more sub-problems. -/
theorem split_entry_rects (p : Problem) (limit : Int) (i : Nat) (sub : SubProblem)
    (h3 : 3 ≤ (p.split limit).length) (h : (p.split limit)[i]? = some sub) :
    ∃ axis, 2 ≤ limit ∧ p.choose_split_axis = some axis ∧
      (p.split limit).length = (p.split_rects limit axis).length ∧
      sub.problem.rect_ =
        p.sub_rect (p.extra_overlap axis) i ((p.split_rects limit axis).getD i Rect2i.zero) ∧
      sub.problem.renderable_rect_ =
        p.sub_renderable_rect ((p.split_rects limit axis).getD i Rect2i.zero) ∧
      sub.problem.edges_rect_ = p.edges_rect_ := by
  rcases split_cases p limit with hs | ⟨axis, hl, hax, hr3, hs⟩
  · rw [hs] at h3
    simp at h3
  · have hlen : (p.split limit).length = (p.split_rects limit axis).length := by
      rw [hs]; simp
    have hi : i < (p.split_rects limit axis).length := by
      rw [← hlen]
      exact (List.getElem?_eq_some_iff.mp h).1
    have hsub := split_entry p limit axis hs i hi
    rw [h] at hsub
    simp only [Option.some.injEq] at hsub
    refine ⟨axis, hl, hax, hlen, ?_, ?_, ?_⟩
    · rw [hsub, split_read_rects_rect]
      rfl
    · rw [hsub, split_read_rects_renderable]
      rfl
    · rw [hsub, split_read_rects_edges]
      rfl

/-- The band rects are built from consecutive boundaries. -/
theorem split_rects_getD (p : Problem) (limit : Int) (axis : SplitAxis) (i : Nat)
    (hi : i < (p.split_rects limit axis).length) :
    (p.split_rects limit axis).getD i Rect2i.zero
      = p.band_rect (p.split_partitions limit axis) i axis ∧
    i + 1 < (p.split_partitions limit axis).length := by
  unfold Problem.split_rects at hi ⊢
  simp only [List.length_map, List.length_range] at hi ⊢
  refine ⟨?_, by omega⟩
  rw [List.getD_eq_getElem?_getD, List.getElem?_map, List.getElem?_range hi]
  rfl

/-- An intersection is the zero rect or lies inside its first operand. -/
theorem intersection_cases (r o : Rect2i) :
    r.intersection o = Rect2i.zero ∨
    (r.position.x ≤ (r.intersection o).position.x ∧
      (r.intersection o).position.x + (r.intersection o).size.x ≤ r.position.x + r.size.x ∧
      r.position.y ≤ (r.intersection o).position.y ∧
      (r.intersection o).position.y + (r.intersection o).size.y ≤ r.position.y + r.size.y) := by
  unfold Rect2i.intersection
  by_cases h : r.intersects o = true
  · right
    simp only [h, Bool.not_true, Bool.false_eq_true, if_false]
    refine ⟨le_max_right _ _, ?_, le_max_right _ _, ?_⟩
    · have := min_le_right (o.position.x + o.size.x) (r.position.x + r.size.x)
      omega
    · have := min_le_right (o.position.y + o.size.y) (r.position.y + r.size.y)
      omega
  · left
    simp only [Bool.not_eq_true] at h
    simp [h]

/-- The halves of the dependency range add up to it. -/
theorem overlap_sum (d : Int) (hd : 0 ≤ d) :
    0 ≤ d.tdiv 2 ∧ 0 ≤ d.tmod 2 ∧ d.tdiv 2 + (d.tdiv 2 + d.tmod 2) = d := by
  rw [Int.tdiv_eq_ediv hd (by decide), Int.tmod_eq_emod hd (by decide)]
  omega

/-- A point of the rect of an even-indexed sub-problem of a split along X lies
in the problem's rect and, along X, within the band widened by the overlap and
the extra overlap. -/
theorem sub_rect_even_bounds_x (p : Problem) (base : Rect2i) (ex : Int) (i : Nat)
    (hi : i % 2 = 0) (pt : Vector2i)
    (h : (p.sub_rect ⟨ex, 0⟩ i base).has_point pt = true) :
    p.rect_.has_point pt = true ∧
    base.position.x - p.get_dependencies_range.x.tdiv 2 - ex ≤ pt.x ∧
    pt.x < base.position.x + base.size.x
      + (p.get_dependencies_range.x.tdiv 2 + p.get_dependencies_range.x.tmod 2) + ex := by
  unfold Problem.sub_rect at h
  simp only [hi, if_true] at h
  rw [has_point_intersection] at h
  refine ⟨h.2, ?_⟩
  have h1 := h.1
  rw [has_point_iff] at h1
  simp only at h1
  unfold Problem.sub_renderable_rect at h1
  simp only at h1
  rcases intersection_cases
    (⟨⟨base.position.x - (p.get_dependencies_range.div 2).x,
        base.position.y - (p.get_dependencies_range.div 2).y⟩,
      ⟨base.size.x + ((p.get_dependencies_range.div 2).x +
          ((p.get_dependencies_range.div 2).add
            ⟨p.get_dependencies_range.x.tmod 2, p.get_dependencies_range.y.tmod 2⟩).x),
        base.size.y + ((p.get_dependencies_range.div 2).y +
          ((p.get_dependencies_range.div 2).add
            ⟨p.get_dependencies_range.x.tmod 2, p.get_dependencies_range.y.tmod 2⟩).y)⟩⟩ : Rect2i)
    p.rect_ with hz | hb
  · rw [hz] at h1
    simp only [Rect2i.zero] at h1
    omega
  · simp only [Vector2i.div, Vector2i.add] at hb h1
    omega

/-- A point of the rect of an even-indexed sub-problem of a split along Y lies
in the problem's rect and, along Y, within the band widened by the overlap and
the extra overlap. -/
theorem sub_rect_even_bounds_y (p : Problem) (base : Rect2i) (ey : Int) (i : Nat)
    (hi : i % 2 = 0) (pt : Vector2i)
    (h : (p.sub_rect ⟨0, ey⟩ i base).has_point pt = true) :
    p.rect_.has_point pt = true ∧
    base.position.y - p.get_dependencies_range.y.tdiv 2 - ey ≤ pt.y ∧
    pt.y < base.position.y + base.size.y
      + (p.get_dependencies_range.y.tdiv 2 + p.get_dependencies_range.y.tmod 2) + ey := by
  unfold Problem.sub_rect at h
  simp only [hi, if_true] at h
  rw [has_point_intersection] at h
  refine ⟨h.2, ?_⟩
  have h1 := h.1
  rw [has_point_iff] at h1
  simp only at h1
  unfold Problem.sub_renderable_rect at h1
  simp only at h1
  rcases intersection_cases
    (⟨⟨base.position.x - (p.get_dependencies_range.div 2).x,
        base.position.y - (p.get_dependencies_range.div 2).y⟩,
      ⟨base.size.x + ((p.get_dependencies_range.div 2).x +
          ((p.get_dependencies_range.div 2).add
            ⟨p.get_dependencies_range.x.tmod 2, p.get_dependencies_range.y.tmod 2⟩).x),
        base.size.y + ((p.get_dependencies_range.div 2).y +
          ((p.get_dependencies_range.div 2).add
            ⟨p.get_dependencies_range.x.tmod 2, p.get_dependencies_range.y.tmod 2⟩).y)⟩⟩ : Rect2i)
    p.rect_ with hz | hb
  · rw [hz] at h1
    simp only [Rect2i.zero] at h1
    omega
  · simp only [Vector2i.div, Vector2i.add] at hb h1
    omega

/-- Boundaries two or more bands apart are at least one minimum band width
apart. -/
theorem split_range_gap (first size partitions m : Int) (hs : 0 ≤ size) (hp : 1 ≤ partitions)
    (i j : Nat) (hij : i + 2 ≤ j) (hj : j < (split_range first size partitions m).length) :
    (split_range first size partitions m).getD (i + 1) 0 + m
      ≤ (split_range first size partitions m).getD j 0 := by
  have hn : 0 < partitions.toNat := by omega
  have hsr : split_range first size partitions m
      = split_range_rec first size m partitions.toNat := by
    unfold split_range
    rw [if_neg (by omega)]
  rw [hsr] at hj ⊢
  have h1 := split_range_rec_bands first size m hs partitions.toNat (by omega) (i + 1)
    (by omega)
  have h2 := split_range_rec_mono first size m hs partitions.toNat hn (i + 2) j hij hj
  have e : i + 1 + 1 = i + 2 := rfl
  rw [e] at h1
  omega

/-- The rects of two even-indexed sub-problems `i < j` share no grid point. -/
theorem even_rects_disjoint_lt (p : Problem) (limit : Int) (i j : Nat) (si sj : SubProblem)
    (h3 : 3 ≤ (p.split limit).length)
    (hi : (p.split limit)[i]? = some si) (hj : (p.split limit)[j]? = some sj)
    (hie : i % 2 = 0) (hje : j % 2 = 0) (hlt : i < j) (pt : Vector2i)
    (h1 : si.problem.rect_.has_point pt = true) (h2 : sj.problem.rect_.has_point pt = true) :
    False := by
  obtain ⟨axis, hl, hax, hlen, hri, _, _⟩ := split_entry_rects p limit i si h3 hi
  obtain ⟨axis2, _, hax2, _, hrj, _, _⟩ := split_entry_rects p limit j sj h3 hj
  rw [hax] at hax2
  simp only [Option.some.injEq] at hax2
  subst hax2
  have hil : i < (p.split_rects limit axis).length := by
    rw [← hlen]
    exact (List.getElem?_eq_some_iff.mp hi).1
  have hjl : j < (p.split_rects limit axis).length := by
    rw [← hlen]
    exact (List.getElem?_eq_some_iff.mp hj).1
  obtain ⟨hbi, hpi⟩ := split_rects_getD p limit axis i hil
  obtain ⟨hbj, hpj⟩ := split_rects_getD p limit axis j hjl
  rw [hri, hbi] at h1
  rw [hrj, hbj] at h2
  obtain ⟨hdx, hdy⟩ := get_dependencies_range_nonneg p
  cases axis with
  | X =>
    obtain ⟨hr, _, hhi⟩ := sub_rect_even_bounds_x p _ _ i hie pt h1
    obtain ⟨_, hlo, _⟩ := sub_rect_even_bounds_x p _ _ j hje pt h2
    rw [has_point_iff] at hr
    have hpj2 : j + 1 < (split_range p.rect_.position.x p.rect_.size.x (limit * 2)
        (p.get_dependencies_range.x + (p.extra_overlap SplitAxis.X).x * 2)).length := hpj
    have hgap := split_range_gap p.rect_.position.x p.rect_.size.x (limit * 2)
      (p.get_dependencies_range.x + (p.extra_overlap SplitAxis.X).x * 2)
      (by omega) (by omega) i j (by omega) (by omega)
    obtain ⟨_, _, hsum⟩ := overlap_sum p.get_dependencies_range.x hdx
    simp only [Problem.band_rect, Problem.split_partitions, Problem.extra_overlap] at hhi hlo hgap
    omega
  | Y =>
    obtain ⟨hr, _, hhi⟩ := sub_rect_even_bounds_y p _ _ i hie pt h1
    obtain ⟨_, hlo, _⟩ := sub_rect_even_bounds_y p _ _ j hje pt h2
    rw [has_point_iff] at hr
    have hpj2 : j + 1 < (split_range p.rect_.position.y p.rect_.size.y (limit * 2)
        (p.get_dependencies_range.y + (p.extra_overlap SplitAxis.Y).y * 2)).length := hpj
    have hgap := split_range_gap p.rect_.position.y p.rect_.size.y (limit * 2)
      (p.get_dependencies_range.y + (p.extra_overlap SplitAxis.Y).y * 2)
      (by omega) (by omega) i j (by omega) (by omega)
    obtain ⟨_, _, hsum⟩ := overlap_sum p.get_dependencies_range.y hdy
    simp only [Problem.band_rect, Problem.split_partitions, Problem.extra_overlap] at hhi hlo hgap
    omega

/-- C25: in a split result with three or more sub-problems the solvable rects
of two distinct even-indexed sub-problems share no grid cell. -/
theorem even_rects_disjoint (p : Problem) (limit : Int) (i j : Nat) (si sj : SubProblem)
    (h3 : 3 ≤ (p.split limit).length)
    (hi : (p.split limit)[i]? = some si) (hj : (p.split limit)[j]? = some sj)
    (hie : i % 2 = 0) (hje : j % 2 = 0) (hne : i ≠ j) (pt : Vector2i) :
    ¬ (si.problem.rect_.has_point pt = true ∧ sj.problem.rect_.has_point pt = true) := by
  rintro ⟨h1, h2⟩
  rcases Nat.lt_or_gt_of_ne hne with hlt | hgt
  · exact even_rects_disjoint_lt p limit i j si sj h3 hi hj hie hje hlt pt h1 h2
  · exact even_rects_disjoint_lt p limit j i sj si h3 hj hi hje hie hgt pt h2 h1

/-- An index below the length reads the entry that `getD` returns. -/
theorem getElem?_getD_of_lt {α : Type} (l : List α) (i : Nat) (d : α) (h : i < l.length) :
    l[i]? = some (l.getD i d) := by
  rw [List.getD_eq_getElem?_getD, List.getElem?_eq_getElem h]
  rfl

/-- The statement of C25 on `strip_problem`, which `split(4)` cuts along X into
8 bands, at the sub-problems 0 and 2 and the grid point `(14, 0)`. -/
theorem even_rects_disjoint_witness :
    ¬ (((strip_problem.split 4).getD 0 strip_problem.single_sub_problem).problem.rect_.has_point
          ⟨14, 0⟩ = true ∧
       ((strip_problem.split 4).getD 2 strip_problem.single_sub_problem).problem.rect_.has_point
          ⟨14, 0⟩ = true) :=
  even_rects_disjoint strip_problem 4 0 2 _ _ (by decide)
    (getElem?_getD_of_lt _ 0 _ (by decide)) (getElem?_getD_of_lt _ 2 _ (by decide))
    (by decide) (by decide) (by decide) ⟨14, 0⟩

/-- With an extra overlap that is not negative, the rect of a sub-problem
contains its renderable rect. -/
theorem renderable_subset_sub_rect (p : Problem) (e : Vector2i) (hex : 0 ≤ e.x)
    (hey : 0 ≤ e.y) (i : Nat) (base : Rect2i) (pt : Vector2i)
    (hp : (p.sub_renderable_rect base).has_point pt = true) :
    (p.sub_rect e i base).has_point pt = true := by
  unfold Problem.sub_rect
  simp only
  split_ifs with hev
  · rw [has_point_intersection]
    refine ⟨?_, sub_renderable_rect_subset _ _ pt hp⟩
    rw [has_point_iff] at hp ⊢
    simp only
    omega
  · exact hp

/-- The extra overlap is not negative when the influence range is not. -/
theorem extra_overlap_nonneg (p : Problem) (axis : SplitAxis)
    (hix : 0 ≤ p.rules_.influence_range.x) (hiy : 0 ≤ p.rules_.influence_range.y) :
    0 ≤ (p.extra_overlap axis).x ∧ 0 ≤ (p.extra_overlap axis).y := by
  cases axis <;> simp only [Problem.extra_overlap] <;> omega

/-- C27, as the code has it: for a freshly initialised problem whose rules
have an influence range that is not negative, every sub-problem returned by
`split` has its renderable rect inside its rect and its rect inside the
original rect, as sets of grid points; its edges rect is the original edges
rect; and an odd-indexed sub-problem has its rect equal to its renderable
rect. -/
theorem split_rects_nested (self : Problem) (rules : Rules) (rect : Rect2i) (limit : Int)
    (i : Nat) (sub : SubProblem)
    (hix : 0 ≤ rules.influence_range.x) (hiy : 0 ≤ rules.influence_range.y)
    (h : ((self.init rules rect).split limit)[i]? = some sub) :
    (∀ pt : Vector2i, sub.problem.renderable_rect_.has_point pt = true →
      sub.problem.rect_.has_point pt = true) ∧
    (∀ pt : Vector2i, sub.problem.rect_.has_point pt = true → rect.has_point pt = true) ∧
    sub.problem.edges_rect_ = (self.init rules rect).edges_rect_ ∧
    (i % 2 = 1 → sub.problem.rect_ = sub.problem.renderable_rect_) := by
  have hrect : (self.init rules rect).rect_ = rect := rfl
  have hrules : (self.init rules rect).rules_ = rules := rfl
  by_cases h3 : 3 ≤ ((self.init rules rect).split limit).length
  · obtain ⟨axis, _, _, _, hr, hrr, he⟩ :=
      split_entry_rects (self.init rules rect) limit i sub h3 h
    rw [hr, hrr, he]
    refine ⟨?_, ?_, rfl, ?_⟩
    · intro pt hp
      obtain ⟨e1, e2⟩ := extra_overlap_nonneg (self.init rules rect) axis hix hiy
      exact renderable_subset_sub_rect _ _ e1 e2 i _ pt hp
    · intro pt hp
      unfold Problem.sub_rect at hp
      simp only at hp
      split_ifs at hp with hev
      · rw [has_point_intersection] at hp
        exact hp.2
      · exact sub_renderable_rect_subset _ _ pt hp
    · intro hodd
      unfold Problem.sub_rect
      simp only
      rw [if_neg (by omega)]
  · rcases split_cases (self.init rules rect) limit with hs | ⟨axis, _, _, hr3, hs⟩
    · rw [hs] at h
      have hi0 : i = 0 := by
        have := (List.getElem?_eq_some_iff.mp h).1
        simpa using this
      subst hi0
      simp only [List.getElem?_cons_zero, Option.some.injEq] at h
      subst h
      exact ⟨fun pt hp => hp, fun pt hp => hp, rfl, fun h1 => by omega⟩
    · exfalso
      apply h3
      rw [hs]
      simpa using hr3

/-- The statement of C27 on `strip_problem` at the sub-problem 0 and the grid
point `(12, 0)` of its renderable rect. -/
theorem split_rects_nested_witness :
    ((strip_problem.split 4).getD 0
      strip_problem.single_sub_problem).problem.rect_.has_point ⟨12, 0⟩ = true :=
  (split_rects_nested (Problem.fresh strip_rules) strip_rules ⟨⟨0, 0⟩, ⟨100, 1⟩⟩ 4 0 _
    (by decide) (by decide) (getElem?_getD_of_lt _ 0 _ (by decide))).1 ⟨12, 0⟩ (by decide)

/-- C27 as stated fails: with the influence range `(-1, 0)` the extra overlap
is negative, and the rect of sub-problem 0 of `split(4)` on the 100 by 1
problem is `[2, 11)` along X while its renderable rect is `[0, 13)`: the grid
point `(0, 0)` lies in the renderable rect and not in the rect. -/
theorem split_rects_nested_counterexample :
    shrink_problem = (Problem.fresh shrink_rules).init shrink_rules ⟨⟨0, 0⟩, ⟨100, 1⟩⟩ ∧
    (shrink_problem.split 4).length = 8 ∧
    ((shrink_problem.split 4).getD 0 shrink_problem.single_sub_problem).problem.rect_
      = ⟨⟨2, 0⟩, ⟨9, 1⟩⟩ ∧
    ((shrink_problem.split 4).getD 0 shrink_problem.single_sub_problem).problem.renderable_rect_
      = ⟨⟨0, 0⟩, ⟨13, 1⟩⟩ ∧
    ((shrink_problem.split 4).getD 0
      shrink_problem.single_sub_problem).problem.renderable_rect_.has_point ⟨0, 0⟩ = true ∧
    ((shrink_problem.split 4).getD 0
      shrink_problem.single_sub_problem).problem.rect_.has_point ⟨0, 0⟩ = false := by
  refine ⟨rfl, ?_, ?_, ?_, ?_, ?_⟩ <;> decide

/-! ## Precondition setters -/

/-- The calls of `populate_initial_state` as a list over the column-major cells. -/
theorem populate_initial_state_eq (p : Problem) :
    p.populate_initial_state =
      (column_major_cells p.rect_.size.x p.rect_.size.y).filterMap p.cell_call := by
  unfold Problem.populate_initial_state column_major_cells
  simp only
  by_cases hw : 0 ≤ p.rect_.size.x
  · rw [populate_columns p p.rect_.size.x hw _ _
      (fun x hx => by rw [mem_loop_range] at hx; omega)
      (fun y hy => by rw [mem_loop_range] at hy; omega)]
    simp
  · have hempty : loop_range 0 p.rect_.size.x = [] := by
      unfold loop_range
      have : p.rect_.size.x.toNat = 0 := by omega
      rw [this]
      rfl
    rw [hempty]
    rfl

/-- Two problems on the same rect whose visited cells have the same pre-solved
tile and the same precondition domain issue the same calls. -/
theorem populate_initial_state_congr (p q : Problem) (hr : q.rect_ = p.rect_)
    (hs : ∀ c : Nat, (c : Int) < p.get_cell_count →
      q.precondition_solution_at c = p.precondition_solution_at c)
    (hd : ∀ c : Nat, (c : Int) < p.get_cell_count →
      q.precondition_domains_.getD c none = p.precondition_domains_.getD c none) :
    q.populate_initial_state = p.populate_initial_state := by
  rw [populate_initial_state_eq, populate_initial_state_eq, hr]
  apply List.filterMap_congr
  intro c hc
  have hc2 := (mem_column_major_cells _ _ c).mp hc
  obtain ⟨x, y, hx0, hx1, hy0, hy1, rfl⟩ := hc2
  have hw : 0 ≤ p.rect_.size.x := by omega
  have hrange := (mem_column_major_cells_range _ _ _ hw).mp hc
  have hlt : ((y * p.rect_.size.x + x).toNat : Int) < p.get_cell_count := by
    have : p.get_cell_count = p.rect_.size.x * p.rect_.size.y := rfl
    omega
  unfold Problem.cell_call
  rw [hs _ hlt, hd _ hlt]

/-- An out-of-range call of `set_precondition_solution` on a problem whose
solution array is unallocated or has one entry per cell changes no pre-solved
tile. -/
theorem set_precondition_solution_out (t : Problem) (id v : Int) (hW : t.solutions_allocated)
    (hout : ¬ (0 ≤ id ∧ id < t.get_cell_count)) (c : Nat) :
    (t.set_precondition_solution id v).precondition_solution_at c =
      t.precondition_solution_at c := by
  unfold Problem.set_precondition_solution Problem.precondition_solution_at
  simp only [ge_iff_le, hout, if_false]
  split_ifs with hlen
  · have hzero : t.precondition_solutions_ = [] := by
      rcases hW with h | h
      · exact List.length_eq_zero.mp h
      · exact absurd h hlen
    rw [hzero]
    simp only [List.getD_eq_getElem?_getD, List.getElem?_replicate]
    split_ifs <;> simp
  · rfl

/-- A call of `set_precondition_domain` on a problem whose solution array is
unallocated or has one entry per cell changes no pre-solved tile. -/
theorem set_precondition_domain_solutions (t : Problem) (id : Int) (d : Option BitSet)
    (hW : t.solutions_allocated) (c : Nat) :
    (t.set_precondition_domain id d).precondition_solution_at c =
      t.precondition_solution_at c := by
  unfold Problem.set_precondition_domain Problem.precondition_solution_at
  simp only
  split_ifs with hlen
  · have hzero : t.precondition_solutions_ = [] := by
      rcases hW with h | h
      · exact List.length_eq_zero.mp h
      · exact absurd h hlen
    rw [hzero]
    simp only [List.getD_eq_getElem?_getD, List.getElem?_replicate]
    split_ifs <;> simp
  · rfl

/-- An out-of-range call of `set_precondition_domain` changes the precondition
domain of no cell. -/
theorem set_precondition_domain_out (t : Problem) (id : Int) (d : Option BitSet)
    (hout : ¬ (0 ≤ id ∧ id < t.get_cell_count)) (c : Nat)
    (hc : (c : Int) < t.get_cell_count) :
    (t.set_precondition_domain id d).precondition_domains_.getD c none =
      t.precondition_domains_.getD c none := by
  unfold Problem.set_precondition_domain
  simp only [ge_iff_le, hout, if_false]
  split_ifs
  · exact resize_domains_getD _ _ _ (by omega)
  · rfl

/-- C21, as the code has it: on a problem whose precondition-solution array
is unallocated or has one entry per cell, a call of `set_precondition_domain`
or `set_precondition_solution` with a cell id outside `[0, cell count)` leaves
the pre-solved tile and the precondition domain of every cell as they were,
and `populate_initial_state` issues the same calls after it as before it; a
call of `set_precondition_solution` with an in-range cell id changes the
pre-solved tile of that cell only, and no precondition domain. -/
theorem precondition_setters_out_of_range (t : Problem) (hW : t.solutions_allocated) :
    (∀ (cell_id : Int) (d : Option BitSet) (s : Int),
      ¬ (0 ≤ cell_id ∧ cell_id < t.get_cell_count) →
      (t.set_precondition_domain cell_id d).populate_initial_state = t.populate_initial_state ∧
      (t.set_precondition_solution cell_id s).populate_initial_state
        = t.populate_initial_state ∧
      (∀ c : Nat,
        (t.set_precondition_domain cell_id d).precondition_solution_at c
          = t.precondition_solution_at c ∧
        (t.set_precondition_solution cell_id s).precondition_solution_at c
          = t.precondition_solution_at c) ∧
      (∀ c : Nat, (c : Int) < t.get_cell_count →
        (t.set_precondition_domain cell_id d).precondition_domains_.getD c none
          = t.precondition_domains_.getD c none ∧
        (t.set_precondition_solution cell_id s).precondition_domains_.getD c none
          = t.precondition_domains_.getD c none)) ∧
    (∀ (cell_id s : Int), 0 ≤ cell_id → cell_id < t.get_cell_count →
      (∀ c : Nat,
        (t.set_precondition_solution cell_id s).precondition_solution_at c =
          if c = cell_id.toNat then s else t.precondition_solution_at c) ∧
      (∀ c : Nat, (c : Int) < t.get_cell_count →
        (t.set_precondition_solution cell_id s).precondition_domains_.getD c none
          = t.precondition_domains_.getD c none)) := by
  constructor
  · intro cell_id d s hout
    refine ⟨?_, ?_, ?_, ?_⟩
    · exact populate_initial_state_congr t _ rfl
        (fun c _ => set_precondition_domain_solutions t cell_id d hW c)
        (fun c hc => set_precondition_domain_out t cell_id d hout c hc)
    · exact populate_initial_state_congr t _ rfl
        (fun c _ => set_precondition_solution_out t cell_id s hW hout c)
        (fun c hc => set_precondition_solution_domains t cell_id s c hc)
    · intro c
      exact ⟨set_precondition_domain_solutions t cell_id d hW c,
        set_precondition_solution_out t cell_id s hW hout c⟩
    · intro c hc
      exact ⟨set_precondition_domain_out t cell_id d hout c hc,
        set_precondition_solution_domains t cell_id s c hc⟩
  · intro cell_id s h0 h1
    exact ⟨(set_precondition_solution_spec t cell_id s hW h0 h1).2.2,
      fun c hc => set_precondition_solution_domains t cell_id s c hc⟩

/-- The statement of C21 on `preset_problem`, a 2 by 2 problem with allocated
arrays, at the cell id 4. -/
theorem precondition_setters_out_of_range_witness :
    (preset_problem.set_precondition_domain 4 none).populate_initial_state
      = preset_problem.populate_initial_state ∧
    (preset_problem.set_precondition_solution 4 1).populate_initial_state
      = preset_problem.populate_initial_state :=
  have h := (precondition_setters_out_of_range preset_problem (Or.inr (by decide))).1 4 none 1
    (by decide)
  ⟨h.1, h.2.1⟩

/-- C21 as stated fails: `reinit_problem` has two cells and a solution array of
one entry, which pre-solves cell 0 with tile 7.  The id -1 is out of range, and
both setters called with it refill the solution array with -1:
`populate_initial_state` issued `set_solution(0, 7)` before and issues nothing
after.  The in-range call `set_precondition_solution(1, 5)` also resets the
pre-solved tile of cell 0. -/
theorem precondition_setters_counterexample :
    reinit_problem.get_cell_count = 2 ∧
    reinit_problem.populate_initial_state = [StateCall.set_solution 0 7] ∧
    (reinit_problem.set_precondition_solution (-1) 3).populate_initial_state = [] ∧
    (reinit_problem.set_precondition_domain (-1) none).populate_initial_state = [] ∧
    reinit_problem.precondition_solution_at 0 = 7 ∧
    (reinit_problem.set_precondition_solution 1 5).precondition_solution_at 0 = -1 := by
  refine ⟨?_, ?_, ?_, ?_, ?_, ?_⟩ <;> decide

/-! ## Iteration over the set bits -/

/-- The trailing-zero count of a word that is not zero is the index of its
lowest set bit. -/
theorem ctz_loop_spec (fuel w : Nat) (hw : w ≠ 0) (hlt : w < 2 ^ fuel) :
    ctz_loop fuel w < fuel ∧ w.testBit (ctz_loop fuel w) = true ∧
    ∀ j : Nat, j < ctz_loop fuel w → w.testBit j = false := by
  induction fuel generalizing w with
  | zero =>
    simp at hlt
    exact absurd hlt hw
  | succ f ih =>
    unfold ctz_loop
    by_cases h : w % 2 = 1
    · rw [if_pos h]
      refine ⟨by omega, ?_, fun j hj => absurd hj (Nat.not_lt_zero j)⟩
      rw [Nat.testBit_zero]
      simp [h]
    · rw [if_neg h]
      have hw2 : w / 2 ≠ 0 := by omega
      have hlt2 : w / 2 < 2 ^ f := by
        rw [Nat.pow_succ] at hlt
        omega
      obtain ⟨a1, a2, a3⟩ := ih (w / 2) hw2 hlt2
      refine ⟨by omega, ?_, ?_⟩
      · rw [Nat.add_comm, Nat.testBit_add_one]
        exact a2
      · intro j hj
        cases j with
        | zero =>
          rw [Nat.testBit_zero]
          simp [h]
        | succ j2 =>
          rw [Nat.testBit_add_one]
          exact a3 j2 (by omega)

/-- Clearing with `word & (word - 1)` removes the lowest set bit and no other. -/
theorem clear_lowest_testBit (fuel w : Nat) (hw : w ≠ 0) (hlt : w < 2 ^ fuel) (j : Nat) :
    (w &&& (w - 1)).testBit j = (w.testBit j && decide (j ≠ ctz_loop fuel w)) := by
  rw [Nat.testBit_and]
  induction fuel generalizing w j with
  | zero =>
    simp at hlt
    exact absurd hlt hw
  | succ f ih =>
    unfold ctz_loop
    by_cases h : w % 2 = 1
    · rw [if_pos h]
      cases j with
      | zero =>
        rw [Nat.testBit_zero (w - 1)]
        have : ¬ (w - 1) % 2 = 1 := by omega
        simp [this]
      | succ j2 =>
        rw [Nat.testBit_add_one, Nat.testBit_add_one]
        have : (w - 1) / 2 = w / 2 := by omega
        rw [this]
        simp
    · rw [if_neg h]
      have hw2 : w / 2 ≠ 0 := by omega
      have hlt2 : w / 2 < 2 ^ f := by
        rw [Nat.pow_succ] at hlt
        omega
      cases j with
      | zero =>
        rw [Nat.testBit_zero w]
        simp [h]
      | succ j2 =>
        rw [Nat.testBit_add_one, Nat.testBit_add_one]
        have : (w - 1) / 2 = w / 2 - 1 := by omega
        rw [this, ih (w / 2) hw2 hlt2 j2]
        congr 1
        have : (j2 + 1 ≠ 1 + ctz_loop f (w / 2)) ↔ (j2 ≠ ctz_loop f (w / 2)) := by omega
        simp only [this]

/-- The loop over one 64-bit word calls back, in increasing order, exactly
`base + j` for the set bits `j` of the word. -/
theorem word_set_bits_spec (base : Int) (w : Nat) (hlt : w < 2 ^ 64) :
    (word_set_bits base w).Pairwise (fun x y => x < y) ∧
    ∀ x : Int, x ∈ word_set_bits base w ↔
      ∃ j : Nat, j < 64 ∧ w.testBit j = true ∧ x = base + (j : Int) := by
  induction w using Nat.strong_induction_on with
  | _ w ih =>
    rw [word_set_bits]
    by_cases h0 : w = 0
    · rw [if_pos h0]
      refine ⟨List.Pairwise.nil, ?_⟩
      intro x
      simp [h0]
    · rw [if_neg h0]
      have hle : w &&& (w - 1) ≤ w - 1 := Nat.and_le_right
      obtain ⟨p1, p2⟩ := ih (w &&& (w - 1)) (by omega) (by omega)
      obtain ⟨k1, k2, k3⟩ := ctz_loop_spec 64 w h0 hlt
      have hclear := clear_lowest_testBit 64 w h0 hlt
      have hk : ctzll w = ctz_loop 64 w := rfl
      constructor
      · rw [List.pairwise_cons]
        refine ⟨?_, p1⟩
        intro x hx
        obtain ⟨j, _, hj, rfl⟩ := (p2 x).mp hx
        rw [hclear j] at hj
        simp only [Bool.and_eq_true, decide_eq_true_eq] at hj
        have hjk : ¬ j < ctz_loop 64 w := by
          intro hlt2
          rw [k3 j hlt2] at hj
          exact absurd hj.1 (by simp)
        rw [hk]
        have : ctz_loop 64 w < j := by omega
        omega
      · intro x
        rw [List.mem_cons, p2 x]
        constructor
        · rintro (hx | ⟨j, hj64, hj, rfl⟩)
          · exact ⟨ctz_loop 64 w, k1, k2, by rw [hx, hk]⟩
          · rw [hclear j] at hj
            simp only [Bool.and_eq_true, decide_eq_true_eq] at hj
            exact ⟨j, hj64, hj.1, rfl⟩
        · rintro ⟨j, hj64, hj, rfl⟩
          by_cases hjk : j = ctz_loop 64 w
          · left
            rw [hk, hjk]
          · right
            refine ⟨j, hj64, ?_, rfl⟩
            rw [hclear j]
            simp [hj, hjk]

/-- The overflow word at an index inside the array is a 64-bit pattern. -/
theorem words_fit_getD (b : BitSet) (hfit : b.words_fit) (i : Nat) :
    b.dataX.getD i 0 < 2 ^ 64 := by
  by_cases hi : i < b.dataX.length
  · rw [List.getD_eq_getElem _ _ hi]
    exact hfit.2.2 _ (List.getElem_mem hi)
  · rw [List.getD_eq_default _ _ (by omega)]
    exact Nat.two_pow_pos 64

/-- The callbacks of `for_each_set_bit` come in increasing order and are exactly
the positions of the stored bits that are set. -/
theorem for_each_set_bit_spec (b : BitSet) (hfit : b.words_fit) (htail : b.tail_clear) :
    b.for_each_set_bit.Pairwise (fun x y => x < y) ∧
    ∀ x : Int, x ∈ b.for_each_set_bit ↔ ∃ n : Nat, x = (n : Int) ∧ b.stored_bit n = true := by
  obtain ⟨pA, mA⟩ := word_set_bits_spec 0 b.data0 hfit.1
  obtain ⟨pB, mB⟩ := word_set_bits_spec 64 b.data1 hfit.2.1
  have hX := fun (i : Nat) =>
    word_set_bits_spec (128 + (i : Int) * 64) (b.dataX.getD i 0) (words_fit_getD b hfit i)
  have hmemB : ∀ x : Int, x ∈ (if b.size_ > 64 then word_set_bits 64 b.data1 else []) →
      ∃ j : Nat, j < 64 ∧ b.data1.testBit j = true ∧ x = 64 + (j : Int) := by
    intro x hx
    split_ifs at hx
    · exact (mB x).mp hx
    · simp at hx
  have hmemC : ∀ x : Int, x ∈ (if b.size_ > 128 then
      (List.range b.dataX.length).flatMap (fun (i : Nat) =>
        word_set_bits (128 + (i : Int) * 64) (b.dataX.getD i 0)) else []) →
      ∃ i j : Nat, j < 64 ∧ (b.dataX.getD i 0).testBit j = true ∧
        x = 128 + (i : Int) * 64 + (j : Int) := by
    intro x hx
    split_ifs at hx
    · rw [List.mem_flatMap] at hx
      obtain ⟨i, _, hxi⟩ := hx
      obtain ⟨j, h1, h2, h3⟩ := ((hX i).2 x).mp hxi
      exact ⟨i, j, h1, h2, h3⟩
    · simp at hx
  constructor
  · unfold BitSet.for_each_set_bit
    rw [List.pairwise_append, List.pairwise_append]
    refine ⟨⟨pA, ?_, ?_⟩, ?_, ?_⟩
    · split_ifs
      · exact pB
      · exact List.Pairwise.nil
    · intro x hx y hy
      obtain ⟨j, h1, _, rfl⟩ := (mA x).mp hx
      obtain ⟨j2, _, _, rfl⟩ := hmemB y hy
      omega
    · split_ifs
      · rw [List.pairwise_flatMap]
        refine ⟨fun i _ => (hX i).1, ?_⟩
        refine List.Pairwise.imp ?_ (List.pairwise_lt_range b.dataX.length)
        intro i1 i2 hlt x hx y hy
        obtain ⟨j, h1, _, rfl⟩ := ((hX i1).2 x).mp hx
        obtain ⟨j2, _, _, rfl⟩ := ((hX i2).2 y).mp hy
        omega
      · exact List.Pairwise.nil
    · intro x hx y hy
      obtain ⟨i, j2, _, _, rfl⟩ := hmemC y hy
      rcases List.mem_append.mp hx with hx | hx
      · obtain ⟨j, h1, _, rfl⟩ := (mA x).mp hx
        omega
      · obtain ⟨j, h1, _, rfl⟩ := hmemB x hx
        omega
  · intro x
    unfold BitSet.for_each_set_bit
    rw [List.mem_append, List.mem_append]
    constructor
    · rintro ((hx | hx) | hx)
      · obtain ⟨j, h1, h2, rfl⟩ := (mA x).mp hx
        refine ⟨j, by simp, ?_⟩
        unfold BitSet.stored_bit
        rw [if_pos h1]
        exact h2
      · obtain ⟨j, h1, h2, rfl⟩ := hmemB x hx
        refine ⟨64 + j, by push_cast; ring, ?_⟩
        unfold BitSet.stored_bit
        rw [if_neg (by omega), if_pos (by omega)]
        have : 64 + j - 64 = j := by omega
        rw [this]
        exact h2
      · obtain ⟨i, j, h1, h2, rfl⟩ := hmemC x hx
        refine ⟨128 + i * 64 + j, by push_cast; ring, ?_⟩
        unfold BitSet.stored_bit
        rw [if_neg (by omega), if_neg (by omega)]
        have e1 : (128 + i * 64 + j - 128) / 64 = i := by omega
        have e2 : (128 + i * 64 + j - 128) % 64 = j := by omega
        rw [e1, e2]
        exact h2
    · rintro ⟨n, rfl, hn⟩
      have hsize : n < b.size_ := by
        by_contra hc
        rw [htail n (by omega)] at hn
        exact absurd hn (by simp)
      unfold BitSet.stored_bit at hn
      by_cases h64 : n < 64
      · rw [if_pos h64] at hn
        left; left
        exact (mA _).mpr ⟨n, h64, hn, by simp⟩
      · rw [if_neg h64] at hn
        by_cases h128 : n < 128
        · rw [if_pos h128] at hn
          left; right
          rw [if_pos (by omega)]
          exact (mB _).mpr ⟨n - 64, by omega, hn, by omega⟩
        · rw [if_neg h128] at hn
          right
          rw [if_pos (by omega)]
          have hi : (n - 128) / 64 < b.dataX.length := by
            by_contra hc
            rw [List.getD_eq_default _ _ (by omega), Nat.zero_testBit] at hn
            exact absurd hn (by simp)
          rw [List.mem_flatMap]
          refine ⟨(n - 128) / 64, List.mem_range.mpr hi, ?_⟩
          exact ((hX ((n - 128) / 64)).2 _).mpr ⟨(n - 128) % 64, Nat.mod_lt _ (by decide), hn,
            by omega⟩

/-- Under the storage invariant the bit that `get_bit` reads is the stored bit. -/
theorem get_bit_eq_stored_bit (b : BitSet) (htail : b.tail_clear) (n : Nat) :
    b.get_bit n = b.stored_bit n := by
  by_cases hn : n ≥ b.size_
  · rw [htail n hn]
    unfold BitSet.get_bit
    rw [if_pos hn]
  · unfold BitSet.get_bit BitSet.stored_bit
    rw [if_neg hn]
    rfl

/-- C23: for a bit set that satisfies the storage invariant (64-bit words, and
every stored bit at a position at or above the size is 0), `for_each_set_bit`
calls back in strictly increasing order, exactly on the indices of the set
bits, each once, so the number of calls is the number of set bits. -/
theorem for_each_set_bit_visits (b : BitSet) (hfit : b.words_fit) (htail : b.tail_clear) :
    b.for_each_set_bit.Pairwise (fun x y => x < y) ∧
    b.for_each_set_bit.Nodup ∧
    (∀ x : Int, x ∈ b.for_each_set_bit ↔ ∃ n : Nat, x = (n : Int) ∧ b.stored_bit n = true) ∧
    (∀ n : Nat, b.get_bit n = b.stored_bit n) ∧
    b.for_each_set_bit =
      ((List.range b.size_).filter (fun n => b.get_bit n)).map (fun (n : Nat) => (n : Int)) ∧
    b.for_each_set_bit.length = ((List.range b.size_).filter (fun n => b.get_bit n)).length := by
  obtain ⟨hp, hm⟩ := for_each_set_bit_spec b hfit htail
  have hsorted : (((List.range b.size_).filter (fun n => b.get_bit n)).map
      (fun (n : Nat) => (n : Int))).Pairwise (fun x y => x < y) := by
    rw [List.pairwise_map]
    apply List.Pairwise.filter
    refine List.Pairwise.imp ?_ (List.pairwise_lt_range b.size_)
    intro a c hac
    exact_mod_cast hac
  have heq : b.for_each_set_bit =
      ((List.range b.size_).filter (fun n => b.get_bit n)).map (fun (n : Nat) => (n : Int)) := by
    apply List.eq_of_perm_of_sorted ?_ hp hsorted
    rw [List.perm_ext_iff_of_nodup hp.nodup hsorted.nodup]
    intro x
    rw [hm x]
    simp only [List.mem_map, List.mem_filter, List.mem_range]
    constructor
    · rintro ⟨n, rfl, hn⟩
      rw [← get_bit_eq_stored_bit b htail n] at hn
      exact ⟨n, ⟨BitSet.get_bit_lt_size b n hn, hn⟩, rfl⟩
    · rintro ⟨n, ⟨_, hn⟩, rfl⟩
      rw [get_bit_eq_stored_bit b htail n] at hn
      exact ⟨n, rfl, hn⟩
  refine ⟨hp, hp.nodup, hm, get_bit_eq_stored_bit b htail, heq, ?_⟩
  rw [heq, List.length_map]

/-- The bit set `sparse_bits` satisfies the storage invariant. -/
theorem sparse_bits_tail_clear : sparse_bits.tail_clear := by
  intro i hi
  have hsize : sparse_bits.size_ = 200 := rfl
  rw [hsize] at hi
  unfold BitSet.stored_bit
  rw [if_neg (by omega), if_neg (by omega)]
  have hword : sparse_bits.dataX.getD ((i - 128) / 64) 0 = 0 := by
    have h1 : 1 ≤ (i - 128) / 64 := by omega
    match (i - 128) / 64, h1 with
    | 1, _ => rfl
    | k + 2, _ => rfl
  rw [hword, Nat.zero_testBit]

/-- The statement of C23 on `sparse_bits`, whose words hold the bits 1, 3, 64
and 130. -/
theorem for_each_set_bit_visits_witness :
    sparse_bits.for_each_set_bit =
      ((List.range sparse_bits.size_).filter (fun n => sparse_bits.get_bit n)).map
        (fun (n : Nat) => (n : Int)) ∧
    ((List.range sparse_bits.size_).filter (fun n => sparse_bits.get_bit n)).map
        (fun (n : Nat) => (n : Int)) = [1, 3, 64, 130] :=
  ⟨(for_each_set_bit_visits sparse_bits ⟨by decide, by decide, by decide⟩
      sparse_bits_tail_clear).2.2.2.2.1,
    by decide⟩

end WFC
